import Mathlib

/-!
# Verification of `su5kk/pipeline`

A shallow embedding of `src/pipeline.go`: the executor registry, the dependency
leveling (`sort`, `invertGraph`) and the sequential execution strategy, followed by
the properties proved about them.

Modelling conventions.

* A Go `map[string]V` is a partial function `String → Option V`.  A `range` loop
  over a map visits every key once, in an order the language leaves unspecified;
  each such loop therefore takes the visiting order as an explicit argument, and
  the theorems quantify over every order that enumerates the keys of the map
  without repetition (`GoMap.IsRange`).
* A lookup `m[k]` of an absent key yields the zero value of `V`: `[]` for a
  slice, `0` for an `int`.
* Go's `int` is modelled by `Int`; the counters of `sort` are bounded by the
  number of dependency entries of the graph, so no wrap-around occurs.
* The `for len(queue) > 0` loop of `sort` is modelled with fuel; `sort` supplies
  as much fuel as the in-degree map has keys and is proved never to exhaust it.
* An executor works on the payload by side effect; it is modelled as a state
  transformer that returns the new payload together with its error (`none` is
  Go's `nil`).  The model of `sequential` also returns the log of the calls it
  made, so that "is invoked" can be stated.
-/

namespace pipeline

/-! ## Go maps -/

/-- A Go map with string keys. -/
abbrev GoMap (V : Type) := String → Option V

namespace GoMap

/-- The map created by `make(map[string]V)`. -/
def empty {V : Type} : GoMap V := fun _ => none

/-- The assignment `m[k] = v`. -/
def set {V : Type} (m : GoMap V) (k : String) (v : V) : GoMap V :=
  fun k' => if k' = k then some v else m k'

/-- The map given by a literal `{k1: v1, k2: v2, ...}`. -/
def ofList {V : Type} (l : List (String × V)) : GoMap V := fun k => l.lookup k

/-- An order in which `range m` may visit the keys of `m`: every key, once. -/
def IsRange {V : Type} (m : GoMap V) (o : List String) : Prop :=
  o.Nodup ∧ ∀ k, k ∈ o ↔ (m k).isSome = true

end GoMap

/-! ## The leveling algorithm -/

/-- The visiting orders of the four `range`-over-map loops executed by one call of
`sort`: the two loops of `invertGraph` over `p.dependencyGraph`, the loop of `sort`
over `graph` and the loop of `sort` over `indegree`. -/
structure Orders where
  keys1 : List String
  keys2 : List String
  nodes : List String
  degrees : List String

/-- Runtime failures of the modelled code. -/
inductive Fault where
  | indexOutOfRange
  | nilDereference
  | outOfFuel
  deriving DecidableEq, Repr

/-- The body of the inner loop of `invertGraph`: `graph[dep] = append(graph[dep], node)`. -/
def invertEdge (node : String) (graph : GoMap (List String)) (dep : String) :
    GoMap (List String) :=
  graph.set dep ((graph dep).getD [] ++ [node])

/-- The method `Pipeline.invertGraph`: turns "task -> its dependencies" into
"dependency -> the tasks that depend on it". -/
def invertGraph (dependencyGraph : GoMap (List String)) (keys1 keys2 : List String) :
    GoMap (List String) :=
  let graph : GoMap (List String) := keys1.foldl (fun g key => g.set key []) GoMap.empty
  keys2.foldl
    (fun g node => ((dependencyGraph node).getD []).foldl (invertEdge node) g) graph

/-- The statement `indegree[neighbor]++`. -/
def incr (indegree : GoMap Int) (neighbor : String) : GoMap Int :=
  indegree.set neighbor ((indegree neighbor).getD 0 + 1)

/-- The body of the first loop of `sort`. -/
def countNode (graph : GoMap (List String)) (indegree : GoMap Int) (node : String) :
    GoMap Int :=
  let indegree := if (indegree node).isSome then indegree else indegree.set node 0
  ((graph node).getD []).foldl incr indegree

/-- The first loop of `sort`: the in-degree of every node of `graph`. -/
def countIndegree (graph : GoMap (List String)) (nodes : List String) : GoMap Int :=
  nodes.foldl (countNode graph) GoMap.empty

/-- The second loop of `sort`: the nodes of in-degree zero, in visiting order. -/
def initialQueue (indegree : GoMap Int) (degrees : List String) : List String :=
  degrees.foldl
    (fun queue node => if (indegree node).getD 0 = 0 then queue ++ [node] else queue) []

/-- The body of the innermost loop of `sort`: `indegree[neighbor]--`, and the
neighbor joins `nextQueue` when its counter has reached zero. -/
def relax (st : GoMap Int × List String) (neighbor : String) : GoMap Int × List String :=
  let indegree := st.1.set neighbor ((st.1 neighbor).getD 0 - 1)
  if (indegree neighbor).getD 0 = 0 then (indegree, st.2 ++ [neighbor]) else (indegree, st.2)

/-- The body of the loop `for _, node := range queue` of `sort`; the state is
`(indegree, currentLevel, nextQueue)`. -/
def visit (graph : GoMap (List String)) (st : GoMap Int × List String × List String)
    (node : String) : GoMap Int × List String × List String :=
  let currentLevel := st.2.1 ++ [node]
  let r := ((graph node).getD []).foldl relax (st.1, st.2.2)
  (r.1, currentLevel, r.2)

/-- The loop `for len(queue) > 0` of `sort`, with fuel. -/
def sortLoop (graph : GoMap (List String)) :
    Nat → GoMap Int → List String → List (List String) → Except Fault (List (List String))
  | _, _, [], result => Except.ok result
  | 0, _, _ :: _, _ => Except.error Fault.outOfFuel
  | fuel + 1, indegree, n :: queue, result =>
    let st := (n :: queue).foldl (visit graph) (indegree, [], [])
    sortLoop graph fuel st.1 st.2.2 (result ++ [st.2.1])

/-- The levels computed by `sort` for a configured dependency graph. -/
def sortLevels (dependencyGraph : GoMap (List String)) (ord : Orders) :
    Except Fault (List (List String)) :=
  let graph := invertGraph dependencyGraph ord.keys1 ord.keys2
  let indegree := countIndegree graph ord.nodes
  let queue := initialQueue indegree ord.degrees
  sortLoop graph ord.degrees.length indegree queue []

/-- The visiting orders handed to `sort` are possible ones for the maps ranged over. -/
def ValidOrders (dependencyGraph : GoMap (List String)) (ord : Orders) : Prop :=
  dependencyGraph.IsRange ord.keys1 ∧ dependencyGraph.IsRange ord.keys2 ∧
  (invertGraph dependencyGraph ord.keys1 ord.keys2).IsRange ord.nodes ∧
  (countIndegree (invertGraph dependencyGraph ord.keys1 ord.keys2) ord.nodes).IsRange
    ord.degrees

/-! ## The pipeline -/

/-- The interface `Executor[T]`: `Execute(ctx, payload) error`.  The payload is worked on in place;
the model returns the payload after the call and the error (`none` for `nil`). -/
abbrev Executor (Ctx T E : Type) := Ctx → T → T × Option E

/-- The type `ErrorHandler[T]`: `func(ctx, payload, err) (error, bool)`; the model also returns
the payload after the call. -/
abbrev ErrorHandler (Ctx T E : Type) := Ctx → T → E → T × Option E × Bool

/-- The type `Strategy`, an `int`. -/
abbrev Strategy := Int

/-- The constant `StrategySequential Strategy = iota`. -/
def StrategySequential : Strategy := 0

/-- The constant `StrategyParallel`, the second constant of the `iota` block. -/
def StrategyParallel : Strategy := 1

/-- The struct `Pipeline[T]`.  A `nil` map and a `nil` callback are `none`. -/
structure Pipeline (Ctx T E : Type) where
  ID : String
  executors : GoMap (Executor Ctx T E)
  strategy : Strategy
  q : List String
  groups : List (List String)
  dependencyGraph : Option (GoMap (List String))
  onError : Option (ErrorHandler Ctx T E)

/-- The type `Option[T]`: `func(p *Pipeline[T])`. -/
abbrev Opt (Ctx T E : Type) := Pipeline Ctx T E → Pipeline Ctx T E

/-- The option `WithDependencyGraph(g)`. -/
def WithDependencyGraph {Ctx T E : Type} (g : Option (GoMap (List String))) : Opt Ctx T E :=
  fun p => { p with dependencyGraph := g }

/-- The option `WithErrorCallback(f)`. -/
def WithErrorCallback {Ctx T E : Type} (f : Option (ErrorHandler Ctx T E)) : Opt Ctx T E :=
  fun p => { p with onError := f }

/-- The option `WithExecutionStrategy(strategy)`. -/
def WithExecutionStrategy {Ctx T E : Type} (strategy : Strategy) : Opt Ctx T E :=
  fun p => { p with strategy := strategy }

/-- The constructor `New(id, opts...)`: `groups` is `make([][]string, 1)`, one empty group. -/
def New {Ctx T E : Type} (id : String) (opts : List (Opt Ctx T E)) : Pipeline Ctx T E :=
  opts.foldl (fun p opt => opt p)
    { ID := id, executors := GoMap.empty, strategy := StrategySequential, q := [],
      groups := [[]], dependencyGraph := none, onError := none }

/-- The method `Pipeline.sort`: without a dependency graph nothing changes, otherwise `groups`
is replaced by the computed levels. -/
def Pipeline.sort {Ctx T E : Type} (p : Pipeline Ctx T E) (ord : Orders) :
    Except Fault (Pipeline Ctx T E) :=
  match p.dependencyGraph with
  | none => Except.ok p
  | some dependencyGraph =>
    match sortLevels dependencyGraph ord with
    | Except.ok result => Except.ok { p with groups := result }
    | Except.error f => Except.error f

/-- The method `Pipeline.AddExecutor`: indexing `p.groups[0]` fails when `groups` is empty. -/
def Pipeline.AddExecutor {Ctx T E : Type} (p : Pipeline Ctx T E) (ord : Orders)
    (id : String) (exec : Executor Ctx T E) : Except Fault (Pipeline Ctx T E) :=
  match p.groups with
  | [] => Except.error Fault.indexOutOfRange
  | g :: gs =>
    Pipeline.sort { p with executors := p.executors.set id exec, groups := (g ++ [id]) :: gs } ord

/-- A sequence of `AddExecutor` calls, each with the visiting orders of its `sort`. -/
def Pipeline.addExecutors {Ctx T E : Type} :
    Pipeline Ctx T E → List (String × Executor Ctx T E × Orders) →
      Except Fault (Pipeline Ctx T E)
  | p, [] => Except.ok p
  | p, (id, exec, ord) :: rest =>
    match p.AddExecutor ord id exec with
    | Except.ok p1 => Pipeline.addExecutors p1 rest
    | Except.error f => Except.error f

/-! ## Sequential execution -/

/-- One entry of the call log: the executor invoked, the error it returned, and the
answer of the error callback when it was consulted. -/
structure Event (E : Type) where
  name : String
  err : Option E
  answer : Option (Option E × Bool)

/-- How a call of `Execute` ends: it returns an error value, or the runtime panics. -/
inductive Status (E : Type) where
  | returned (err : Option E)
  | panicked (f : Fault)

/-- What a call of `Execute` leaves behind. -/
structure Run (T E : Type) where
  status : Status E
  payload : T
  trace : List (Event E)

/-- The inner loop of `sequential` over one group; `next` is the rest of the outer
loop.  Calling `Execute` on the `nil` interface of an absent name panics. -/
def Pipeline.sequentialGroup {Ctx T E : Type} (p : Pipeline Ctx T E) (ctx : Ctx)
    (next : T → List (Event E) → Run T E) : List String → T → List (Event E) → Run T E
  | [], payload, trace => next payload trace
  | execName :: group, payload, trace =>
    match p.executors execName with
    | none => ⟨Status.panicked Fault.nilDereference, payload, trace⟩
    | some exec =>
      match exec ctx payload with
      | (payload1, none) =>
        Pipeline.sequentialGroup p ctx next group payload1 (trace ++ [⟨execName, none, none⟩])
      | (payload1, some err) =>
        match p.onError with
        | none => ⟨Status.returned (some err), payload1, trace ++ [⟨execName, some err, none⟩]⟩
        | some onError =>
          match onError ctx payload1 err with
          | (payload2, onErr, true) =>
            Pipeline.sequentialGroup p ctx next group payload2
              (trace ++ [⟨execName, some err, some (onErr, true)⟩])
          | (payload2, onErr, false) =>
            ⟨Status.returned onErr, payload2,
              trace ++ [⟨execName, some err, some (onErr, false)⟩]⟩

/-- The outer loop of `sequential` over the groups, ending in `return nil`. -/
def Pipeline.sequentialFrom {Ctx T E : Type} (p : Pipeline Ctx T E) (ctx : Ctx) :
    List (List String) → T → List (Event E) → Run T E
  | [], payload, trace => ⟨Status.returned none, payload, trace⟩
  | group :: groups, payload, trace =>
    Pipeline.sequentialGroup p ctx (Pipeline.sequentialFrom p ctx groups) group payload trace

/-- The method `Pipeline.sequential`. -/
def Pipeline.sequential {Ctx T E : Type} (p : Pipeline Ctx T E) (ctx : Ctx) (payload : T) :
    Run T E :=
  Pipeline.sequentialFrom p ctx p.groups payload []

/-- The method `Pipeline.Execute`.  The parallel strategy is a parameter of the model. -/
def Pipeline.Execute {Ctx T E : Type} (parallel : Pipeline Ctx T E → Ctx → T → Run T E)
    (p : Pipeline Ctx T E) (ctx : Ctx) (payload : T) : Run T E :=
  if p.strategy = StrategyParallel then parallel p ctx payload
  else if p.strategy = StrategySequential then p.sequential ctx payload
  else ⟨Status.returned none, payload, []⟩

/-- The names of the executors invoked, in order of invocation. -/
def Run.invoked {T E : Type} (r : Run T E) : List String := r.trace.map Event.name

/-! ## Notions used in the statements -/

/-- The payload after the executors of `names` have been applied one after another. -/
def applyInOrder {Ctx T E : Type} (p : Pipeline Ctx T E) (ctx : Ctx) : List String → T → T
  | [], payload => payload
  | n :: names, payload =>
    match p.executors n with
    | some exec => applyInOrder p ctx names (exec ctx payload).1
    | none => applyInOrder p ctx names payload

/-- Every name of `names` is registered and its executor succeeds when the executors
are applied one after another from `payload`. -/
def allSucceed {Ctx T E : Type} (p : Pipeline Ctx T E) (ctx : Ctx) : List String → T → Prop
  | [], _ => True
  | n :: names, payload =>
    ∃ exec, p.executors n = some exec ∧ (exec ctx payload).2 = none ∧
      allSucceed p ctx names (exec ctx payload).1

/-- The failure logged by `ev`, if any, was answered by the callback with "continue". -/
def Event.recovered {E : Type} (ev : Event E) : Prop :=
  ev.err = none ∨ ∃ onErr, ev.answer = some (onErr, true)

/-- The last call logged was a failure that the callback answered with `(nil, false)`. -/
def Run.cleanStop {T E : Type} (r : Run T E) : Prop :=
  ∃ ev, r.trace.getLast? = some ev ∧ ev.err ≠ none ∧ ev.answer = some (none, false)

/-- A log in which every call either succeeded or was answered with "continue". -/
def GoodLog {E : Type} (tr : List (Event E)) : Prop :=
  ∀ ev ∈ tr, (ev.err = none ∧ ev.answer = none) ∨
    (ev.err ≠ none ∧ ∃ onErr, ev.answer = some (onErr, true))

/-! ## The example programs -/

/-- The payload of the examples, `prices map[string]float64`.  The examples only
store the values `1` and `1 + 1`, which `float64` represents exactly; they are
modelled by integers. -/
abbrev Prices := GoMap Int

/-- The executor `milk` of the examples. -/
def milkExec : Executor Unit Prices String :=
  fun _ prices => (prices.set "milk" 1, none)

/-- The executor `eggs` of the examples. -/
def eggsExec : Executor Unit Prices String :=
  fun _ prices => (prices.set "eggs" 1, none)

/-- The executor `scramble` of `examples/simple`. -/
def scrambleExec : Executor Unit Prices String :=
  fun _ prices =>
    (prices.set "scramble" ((prices "eggs").getD 0 + (prices "milk").getD 0), none)

/-- The executor `scramble` of `examples/errors`, which checks its inputs. -/
def scrambleChecked : Executor Unit Prices String :=
  fun _ prices =>
    if (prices "eggs").isNone then (prices, some "eggs not found")
    else if (prices "milk").isNone then (prices, some "milk not found")
    else (prices.set "scramble" ((prices "eggs").getD 0 + (prices "milk").getD 0), none)

/-- The error callback of `examples/errors`: `return nil, true`. -/
def ignoreErrors : ErrorHandler Unit Prices String :=
  fun _ prices _ => (prices, none, true)

/-- A callback that stops the run without an error: `return nil, false`. -/
def stopQuietly : ErrorHandler Unit Prices String :=
  fun _ prices _ => (prices, none, false)

/-- The callback `return err, false`. -/
def failFast : ErrorHandler Unit Prices String :=
  fun _ prices err => (prices, some err, false)

/-- Visiting orders for a `sort` that ranges over no map. -/
def noOrders : Orders := ⟨[], [], [], []⟩

/-- A stand-in for the parallel strategy where only the sequential one is run. -/
def noParallel : Pipeline Unit Prices String → Unit → Prices → Run Prices String :=
  fun _ _ prices => ⟨Status.returned none, prices, []⟩

/-- The pipeline of `examples/simple` after its three `AddExecutor` calls. -/
def simplePipeline : Pipeline Unit Prices String :=
  { ID := "prices"
    executors :=
      ((GoMap.empty.set "milk" milkExec).set "eggs" eggsExec).set "scramble" scrambleExec
    strategy := StrategySequential
    q := []
    groups := [["milk", "eggs", "scramble"]]
    dependencyGraph := none
    onError := none }

/-- The pipeline of `examples/errors` after its three `AddExecutor` calls. -/
def errorsPipeline : Pipeline Unit Prices String :=
  { ID := "prices"
    executors :=
      ((GoMap.empty.set "scramble" scrambleChecked).set "milk" milkExec).set "eggs" eggsExec
    strategy := StrategySequential
    q := []
    groups := [["scramble", "milk", "eggs"]]
    dependencyGraph := none
    onError := some ignoreErrors }

/-- A pipeline with the graph `{milk: [], scramble: [], eggs: [milk]}` and no error
callback, after its three `AddExecutor` calls: `scramble` runs before `eggs`. -/
def abortPipeline : Pipeline Unit Prices String :=
  { ID := "prices"
    executors :=
      ((GoMap.empty.set "milk" milkExec).set "scramble" scrambleChecked).set "eggs" eggsExec
    strategy := StrategySequential
    q := []
    groups := [["milk", "scramble"], ["eggs"]]
    dependencyGraph :=
      some (GoMap.ofList [("milk", []), ("scramble", []), ("eggs", ["milk"])])
    onError := none }

/-- Visiting orders for the `sort` calls that build `abortPipeline`. -/
def abortOrders : Orders :=
  { keys1 := ["milk", "scramble", "eggs"]
    keys2 := ["eggs", "milk", "scramble"]
    nodes := ["scramble", "eggs", "milk"]
    degrees := ["milk", "scramble", "eggs"] }

/-- The pipeline of `examples/errors` with a callback that answers `(nil, false)`. -/
def quietPipeline : Pipeline Unit Prices String :=
  { ID := "prices"
    executors :=
      ((GoMap.empty.set "scramble" scrambleChecked).set "milk" milkExec).set "eggs" eggsExec
    strategy := StrategySequential
    q := []
    groups := [["scramble", "milk", "eggs"]]
    dependencyGraph := none
    onError := some stopQuietly }

/-! ## Notions about the dependency graph -/

/-- The dependencies declared for `t`: `dependencyGraph[t]`. -/
def depsOf (dependencyGraph : GoMap (List String)) (t : String) : List String :=
  (dependencyGraph t).getD []

/-- The name `x` is mentioned in the graph, as a key or in a dependency list. -/
def Mentioned (dependencyGraph : GoMap (List String)) (x : String) : Prop :=
  (dependencyGraph x).isSome = true ∨ ∃ t, x ∈ depsOf dependencyGraph t

/-- The task `t` lists `d` as a dependency. -/
def DependsOn (dependencyGraph : GoMap (List String)) (t d : String) : Prop :=
  d ∈ depsOf dependencyGraph t

/-- No task depends on itself, directly or through other tasks. -/
def Acyclic (dependencyGraph : GoMap (List String)) : Prop :=
  ∀ x, ¬ Relation.TransGen (DependsOn dependencyGraph) x x

/-- The number of entries of the dependency list of `t` that are not in `done`. -/
def unmet (dependencyGraph : GoMap (List String)) (done : List String) (t : String) : Nat :=
  (depsOf dependencyGraph t).countP (fun d => decide (d ∉ done))

/-- The levels `levels` continue the leveling of the graph after the names of `done`:
each level consists of the mentioned names outside the earlier levels and `done` whose
dependencies all lie in them, no level is empty, and no such name is left at the end. -/
def Leveling (dependencyGraph : GoMap (List String)) : List String → List (List String) → Prop
  | done, [] =>
    ∀ x, Mentioned dependencyGraph x → x ∉ done → unmet dependencyGraph done x ≠ 0
  | done, level :: levels =>
    level ≠ [] ∧ level.Nodup ∧
    (∀ x, x ∈ level ↔ Mentioned dependencyGraph x ∧ x ∉ done ∧ unmet dependencyGraph done x = 0) ∧
    Leveling dependencyGraph (done ++ level) levels

/-- The invariant of the loop `for len(queue) > 0` of `sort`, where `done` collects the
levels produced so far: every counter holds the number of dependency entries still
unmet, and the queue holds the mentioned names outside `done` with no unmet entry. -/
def SortInv (dependencyGraph : GoMap (List String)) (done : List String)
    (indegree : GoMap Int) (queue : List String) : Prop :=
  (∀ x, (indegree x).getD 0 = (unmet dependencyGraph done x : Int)) ∧
  queue.Nodup ∧
  (∀ x, x ∈ queue ↔
    Mentioned dependencyGraph x ∧ x ∉ done ∧ unmet dependencyGraph done x = 0) ∧
  (∀ x ∈ done, unmet dependencyGraph done x = 0)

/-! ## The example graph -/

/-- The dependency graph `{db: [], eggs: [db], milk: [db], scramble: [eggs, milk]}`. -/
def breakfastGraph : GoMap (List String) :=
  GoMap.ofList [("db", []), ("eggs", ["db"]), ("milk", ["db"]), ("scramble", ["eggs", "milk"])]

/-- One choice of visiting orders for the maps that `sort` ranges over on
`breakfastGraph`. -/
def breakfastOrders : Orders :=
  { keys1 := ["db", "eggs", "milk", "scramble"]
    keys2 := ["scramble", "db", "milk", "eggs"]
    nodes := ["milk", "db", "scramble", "eggs"]
    degrees := ["scramble", "eggs", "db", "milk"] }

/-- A pipeline configured with `breakfastGraph`, as `New` returns it. -/
def breakfastPipeline : Pipeline Unit Prices String :=
  New "breakfast" [WithDependencyGraph (some breakfastGraph)]

/-- The position of a name in the listing `db, eggs, milk, scramble`. -/
def breakfastRank (x : String) : Nat := ["db", "eggs", "milk", "scramble"].indexOf x

/-- The pipeline configured with `breakfastGraph` after `milk` has been registered,
the maps having been ranged over in the orders `breakfastOrders`. -/
def breakfastRegistered : Pipeline Unit Prices String :=
  { ID := "breakfast"
    executors := GoMap.empty.set "milk" milkExec
    strategy := StrategySequential
    q := []
    groups := [["db"], ["milk", "eggs"], ["scramble"]]
    dependencyGraph := some breakfastGraph
    onError := none }

/-- Another choice of visiting orders for `breakfastGraph`. -/
def breakfastOrdersAlt : Orders :=
  { keys1 := ["scramble", "milk", "eggs", "db"]
    keys2 := ["eggs", "milk", "db", "scramble"]
    nodes := ["db", "eggs", "milk", "scramble"]
    degrees := ["db", "eggs", "milk", "scramble"] }

/-- The graph `{scramble: [eggs]}`, in which `eggs` is no key. -/
def scrambleGraph : GoMap (List String) := GoMap.ofList [("scramble", ["eggs"])]

/-- Visiting orders for `scrambleGraph`. -/
def scrambleOrders : Orders :=
  { keys1 := ["scramble"]
    keys2 := ["scramble"]
    nodes := ["eggs", "scramble"]
    degrees := ["scramble", "eggs"] }

/-- The graph `{milk: [milk]}`, whose only task depends on itself. -/
def selfLoopGraph : GoMap (List String) := GoMap.ofList [("milk", ["milk"])]

/-- Visiting orders for `selfLoopGraph`. -/
def selfLoopOrders : Orders :=
  { keys1 := ["milk"], keys2 := ["milk"], nodes := ["milk"], degrees := ["milk"] }

/-- The name `x` lies on a dependency cycle; a task that lists itself does. -/
def OnCycle (dependencyGraph : GoMap (List String)) (x : String) : Prop :=
  Relation.TransGen (DependsOn dependencyGraph) x x

/-- The name `x` lies on a dependency cycle or depends, directly or through other
tasks, on a name that does. -/
def ReachesCycle (dependencyGraph : GoMap (List String)) (x : String) : Prop :=
  ∃ y, Relation.ReflTransGen (DependsOn dependencyGraph) x y ∧ OnCycle dependencyGraph y

/-- A graph with a task that lists itself, a cycle of two tasks, a task that depends
on the cycle, and a duplicate entry in a dependency list. -/
def tangledGraph : GoMap (List String) :=
  GoMap.ofList [("eggs", ["db", "db"]), ("milk", ["milk"]), ("scramble", ["cereal"]),
    ("cereal", ["scramble", "eggs"]), ("breakfast", ["milk"])]

/-- Visiting orders for `tangledGraph`. -/
def tangledOrders : Orders :=
  { keys1 := ["eggs", "milk", "scramble", "cereal", "breakfast"]
    keys2 := ["breakfast", "cereal", "scramble", "milk", "eggs"]
    nodes := ["db", "breakfast", "eggs", "cereal", "milk", "scramble"]
    degrees := ["scramble", "milk", "db", "cereal", "eggs", "breakfast"] }

/-- A pipeline configured with `tangledGraph`, as `New` returns it. -/
def tangledPipeline : Pipeline Unit Prices String :=
  New "tangled" [WithDependencyGraph (some tangledGraph)]

/-- The option `o` is one of the three options the package provides. -/
def IsOption {Ctx T E : Type} (o : Opt Ctx T E) : Prop :=
  (∃ g, o = WithDependencyGraph g) ∨ (∃ f, o = WithErrorCallback f) ∨
    (∃ s, o = WithExecutionStrategy s)

/-- Every name in a level is one of `names` or is mentioned in the configured graph. -/
def ScheduledFrom {Ctx T E : Type} (p : Pipeline Ctx T E) (names : List String) : Prop :=
  ∀ n ∈ p.groups.flatten, n ∈ names ∨ ∃ dg, p.dependencyGraph = some dg ∧ Mentioned dg n

/-- The index of the first level that contains `x` (the number of levels when none
does). -/
def levelIndex (levels : List (List String)) (x : String) : Nat :=
  levels.findIdx (fun level => decide (x ∈ level))

/-- A chain of `n` dependency steps starts at `x`: `x` depends on a name that depends
on a name, and so on, `n` times. -/
inductive DepChain (dependencyGraph : GoMap (List String)) : String → Nat → Prop where
  | zero (x : String) : DepChain dependencyGraph x 0
  | succ {x d : String} {n : Nat} (h : DependsOn dependencyGraph x d)
      (rest : DepChain dependencyGraph d n) : DepChain dependencyGraph x (n + 1)

/-- The dependency graph of `examples/parallel`. -/
def parallelGraph : GoMap (List String) :=
  GoMap.ofList [("db", []), ("eggs", ["db"]), ("milk", ["db"]), ("scramble", ["eggs", "milk"]),
    ("cereal", ["milk"]), ("breakfast", ["scramble", "cereal"]), ("carrots", ["db"]),
    ("cabbages", ["db"])]

/-- One choice of visiting orders for `parallelGraph`. -/
def parallelOrders : Orders :=
  { keys1 := ["db", "eggs", "milk", "scramble", "cereal", "breakfast", "carrots", "cabbages"]
    keys2 := ["eggs", "milk", "carrots", "cabbages", "db", "breakfast", "scramble", "cereal"]
    nodes := ["breakfast", "db", "cereal", "eggs", "cabbages", "milk", "scramble", "carrots"]
    degrees := ["cabbages", "scramble", "db", "carrots", "milk", "breakfast", "eggs", "cereal"] }

/-- The position of a name in a listing of `parallelGraph` that puts every task
after its dependencies. -/
def parallelRank (x : String) : Nat :=
  ["db", "eggs", "milk", "carrots", "cabbages", "scramble", "cereal", "breakfast"].indexOf x

/-- A pipeline configured with `parallelGraph`, as `New` returns it. -/
def parallelPipeline : Pipeline Unit Prices String :=
  New "prices" [WithDependencyGraph (some parallelGraph),
    WithExecutionStrategy StrategyParallel]

/-! ## The parallel strategy

`parallel` is modelled as a transition system over the interleavings of the main
goroutine and the goroutines it starts.  The main goroutine walks through the two
nested loops, `wg.Wait()`, and the final reading of `errs`; a goroutine is started,
lets `e.Execute` take effect, and reports a failure on `errs`, a channel whose buffer
holds one value.  The executors are taken to synchronise their access to the payload,
as those of `examples/parallel` do with a mutex, so that the effect of one call of
`Execute` takes place at one instant between its start and its return. -/

/-- A goroutine started by `parallel`: the index of its group, the name and the
executor `p.executors[execName]` it was given. -/
structure Task (Ctx T E : Type) where
  level : Nat
  name : String
  exec : Option (Executor Ctx T E)

/-- What the goroutines of `parallel` do, as an observer sees it: an executor is
called, an executor returns. -/
inductive ParEvent (E : Type) where
  | started (level : Nat) (name : String)
  | finished (level : Nat) (name : String) (err : Option E)

/-- The point of `parallel` at which the main goroutine stands: at the head of the
loop over the groups, inside the loop over one group (with the names already visited
and those still to visit), at `wg.Wait()`, after `return`, or stopped by a panic. -/
inductive MainPc (E : Type) where
  | outer (rest : List (List String))
  | inner (launched todo : List String) (rest : List (List String))
  | waiting (launched : List String) (rest : List (List String))
  | returned (err : Option E)
  | crashed

/-- A state of a run of `parallel`: the main goroutine, the index of the current
group, the counter of `wg`, the buffer of `errs`, the goroutines created and not yet
started, those inside `e.Execute`, the errors whose goroutines are at `errs <- err`,
the payload and the log. -/
structure ParState (Ctx T E : Type) where
  pc : MainPc E
  level : Nat
  wg : Int
  errs : List E
  spawned : List (Task Ctx T E)
  running : List (Task Ctx T E)
  sending : List E
  payload : T
  trace : List (ParEvent E)

/-- The loop `for err := range errs` of `parallel` over the values left in the closed
channel, and the `return nil` after it. -/
def drain {Ctx T E : Type} (p : Pipeline Ctx T E) (ctx : Ctx) : List E → T → Option E × T
  | [], payload => (none, payload)
  | err :: errs, payload =>
    match p.onError with
    | none => (some err, payload)
    | some onError =>
      match onError ctx payload err with
      | (payload1, _, true) => drain p ctx errs payload1
      | (payload1, onErr, false) => (onErr, payload1)

/-- The capacity of `errs`: `make(chan error, 1)`. -/
def errsCapacity : Nat := 1

/-- The next step of the main goroutine; `none` when it is blocked or has ended. -/
def mainStep {Ctx T E : Type} (p : Pipeline Ctx T E) (ctx : Ctx) (s : ParState Ctx T E) :
    Option (ParState Ctx T E) :=
  match s.pc with
  | MainPc.outer [] =>
    some { s with pc := MainPc.returned (drain p ctx s.errs s.payload).1,
                  payload := (drain p ctx s.errs s.payload).2 }
  | MainPc.outer (group :: rest) => some { s with pc := MainPc.inner [] group rest }
  | MainPc.inner launched [] rest => some { s with pc := MainPc.waiting launched rest }
  | MainPc.inner launched (execName :: todo) rest =>
    some { s with pc := MainPc.inner (launched ++ [execName]) todo rest,
                  wg := s.wg + 1,
                  spawned := s.spawned ++ [⟨s.level, execName, p.executors execName⟩] }
  | MainPc.waiting _ rest =>
    if s.wg = 0 then some { s with pc := MainPc.outer rest, level := s.level + 1 } else none
  | MainPc.returned _ => none
  | MainPc.crashed => none

/-- The program still runs: no goroutine has panicked. -/
def ParState.alive {Ctx T E : Type} (s : ParState Ctx T E) : Bool :=
  match s.pc with
  | MainPc.crashed => false
  | _ => true

/-- The goroutine at position `i` among the created ones calls `e.Execute`; on the
`nil` interface of an absent name the call panics. -/
def startStep {Ctx T E : Type} (s : ParState Ctx T E) (i : Nat) : Option (ParState Ctx T E) :=
  if s.alive then
    match s.spawned[i]? with
    | none => none
    | some g =>
      match g.exec with
      | none => some { s with pc := MainPc.crashed }
      | some _ =>
        some { s with spawned := s.spawned.eraseIdx i,
                      running := s.running ++ [g],
                      trace := s.trace ++ [ParEvent.started g.level g.name] }
  else none

/-- The call `e.Execute(ctx, payload)` of the goroutine at position `i` among the
running ones takes effect and returns; on success the goroutine ends with `wg.Done()`,
on failure it goes on to `errs <- err`. -/
def completeStep {Ctx T E : Type} (ctx : Ctx) (s : ParState Ctx T E) (i : Nat) :
    Option (ParState Ctx T E) :=
  if s.alive then
    match s.running[i]? with
    | none => none
    | some g =>
      match g.exec with
      | none => none
      | some exec =>
        match exec ctx s.payload with
        | (payload1, none) =>
          some { s with running := s.running.eraseIdx i,
                        payload := payload1,
                        wg := s.wg - 1,
                        trace := s.trace ++ [ParEvent.finished g.level g.name none] }
        | (payload1, some err) =>
          some { s with running := s.running.eraseIdx i,
                        payload := payload1,
                        sending := s.sending ++ [err],
                        trace := s.trace ++ [ParEvent.finished g.level g.name (some err)] }
  else none

/-- The send `errs <- err` of the goroutine at position `i` among the sending ones
goes through when the buffer has room; the goroutine then ends with `wg.Done()`. -/
def sendStep {Ctx T E : Type} (s : ParState Ctx T E) (i : Nat) : Option (ParState Ctx T E) :=
  if s.alive then
    match s.sending[i]? with
    | none => none
    | some err =>
      if s.errs.length < errsCapacity then
        some { s with sending := s.sending.eraseIdx i,
                      errs := s.errs ++ [err],
                      wg := s.wg - 1 }
      else none
  else none

/-- The steps a scheduler can choose from. -/
inductive ParAction where
  | main
  | start (i : Nat)
  | complete (i : Nat)
  | send (i : Nat)

/-- One step of a run of `parallel`. -/
def parStep {Ctx T E : Type} (p : Pipeline Ctx T E) (ctx : Ctx) (s : ParState Ctx T E) :
    ParAction → Option (ParState Ctx T E)
  | ParAction.main => mainStep p ctx s
  | ParAction.start i => startStep s i
  | ParAction.complete i => completeStep ctx s i
  | ParAction.send i => sendStep s i

/-- The state in which `parallel` is entered. -/
def parInit {Ctx T E : Type} (p : Pipeline Ctx T E) (payload : T) : ParState Ctx T E :=
  { pc := MainPc.outer p.groups, level := 0, wg := 0, errs := [], spawned := [],
    running := [], sending := [], payload := payload, trace := [] }

/-- The state reached by a schedule, when each of its steps can be taken. -/
def parRun {Ctx T E : Type} (p : Pipeline Ctx T E) (ctx : Ctx) :
    List ParAction → ParState Ctx T E → Option (ParState Ctx T E)
  | [], s => some s
  | a :: schedule, s =>
    match parStep p ctx s a with
    | none => none
    | some s1 => parRun p ctx schedule s1

/-- The states that the runs of `parallel` on `payload` pass through. -/
inductive ParReachable {Ctx T E : Type} (p : Pipeline Ctx T E) (ctx : Ctx) (payload : T) :
    ParState Ctx T E → Prop where
  | init : ParReachable p ctx payload (parInit p payload)
  | step {s s1 : ParState Ctx T E} (a : ParAction) (h : ParReachable p ctx payload s)
      (hstep : parStep p ctx s a = some s1) : ParReachable p ctx payload s1

/-- No step can be taken although `parallel` has neither returned nor panicked. -/
def ParState.deadlocked {Ctx T E : Type} (p : Pipeline Ctx T E) (ctx : Ctx)
    (s : ParState Ctx T E) : Prop :=
  (∀ a, parStep p ctx s a = none) ∧ (∀ err, s.pc ≠ MainPc.returned err) ∧
    s.pc ≠ MainPc.crashed

/-- The executor `n` of level `i` has returned, according to the log. -/
def Finished {E : Type} (trace : List (ParEvent E)) (i : Nat) (n : String) : Prop :=
  ∃ err, ParEvent.finished i n err ∈ trace

/-- The barrier between the levels, on a log: wherever an executor of a level is
started, every executor of every earlier level has returned before. -/
def Barrier {E : Type} (groups : List (List String)) (trace : List (ParEvent E)) : Prop :=
  ∀ (pre post : List (ParEvent E)) (j : Nat) (m : String),
    trace = pre ++ ParEvent.started j m :: post →
    ∀ (i : Nat) (li : List String), i < j → groups[i]? = some li → ∀ n ∈ li, Finished pre i n

/-- The event logs the return of an executor with an error. -/
def ParEvent.isFailure {E : Type} : ParEvent E → Bool
  | ParEvent.finished _ _ (some _) => true
  | _ => false

/-- The number of executors that have returned an error, according to the log. -/
def failures {E : Type} (trace : List (ParEvent E)) : Nat :=
  trace.countP ParEvent.isFailure

/-- The names of the current group for which a goroutine has been created. -/
def MainPc.launchedNames {E : Type} : MainPc E → List String
  | MainPc.inner launched _ _ => launched
  | MainPc.waiting launched _ => launched
  | _ => []

/-- The main goroutine stands where its counters say: the groups from index `level` on
are the one being worked on and those left; outside the groups no goroutine lives. -/
def Position {Ctx T E : Type} (p : Pipeline Ctx T E) (s : ParState Ctx T E) : Prop :=
  match s.pc with
  | MainPc.outer rest =>
    p.groups.drop s.level = rest ∧ s.spawned = [] ∧ s.running = [] ∧ s.sending = []
  | MainPc.inner launched todo rest => p.groups.drop s.level = (launched ++ todo) :: rest
  | MainPc.waiting launched rest => p.groups.drop s.level = launched :: rest
  | MainPc.returned _ =>
    p.groups.length ≤ s.level ∧ s.spawned = [] ∧ s.running = [] ∧ s.sending = []
  | MainPc.crashed => True

/-- The invariant of the runs of `parallel`. -/
structure ParInv {Ctx T E : Type} (p : Pipeline Ctx T E) (s : ParState Ctx T E) : Prop where
  position : Position p s
  counter : s.wg = (s.spawned.length : Int) + s.running.length + s.sending.length
  current : ∀ g ∈ s.spawned ++ s.running,
    g.level = s.level ∧ ∃ l : List String, p.groups[s.level]? = some l ∧ g.name ∈ l
  earlier : ∀ (i : Nat) (li : List String), i < s.level → p.groups[i]? = some li →
    ∀ n ∈ li, Finished s.trace i n
  launched : ∀ n ∈ s.pc.launchedNames,
    (∃ g ∈ s.spawned ++ s.running, g.name = n) ∨ Finished s.trace s.level n
  barrier : Barrier p.groups s.trace
  buffer : s.errs.length ≤ errsCapacity ∧ failures s.trace = s.sending.length + s.errs.length
  startedIn : ∀ (j : Nat) (m : String), ParEvent.started j m ∈ s.trace →
    ∃ l : List String, p.groups[j]? = some l ∧ m ∈ l

/-- The executor `db` of `examples/parallel`: it replaces the price table. -/
def dbExec : Executor Unit Prices String :=
  fun _ _ => (GoMap.ofList [("eggs", 0), ("milk", 0)], none)

/-- The pipeline `abortPipeline` with the parallel strategy. -/
def abortParallel : Pipeline Unit Prices String :=
  WithExecutionStrategy StrategyParallel abortPipeline

/-- A schedule of a run of `abortParallel` to its return. -/
def abortSchedule : List ParAction :=
  [ParAction.main, ParAction.main, ParAction.main, ParAction.main,
    ParAction.start 1, ParAction.start 0, ParAction.complete 0, ParAction.complete 0,
    ParAction.send 0, ParAction.main,
    ParAction.main, ParAction.main, ParAction.main, ParAction.start 0, ParAction.complete 0,
    ParAction.main, ParAction.main]

/-- A pipeline with the parallel strategy and one level of two executors that both
fail on the empty payload. -/
def twoFailures : Pipeline Unit Prices String :=
  { ID := "prices"
    executors := (GoMap.empty.set "scramble" scrambleChecked).set "omelette" scrambleChecked
    strategy := StrategyParallel
    q := []
    groups := [["scramble", "omelette"]]
    dependencyGraph := none
    onError := none }

/-- A schedule of a run of `twoFailures` in which both executors have returned. -/
def twoFailuresSchedule : List ParAction :=
  [ParAction.main, ParAction.main, ParAction.main, ParAction.main,
    ParAction.start 0, ParAction.start 0, ParAction.complete 0, ParAction.complete 0,
    ParAction.send 0]

/-- The pipeline configured with `breakfastGraph` and the parallel strategy, after the
executors of `examples/parallel` for its four names have been registered. -/
def breakfastParallel : Pipeline Unit Prices String :=
  { ID := "prices"
    executors := (((GoMap.empty.set "scramble" scrambleExec).set "milk" milkExec).set "eggs"
      eggsExec).set "db" dbExec
    strategy := StrategyParallel
    q := []
    groups := [["db"], ["milk", "eggs"], ["scramble"]]
    dependencyGraph := some breakfastGraph
    onError := none }

/-- A schedule of a run of `breakfastParallel` to its return, in which `eggs` is
started before `milk` and returns after it. -/
def breakfastSchedule : List ParAction :=
  [ParAction.main, ParAction.main, ParAction.main, ParAction.start 0, ParAction.complete 0,
    ParAction.main,
    ParAction.main, ParAction.main, ParAction.main, ParAction.main, ParAction.start 1,
    ParAction.start 0, ParAction.complete 1, ParAction.complete 0, ParAction.main,
    ParAction.main, ParAction.main, ParAction.main, ParAction.start 0, ParAction.complete 0,
    ParAction.main, ParAction.main]

/-- The log of the run `breakfastSchedule` up to the start of `scramble`. -/
def breakfastLog : List (ParEvent String) :=
  [ParEvent.started 0 "db", ParEvent.finished 0 "db" none,
    ParEvent.started 1 "eggs", ParEvent.started 1 "milk",
    ParEvent.finished 1 "milk" none, ParEvent.finished 1 "eggs" none]

/-- The names of the executors that have returned, in the order of their returns,
according to the log. -/
def finishedNames {E : Type} : List (ParEvent E) → List String
  | [] => []
  | ParEvent.started _ _ :: trace => finishedNames trace
  | ParEvent.finished _ n _ :: trace => n :: finishedNames trace

/-- The errors returned when the executors of `names` are applied one after another
from `payload`. -/
def errorsInOrder {Ctx T E : Type} (p : Pipeline Ctx T E) (ctx : Ctx) : List String → T → List E
  | [], _ => []
  | n :: names, payload =>
    match p.executors n with
    | some exec =>
      match (exec ctx payload).2 with
      | none => errorsInOrder p ctx names (exec ctx payload).1
      | some err => err :: errorsInOrder p ctx names (exec ctx payload).1
    | none => errorsInOrder p ctx names payload

/-- The second invariant of the runs of `parallel` on `payload0`: the executors have
returned level by level, the payload is the one they leave when applied in the order
of their returns, and the errors they returned are those held by `errs` and by the
goroutines at `errs <- err`. -/
structure ParOrder {Ctx T E : Type} (p : Pipeline Ctx T E) (ctx : Ctx) (payload0 : T)
    (s : ParState Ctx T E) : Prop where
  execs : ∀ g ∈ s.spawned ++ s.running, g.exec = p.executors g.name
  order : s.alive = true → ∃ (completed : List (List String)) (cur : List String),
    finishedNames s.trace = completed.flatten ++ cur ∧
    List.Forall₂ List.Perm completed (p.groups.take s.level) ∧
    (cur ++ (s.spawned ++ s.running).map Task.name).Perm s.pc.launchedNames
  payload : (∀ err, s.pc ≠ MainPc.returned err) →
    s.payload = applyInOrder p ctx (finishedNames s.trace) payload0
  errors : (s.errs ++ s.sending).Perm (errorsInOrder p ctx (finishedNames s.trace) payload0)
  result : ∀ err, s.pc = MainPc.returned err →
    (err, s.payload) = drain p ctx s.errs (applyInOrder p ctx (finishedNames s.trace) payload0)

/-- The executor `carrots` of `examples/parallel`. -/
def carrotsExec : Executor Unit Prices String :=
  fun _ prices => (prices.set "carrots" 1, none)

/-- The pipeline `breakfastParallel` after `carrots`, a name that `breakfastGraph` does
not mention, has been registered as well. -/
def carrotsParallel : Pipeline Unit Prices String :=
  { ID := "prices"
    executors := ((((GoMap.empty.set "scramble" scrambleExec).set "milk" milkExec).set "eggs"
      eggsExec).set "db" dbExec).set "carrots" carrotsExec
    strategy := StrategyParallel
    q := []
    groups := [["db"], ["milk", "eggs"], ["scramble"]]
    dependencyGraph := some breakfastGraph
    onError := none }

/-- The pipeline `carrotsParallel` with the sequential strategy. -/
def carrotsSequential : Pipeline Unit Prices String :=
  WithExecutionStrategy StrategySequential carrotsParallel

/-! ## Lemmas on Go maps and on the loops of `sort` -/

theorem GoMap.set_self {V : Type} (m : GoMap V) (k : String) (v : V) : m.set k v k = some v := by
  simp [GoMap.set]

theorem GoMap.set_of_ne {V : Type} (m : GoMap V) (k x : String) (v : V) (h : x ≠ k) :
    m.set k v x = m x := by
  simp [GoMap.set, h]

theorem foldl_invertEdge_isSome (node : String) (deps : List String) :
    ∀ (g : GoMap (List String)) (x : String),
      ((deps.foldl (invertEdge node) g) x).isSome = true ↔ (g x).isSome = true ∨ x ∈ deps := by
  induction deps with
  | nil => intro g x; simp
  | cons d deps ih =>
    intro g x
    rw [List.foldl_cons, ih]
    by_cases hx : x = d
    · subst hx; simp [invertEdge, GoMap.set]
    · simp [invertEdge, GoMap.set, hx]

theorem foldl_invertEdge_count (node t : String) (deps : List String) :
    ∀ (g : GoMap (List String)) (d : String),
      (((deps.foldl (invertEdge node) g) d).getD []).count t =
        ((g d).getD []).count t + (if node = t then deps.count d else 0) := by
  induction deps with
  | nil => intro g d; simp
  | cons a deps ih =>
    intro g d
    rw [List.foldl_cons, ih]
    by_cases hd : d = a
    · subst hd
      by_cases hn : node = t
      · simp [invertEdge, GoMap.set, hn]; omega
      · simp [invertEdge, GoMap.set, hn, List.count_cons]
    · have hd1 : a ≠ d := fun h => hd h.symm
      by_cases hn : node = t
      · simp [invertEdge, GoMap.set, hn, hd, List.count_cons, hd1]
      · simp [invertEdge, GoMap.set, hn, hd]

theorem foldl_set_nil_isSome (keys : List String) :
    ∀ (g : GoMap (List String)) (x : String),
      ((keys.foldl (fun g key => g.set key []) g) x).isSome = true ↔
        (g x).isSome = true ∨ x ∈ keys := by
  induction keys with
  | nil => intro g x; simp
  | cons k keys ih =>
    intro g x
    rw [List.foldl_cons, ih]
    by_cases hx : x = k
    · subst hx; simp [GoMap.set]
    · simp [GoMap.set, hx]

theorem foldl_set_nil_getD (keys : List String) :
    ∀ (g : GoMap (List String)), (∀ x, (g x).getD [] = []) →
      ∀ x, (((keys.foldl (fun g key => g.set key []) g) x).getD []) = [] := by
  induction keys with
  | nil => intro g hg x; exact hg x
  | cons k keys ih =>
    intro g hg x
    rw [List.foldl_cons]
    apply ih
    intro y
    by_cases hy : y = k
    · subst hy; simp [GoMap.set]
    · simp [GoMap.set, hy, hg y]

theorem foldl_invert_isSome (dg : GoMap (List String)) (keys : List String) :
    ∀ (g : GoMap (List String)) (x : String),
      ((keys.foldl (fun g node => ((dg node).getD []).foldl (invertEdge node) g) g) x).isSome
          = true ↔
        (g x).isSome = true ∨ ∃ t ∈ keys, x ∈ depsOf dg t := by
  induction keys with
  | nil => intro g x; simp
  | cons k keys ih =>
    intro g x
    rw [List.foldl_cons, ih, foldl_invertEdge_isSome]
    simp only [depsOf, List.mem_cons, exists_eq_or_imp]
    tauto

theorem foldl_invert_count (dg : GoMap (List String)) (t : String) (keys : List String) :
    ∀ (g : GoMap (List String)) (d : String),
      (((keys.foldl (fun g node => ((dg node).getD []).foldl (invertEdge node) g) g) d).getD
          []).count t =
        ((g d).getD []).count t + keys.count t * (depsOf dg t).count d := by
  induction keys with
  | nil => intro g d; simp
  | cons k keys ih =>
    intro g d
    rw [List.foldl_cons, ih, foldl_invertEdge_count]
    by_cases hk : k = t
    · subst hk
      simp [depsOf, List.count_cons]
      ring
    · simp [hk, List.count_cons]

/-- The keys of the inverted graph are the names mentioned in the dependency graph. -/
theorem invertGraph_isSome (dg : GoMap (List String)) (keys1 keys2 : List String)
    (h1 : dg.IsRange keys1) (h2 : dg.IsRange keys2) (x : String) :
    (invertGraph dg keys1 keys2 x).isSome = true ↔ Mentioned dg x := by
  unfold invertGraph
  rw [foldl_invert_isSome, foldl_set_nil_isSome]
  unfold Mentioned
  constructor
  · rintro ((h | h) | ⟨t, _, h⟩)
    · simp [GoMap.empty] at h
    · exact Or.inl ((h1.2 x).mp h)
    · exact Or.inr ⟨t, h⟩
  · rintro (h | ⟨t, h⟩)
    · exact Or.inl (Or.inr ((h1.2 x).mpr h))
    · refine Or.inr ⟨t, (h2.2 t).mpr ?_, h⟩
      unfold depsOf at h
      cases hdg : dg t with
      | none => rw [hdg] at h; simp at h
      | some v => rfl

/-- The inverted graph lists `t` under `d` as often as `d` occurs among the
dependencies of `t`. -/
theorem invertGraph_count (dg : GoMap (List String)) (keys1 keys2 : List String)
    (h2 : dg.IsRange keys2) (d t : String) :
    ((invertGraph dg keys1 keys2 d).getD []).count t = (depsOf dg t).count d := by
  unfold invertGraph
  rw [foldl_invert_count, foldl_set_nil_getD keys1 GoMap.empty (fun _ => rfl)]
  by_cases ht : (dg t).isSome = true
  · have hmem : t ∈ keys2 := (h2.2 t).mpr ht
    rw [List.count_eq_one_of_mem h2.1 hmem]
    simp
  · have hnone : dg t = none := by
      cases hdg : dg t with
      | none => rfl
      | some v => rw [hdg] at ht; simp at ht
    simp [depsOf, hnone]

theorem foldl_incr_getD (l : List String) :
    ∀ (ind : GoMap Int) (x : String),
      ((l.foldl incr ind) x).getD 0 = (ind x).getD 0 + (l.count x : Int) := by
  induction l with
  | nil => intro ind x; simp
  | cons a l ih =>
    intro ind x
    rw [List.foldl_cons, ih]
    by_cases hx : x = a
    · subst hx; simp [incr, GoMap.set]; ring
    · have hx1 : a ≠ x := fun h => hx h.symm
      simp [incr, GoMap.set, hx, List.count_cons, hx1]

theorem foldl_incr_isSome (l : List String) :
    ∀ (ind : GoMap Int) (x : String),
      ((l.foldl incr ind) x).isSome = true ↔ (ind x).isSome = true ∨ x ∈ l := by
  induction l with
  | nil => intro ind x; simp
  | cons a l ih =>
    intro ind x
    rw [List.foldl_cons, ih]
    by_cases hx : x = a
    · subst hx; simp [incr, GoMap.set]
    · simp [incr, GoMap.set, hx]

theorem countNode_getD (graph : GoMap (List String)) (ind : GoMap Int) (node x : String) :
    ((countNode graph ind node) x).getD 0 =
      (ind x).getD 0 + (((graph node).getD []).count x : Int) := by
  unfold countNode
  rw [foldl_incr_getD]
  congr 1
  by_cases h : (ind node).isSome = true
  · simp [h]
  · simp only [h]
    by_cases hx : x = node
    · subst hx
      have hnone : ind x = none := by
        cases hi : ind x with
        | none => rfl
        | some v => rw [hi] at h; simp at h
      simp [GoMap.set, hnone]
    · simp [GoMap.set, hx]

theorem countNode_isSome (graph : GoMap (List String)) (ind : GoMap Int) (node x : String) :
    ((countNode graph ind node) x).isSome = true ↔
      (ind x).isSome = true ∨ x = node ∨ x ∈ (graph node).getD [] := by
  unfold countNode
  rw [foldl_incr_isSome]
  by_cases h : (ind node).isSome = true
  · simp only [h, if_true]
    constructor
    · rintro (h1 | h1)
      · exact Or.inl h1
      · exact Or.inr (Or.inr h1)
    · rintro (h1 | h1 | h1)
      · exact Or.inl h1
      · subst h1; exact Or.inl h
      · exact Or.inr h1
  · simp only [h]
    by_cases hx : x = node
    · subst hx; simp [GoMap.set]
    · simp [GoMap.set, hx]

theorem countIndegree_fold_getD (graph : GoMap (List String)) (nodes : List String) :
    ∀ (ind : GoMap Int) (x : String),
      ((nodes.foldl (countNode graph) ind) x).getD 0 =
        (ind x).getD 0 + ((nodes.flatMap (fun n => (graph n).getD [])).count x : Int) := by
  induction nodes with
  | nil => intro ind x; simp
  | cons n nodes ih =>
    intro ind x
    rw [List.foldl_cons, ih, countNode_getD]
    simp [List.count_append]
    ring

theorem countIndegree_fold_isSome (graph : GoMap (List String)) (nodes : List String) :
    ∀ (ind : GoMap Int) (x : String),
      ((nodes.foldl (countNode graph) ind) x).isSome = true ↔
        (ind x).isSome = true ∨ x ∈ nodes ∨ ∃ n ∈ nodes, x ∈ (graph n).getD [] := by
  induction nodes with
  | nil => intro ind x; simp
  | cons n nodes ih =>
    intro ind x
    rw [List.foldl_cons, ih, countNode_isSome]
    simp only [List.mem_cons, exists_eq_or_imp]
    tauto

theorem countP_mem_cons (n : String) (o l : List String) (hn : n ∉ o) :
    l.countP (fun d => decide (d ∈ n :: o)) = l.count n + l.countP (fun d => decide (d ∈ o)) := by
  induction l with
  | nil => simp
  | cons a l ih =>
    rw [List.countP_cons, List.countP_cons, List.count_cons, ih]
    by_cases ha : a = n
    · subst ha; simp [hn]; omega
    · simp [ha]; omega

/-- Over a duplicate-free list of nodes, the neighbour lists mention `x` as often as
the dependency list of `x` mentions one of these nodes. -/
theorem count_flatMap_neighbors (dg : GoMap (List String)) (graph : GoMap (List String))
    (hgraph : ∀ d t, ((graph d).getD []).count t = (depsOf dg t).count d)
    (x : String) (o : List String) (ho : o.Nodup) :
    (o.flatMap (fun n => (graph n).getD [])).count x =
      (depsOf dg x).countP (fun d => decide (d ∈ o)) := by
  induction o with
  | nil => simp
  | cons n o ih =>
    rw [List.flatMap_cons, List.count_append, ih (List.nodup_cons.mp ho).2, hgraph,
      countP_mem_cons n o _ (List.nodup_cons.mp ho).1]

theorem initialQueue_fold (indegree : GoMap Int) (degrees : List String) :
    ∀ queue : List String,
      degrees.foldl
          (fun queue node => if (indegree node).getD 0 = 0 then queue ++ [node] else queue)
          queue =
        queue ++ degrees.filter (fun node => decide ((indegree node).getD 0 = 0)) := by
  induction degrees with
  | nil => intro queue; simp
  | cons n degrees ih =>
    intro queue
    rw [List.foldl_cons, ih]
    by_cases h : (indegree n).getD 0 = 0
    · simp [h, List.filter_cons]
    · simp [h, List.filter_cons]

theorem initialQueue_eq_filter (indegree : GoMap Int) (degrees : List String) :
    initialQueue indegree degrees =
      degrees.filter (fun node => decide ((indegree node).getD 0 = 0)) := by
  unfold initialQueue
  rw [initialQueue_fold]
  simp

theorem relax_fst (st : GoMap Int × List String) (a : String) :
    (relax st a).1 = st.1.set a ((st.1 a).getD 0 - 1) := by
  unfold relax
  simp only
  split <;> rfl

theorem relax_snd (st : GoMap Int × List String) (a : String) :
    (relax st a).2 = if (st.1 a).getD 0 - 1 = 0 then st.2 ++ [a] else st.2 := by
  unfold relax
  simp only [GoMap.set_self, Option.getD_some]
  split <;> rfl

theorem foldl_relax_getD (l : List String) :
    ∀ (st : GoMap Int × List String) (x : String),
      (((l.foldl relax st).1) x).getD 0 = (st.1 x).getD 0 - (l.count x : Int) := by
  induction l with
  | nil => intro st x; simp
  | cons a l ih =>
    intro st x
    rw [List.foldl_cons, ih, relax_fst]
    by_cases hx : x = a
    · subst hx; simp [GoMap.set]; ring
    · have hx1 : a ≠ x := fun h => hx h.symm
      simp [GoMap.set, hx, List.count_cons, hx1]

/-- A name joins `nextQueue` once, namely when its counter passes from a positive
value to zero. -/
theorem foldl_relax_count (l : List String) :
    ∀ (st : GoMap Int × List String) (x : String),
      ((l.foldl relax st).2).count x =
        st.2.count x +
          (if 0 < (st.1 x).getD 0 ∧ (st.1 x).getD 0 ≤ (l.count x : Int) then 1 else 0) := by
  induction l with
  | nil =>
    intro st x
    simp only [List.foldl_nil, List.count_nil, Nat.cast_zero]
    have : ¬ (0 < (st.1 x).getD 0 ∧ (st.1 x).getD 0 ≤ 0) := by omega
    simp [this]
  | cons a l ih =>
    intro st x
    rw [List.foldl_cons, ih, relax_fst, relax_snd]
    by_cases hx : x = a
    · subst hx
      simp only [GoMap.set_self, Option.getD_some, List.count_cons_self, Nat.cast_add,
        Nat.cast_one]
      by_cases h1 : (st.1 x).getD 0 - 1 = 0
      · have h2 : ¬ (0 < (st.1 x).getD 0 - 1 ∧ (st.1 x).getD 0 - 1 ≤ (l.count x : Int)) := by
          omega
        have h3 : 0 < (st.1 x).getD 0 ∧ (st.1 x).getD 0 ≤ (l.count x : Int) + 1 := by
          constructor <;> omega
        rw [if_pos h1, if_neg h2, if_pos h3]
        simp
      · by_cases h4 : 0 < (st.1 x).getD 0 - 1 ∧ (st.1 x).getD 0 - 1 ≤ (l.count x : Int)
        · have h3 : 0 < (st.1 x).getD 0 ∧ (st.1 x).getD 0 ≤ (l.count x : Int) + 1 := by
            constructor <;> omega
          rw [if_neg h1, if_pos h4, if_pos h3]
        · have h3 : ¬ (0 < (st.1 x).getD 0 ∧ (st.1 x).getD 0 ≤ (l.count x : Int) + 1) := by
            omega
          rw [if_neg h1, if_neg h4, if_neg h3]
    · have hx1 : a ≠ x := fun h => hx h.symm
      rw [GoMap.set_of_ne _ _ _ _ hx]
      have hc : (a :: l).count x = l.count x := by simp [List.count_cons, hx1]
      rw [hc]
      by_cases h1 : (st.1 a).getD 0 - 1 = 0
      · simp [h1, List.count_append, List.count_cons, hx1]
      · simp [h1]

theorem foldl_visit (graph : GoMap (List String)) (queue : List String) :
    ∀ (indegree : GoMap Int) (currentLevel nextQueue : List String),
      queue.foldl (visit graph) (indegree, currentLevel, nextQueue) =
        (((queue.flatMap (fun n => (graph n).getD [])).foldl relax (indegree, nextQueue)).1,
          currentLevel ++ queue,
          ((queue.flatMap (fun n => (graph n).getD [])).foldl relax (indegree, nextQueue)).2) := by
  induction queue with
  | nil => intro indegree currentLevel nextQueue; simp
  | cons n queue ih =>
    intro indegree currentLevel nextQueue
    have hv : visit graph (indegree, currentLevel, nextQueue) n =
        ((((graph n).getD []).foldl relax (indegree, nextQueue)).1, currentLevel ++ [n],
          (((graph n).getD []).foldl relax (indegree, nextQueue)).2) := rfl
    rw [List.foldl_cons, hv, ih]
    simp [List.foldl_append]

theorem unmet_append (dg : GoMap (List String)) (done queue : List String)
    (hdisj : ∀ y ∈ queue, y ∉ done) (x : String) :
    unmet dg (done ++ queue) x + (depsOf dg x).countP (fun d => decide (d ∈ queue)) =
      unmet dg done x := by
  unfold unmet
  induction depsOf dg x with
  | nil => simp
  | cons a l ih =>
    simp only [List.countP_cons]
    by_cases h1 : a ∈ done
    · have h2 : a ∉ queue := fun h => hdisj a h h1
      simp [h1, h2]
      simpa using ih
    · by_cases h2 : a ∈ queue
      · simp [h1, h2]
        have := ih
        simp at this
        omega
      · simp [h1, h2]
        have := ih
        simp at this
        omega

theorem unmet_eq_zero_iff (dg : GoMap (List String)) (done : List String) (x : String) :
    unmet dg done x = 0 ↔ ∀ d ∈ depsOf dg x, d ∈ done := by
  unfold unmet
  rw [List.countP_eq_zero]
  simp

theorem mentioned_of_unmet_pos (dg : GoMap (List String)) (done : List String) (x : String)
    (h : unmet dg done x ≠ 0) : Mentioned dg x := by
  left
  cases hdg : dg x with
  | none => exact absurd (by simp [unmet, depsOf, hdg]) h
  | some v => rfl

/-- One round of the loop of `sort` re-establishes the invariant, with the queue just
processed added to the names done. -/
theorem SortInv.round (dg graph : GoMap (List String))
    (hgraph : ∀ d t, ((graph d).getD []).count t = (depsOf dg t).count d)
    (done queue : List String) (indegree : GoMap Int)
    (hinv : SortInv dg done indegree queue) :
    SortInv dg (done ++ queue)
      ((queue.flatMap (fun n => (graph n).getD [])).foldl relax (indegree, [])).1
      ((queue.flatMap (fun n => (graph n).getD [])).foldl relax (indegree, [])).2 := by
  obtain ⟨hdeg, hnodup, hqueue, hdone⟩ := hinv
  have hdisj : ∀ y ∈ queue, y ∉ done := fun y hy => ((hqueue y).mp hy).2.1
  have hcount : ∀ x, (queue.flatMap (fun n => (graph n).getD [])).count x =
      (depsOf dg x).countP (fun d => decide (d ∈ queue)) :=
    fun x => count_flatMap_neighbors dg graph hgraph x queue hnodup
  have hsplit := unmet_append dg done queue hdisj
  have hnext : ∀ x,
      ((queue.flatMap (fun n => (graph n).getD [])).foldl relax (indegree, [])).2.count x =
        if 0 < unmet dg done x ∧ unmet dg (done ++ queue) x = 0 then 1 else 0 := by
    intro x
    rw [foldl_relax_count]
    simp only [List.count_nil, Nat.zero_add, hdeg x, hcount x]
    have h1 := hsplit x
    by_cases hc : 0 < unmet dg done x ∧ unmet dg (done ++ queue) x = 0
    · rw [if_pos hc, if_pos]
      constructor <;> omega
    · rw [if_neg hc, if_neg]
      intro h2
      apply hc
      constructor <;> omega
  refine ⟨?_, ?_, ?_, ?_⟩
  · intro x
    rw [foldl_relax_getD]
    simp only [hdeg x, hcount x]
    have h1 := hsplit x
    omega
  · rw [List.nodup_iff_count_le_one]
    intro x
    rw [hnext x]
    split <;> omega
  · intro x
    rw [← List.count_pos_iff, hnext x]
    constructor
    · intro h
      have hc : 0 < unmet dg done x ∧ unmet dg (done ++ queue) x = 0 := by
        by_contra hc
        rw [if_neg hc] at h
        omega
      refine ⟨mentioned_of_unmet_pos dg done x (by omega), ?_, hc.2⟩
      intro hx
      rcases List.mem_append.mp hx with hx | hx
      · have := hdone x hx; omega
      · have := ((hqueue x).mp hx).2.2; omega
    · rintro ⟨hm, hx, hz⟩
      have hx1 : x ∉ done := fun h => hx (List.mem_append_left _ h)
      have hx2 : x ∉ queue := fun h => hx (List.mem_append_right _ h)
      have hpos : 0 < unmet dg done x := by
        by_contra hp
        exact hx2 ((hqueue x).mpr ⟨hm, hx1, by omega⟩)
      rw [if_pos ⟨hpos, hz⟩]
      omega
  · intro x hx
    have h1 := hsplit x
    rcases List.mem_append.mp hx with hx | hx
    · have := hdone x hx; omega
    · have := ((hqueue x).mp hx).2.2; omega

theorem countP_lt_of_witness (p q : String → Bool) (l : List String)
    (himp : ∀ x, q x = true → p x = true) (a : String) (ha : a ∈ l) (hp : p a = true)
    (hq : q a = false) : l.countP q < l.countP p := by
  induction l with
  | nil => simp at ha
  | cons b l ih =>
    rw [List.countP_cons, List.countP_cons]
    have hmono : l.countP q ≤ l.countP p := List.countP_mono_left (fun x _ h => himp x h)
    rcases List.mem_cons.mp ha with rfl | ha
    · simp [hp, hq]; omega
    · have := ih ha
      by_cases hqb : q b = true
      · simp [hqb, himp b hqb]; omega
      · by_cases hpb : p b = true
        · simp [hqb, hpb]; omega
        · simp [hqb, hpb]; omega

/-- The loop of `sort` ends before its fuel does and produces a leveling. -/
theorem sortLoop_spec (dg graph : GoMap (List String))
    (hgraph : ∀ d t, ((graph d).getD []).count t = (depsOf dg t).count d)
    (nodes : List String) (hnodes : ∀ x, Mentioned dg x → x ∈ nodes) :
    ∀ (fuel : Nat) (done : List String) (indegree : GoMap Int) (queue : List String)
      (result : List (List String)),
      SortInv dg done indegree queue →
      nodes.countP (fun x => decide (x ∉ done)) ≤ fuel →
      ∃ levels, sortLoop graph fuel indegree queue result = Except.ok (result ++ levels) ∧
        Leveling dg done levels := by
  intro fuel
  induction fuel with
  | zero =>
    intro done indegree queue result hinv hfuel
    cases queue with
    | nil =>
      refine ⟨[], by simp [sortLoop], ?_⟩
      intro x hm hx hz
      have := (hinv.2.2.1 x).mpr ⟨hm, hx, hz⟩
      simp at this
    | cons n queue =>
      exfalso
      have hn := (hinv.2.2.1 n).mp (List.mem_cons_self _ _)
      have hpos : 0 < nodes.countP (fun x => decide (x ∉ done)) :=
        List.countP_pos_iff.mpr ⟨n, hnodes n hn.1, by simpa using hn.2.1⟩
      omega
  | succ fuel ih =>
    intro done indegree queue result hinv hfuel
    cases queue with
    | nil =>
      refine ⟨[], by simp [sortLoop], ?_⟩
      intro x hm hx hz
      have := (hinv.2.2.1 x).mpr ⟨hm, hx, hz⟩
      simp at this
    | cons n queue =>
      have hn := (hinv.2.2.1 n).mp (List.mem_cons_self _ _)
      have hround := SortInv.round dg graph hgraph done (n :: queue) indegree hinv
      have hless : nodes.countP (fun x => decide (x ∉ done ++ (n :: queue))) <
          nodes.countP (fun x => decide (x ∉ done)) := by
        apply countP_lt_of_witness _ _ nodes _ n (hnodes n hn.1)
        · simpa using hn.2.1
        · simp
        · intro x hx
          simp only [decide_eq_true_eq] at hx ⊢
          exact fun h => hx (List.mem_append_left _ h)
      obtain ⟨levels, hrun, hlev⟩ := ih (done ++ (n :: queue)) _ _
        (result ++ [n :: queue]) hround (by omega)
      refine ⟨(n :: queue) :: levels, ?_, ?_⟩
      · simp only [sortLoop]
        rw [foldl_visit]
        simp only [List.nil_append]
        rw [hrun]
        simp
      · exact ⟨by simp, hinv.2.1, hinv.2.2.1, hlev⟩

theorem mentioned_of_mem_depsOf (dg : GoMap (List String)) (t d : String)
    (h : d ∈ depsOf dg t) : Mentioned dg t ∧ Mentioned dg d := by
  refine ⟨Or.inl ?_, Or.inr ⟨t, h⟩⟩
  cases hdg : dg t with
  | none => simp [depsOf, hdg] at h
  | some v => rfl

/-- The keys of the in-degree map are the names mentioned in the dependency graph. -/
theorem countIndegree_isSome (dg : GoMap (List String)) (ord : Orders)
    (h1 : dg.IsRange ord.keys1) (h2 : dg.IsRange ord.keys2)
    (h3 : (invertGraph dg ord.keys1 ord.keys2).IsRange ord.nodes) (x : String) :
    (countIndegree (invertGraph dg ord.keys1 ord.keys2) ord.nodes x).isSome = true ↔
      Mentioned dg x := by
  unfold countIndegree
  rw [countIndegree_fold_isSome]
  constructor
  · rintro (h | h | ⟨n, _, h⟩)
    · simp [GoMap.empty] at h
    · exact (invertGraph_isSome dg _ _ h1 h2 x).mp ((h3.2 x).mp h)
    · have hc : 0 < ((invertGraph dg ord.keys1 ord.keys2 n).getD []).count x :=
        List.count_pos_iff.mpr h
      rw [invertGraph_count dg _ _ h2] at hc
      exact (mentioned_of_mem_depsOf dg x n (List.count_pos_iff.mp hc)).1
  · intro h
    exact Or.inr (Or.inl ((h3.2 x).mpr ((invertGraph_isSome dg _ _ h1 h2 x).mpr h)))

/-- The in-degree computed for `x` is the length of its dependency list. -/
theorem countIndegree_getD (dg : GoMap (List String)) (ord : Orders)
    (hord : ValidOrders dg ord) (x : String) :
    (countIndegree (invertGraph dg ord.keys1 ord.keys2) ord.nodes x).getD 0 =
      ((depsOf dg x).length : Int) := by
  obtain ⟨h1, h2, h3, _⟩ := hord
  unfold countIndegree
  rw [countIndegree_fold_getD,
    count_flatMap_neighbors dg _ (invertGraph_count dg _ _ h2) x ord.nodes h3.1]
  have hall : (depsOf dg x).countP (fun d => decide (d ∈ ord.nodes)) = (depsOf dg x).length := by
    rw [List.countP_eq_length]
    intro d hd
    have hm := (mentioned_of_mem_depsOf dg x d hd).2
    simpa using (h3.2 d).mpr ((invertGraph_isSome dg _ _ h1 h2 d).mpr hm)
  rw [hall]
  simp [GoMap.empty]

theorem unmet_nil (dg : GoMap (List String)) (x : String) :
    unmet dg [] x = (depsOf dg x).length := by
  unfold unmet
  rw [List.countP_eq_length]
  simp

/-- The state in which `sort` enters its main loop satisfies the invariant. -/
theorem SortInv.initial (dg : GoMap (List String)) (ord : Orders) (hord : ValidOrders dg ord) :
    SortInv dg [] (countIndegree (invertGraph dg ord.keys1 ord.keys2) ord.nodes)
      (initialQueue (countIndegree (invertGraph dg ord.keys1 ord.keys2) ord.nodes)
        ord.degrees) := by
  have h4 := hord.2.2.2
  refine ⟨?_, ?_, ?_, ?_⟩
  · intro x
    rw [countIndegree_getD dg ord hord, unmet_nil]
  · rw [initialQueue_eq_filter]
    exact h4.1.filter _
  · intro x
    rw [initialQueue_eq_filter, List.mem_filter, h4.2 x, countIndegree_isSome dg ord hord.1 hord.2.1 hord.2.2.1,
      countIndegree_getD dg ord hord, unmet_nil]
    simp
  · intro x hx
    simp at hx

/-- For every possible visiting order of the maps, `sort` terminates with a leveling
of the dependency graph. -/
theorem sortLevels_spec (dg : GoMap (List String)) (ord : Orders) (hord : ValidOrders dg ord) :
    ∃ levels, sortLevels dg ord = Except.ok levels ∧ Leveling dg [] levels := by
  have h4 := hord.2.2.2
  obtain ⟨levels, hrun, hlev⟩ := sortLoop_spec dg (invertGraph dg ord.keys1 ord.keys2)
    (invertGraph_count dg _ _ hord.2.1) ord.degrees
    (fun x hx => (h4.2 x).mpr ((countIndegree_isSome dg ord hord.1 hord.2.1 hord.2.2.1 x).mpr hx))
    ord.degrees.length [] _ _ [] (SortInv.initial dg ord hord) (List.countP_le_length _)
  exact ⟨levels, by simpa [sortLevels] using hrun, hlev⟩

/-! ## Consequences of a leveling -/

/-- The members of the level with index `i`. -/
theorem Leveling.mem_level (dg : GoMap (List String)) (levels : List (List String)) :
    ∀ (done : List String) (i : Nat) (level : List String), Leveling dg done levels →
      levels[i]? = some level →
      ∀ x, x ∈ level ↔
        Mentioned dg x ∧ x ∉ done ++ (levels.take i).flatten ∧
          unmet dg (done ++ (levels.take i).flatten) x = 0 := by
  induction levels with
  | nil => intro done i level _ hi; simp at hi
  | cons l levels ih =>
    intro done i level hlev hi x
    obtain ⟨_, _, hmem, hrest⟩ := hlev
    cases i with
    | zero =>
      simp only [List.getElem?_cons_zero, Option.some.injEq] at hi
      subst hi
      simpa using hmem x
    | succ i =>
      simp only [List.getElem?_cons_succ] at hi
      have := ih (done ++ l) i level hrest hi x
      simpa [List.append_assoc] using this

theorem Leveling.mentioned (dg : GoMap (List String)) (levels : List (List String))
    (done : List String) (hlev : Leveling dg done levels) (x : String)
    (hx : x ∈ levels.flatten) : Mentioned dg x := by
  obtain ⟨level, hlevel, hxl⟩ := List.mem_flatten.mp hx
  obtain ⟨i, hi, hget⟩ := List.getElem_of_mem hlevel
  have hopt : levels[i]? = some level := by
    rw [List.getElem?_eq_getElem hi, hget]
  exact ((Leveling.mem_level dg levels done i level hlev hopt x).mp hxl).1

theorem Leveling.nodup (dg : GoMap (List String)) (levels : List (List String)) :
    ∀ done : List String, done.Nodup → Leveling dg done levels →
      (done ++ levels.flatten).Nodup := by
  induction levels with
  | nil => intro done hd _; simpa using hd
  | cons l levels ih =>
    intro done hd hlev
    obtain ⟨_, hl, hmem, hrest⟩ := hlev
    have hdl : (done ++ l).Nodup := by
      rw [List.nodup_append]
      refine ⟨hd, hl, ?_⟩
      intro a ha hal
      exact ((hmem a).mp hal).2.1 ha
    have := ih (done ++ l) hdl hrest
    simpa [List.append_assoc] using this

/-- Once the loop has ended, every mentioned name outside the levels still has a
dependency outside them. -/
theorem Leveling.final (dg : GoMap (List String)) (levels : List (List String)) :
    ∀ done : List String, Leveling dg done levels →
      ∀ x, Mentioned dg x → x ∉ done ++ levels.flatten →
        unmet dg (done ++ levels.flatten) x ≠ 0 := by
  induction levels with
  | nil => intro done hlev x hm hx; simpa using hlev x hm (by simpa using hx)
  | cons l levels ih =>
    intro done hlev x hm hx
    have := ih (done ++ l) hlev.2.2.2 x hm (by simpa [List.append_assoc] using hx)
    simpa [List.append_assoc] using this

theorem mem_take_flatten_of_le (levels : List (List String)) (i j : Nat) (hij : i ≤ j)
    (x : String) (hx : x ∈ (levels.take i).flatten) : x ∈ (levels.take j).flatten := by
  obtain ⟨level, hlevel, hxl⟩ := List.mem_flatten.mp hx
  refine List.mem_flatten.mpr ⟨level, ?_, hxl⟩
  have hpre : (levels.take i).IsPrefix (levels.take j) := by
    rw [List.prefix_take_iff]
    exact ⟨List.take_prefix _ _, by rw [List.length_take]; omega⟩
  exact hpre.subset hlevel

/-- In a leveling a task lies in a level strictly after the levels of its dependencies. -/
theorem Leveling.lt_of_dep (dg : GoMap (List String)) (levels : List (List String))
    (hlev : Leveling dg [] levels) (t d : String) (hd : d ∈ depsOf dg t)
    (i j : Nat) (li lj : List String) (hi : levels[i]? = some li) (hj : levels[j]? = some lj)
    (hdi : d ∈ li) (htj : t ∈ lj) : i < j := by
  by_contra hij
  have h1 := (Leveling.mem_level dg levels [] j lj hlev hj t).mp htj
  have h2 := (Leveling.mem_level dg levels [] i li hlev hi d).mp hdi
  have h3 : d ∈ (levels.take j).flatten := by
    have := (unmet_eq_zero_iff dg _ t).mp h1.2.2 d hd
    simpa using this
  exact h2.2.1 (by simpa using mem_take_flatten_of_le levels j i (by omega) d h3)

theorem exists_level_of_mem_flatten (levels : List (List String)) (x : String)
    (hx : x ∈ levels.flatten) :
    ∃ (i : Nat) (level : List String), levels[i]? = some level ∧ x ∈ level := by
  obtain ⟨level, hlevel, hxl⟩ := List.mem_flatten.mp hx
  obtain ⟨i, hi, hget⟩ := List.getElem_of_mem hlevel
  exact ⟨i, level, by rw [List.getElem?_eq_getElem hi, hget], hxl⟩

/-- In an acyclic graph whose names all lie in a list, "is a dependency of" is
well-founded. -/
theorem Acyclic.wellFounded (dg : GoMap (List String)) (nodes : List String)
    (hnodes : ∀ x, Mentioned dg x → x ∈ nodes) (hac : Acyclic dg) :
    WellFounded (fun d t => DependsOn dg t d) := by
  let r : { x // x ∈ nodes } → { x // x ∈ nodes } → Prop :=
    fun a b => Relation.TransGen (DependsOn dg) b.1 a.1
  have htrans : IsTrans { x // x ∈ nodes } r := ⟨fun a b c hab hbc => hbc.trans hab⟩
  have hirrefl : IsIrrefl { x // x ∈ nodes } r := ⟨fun a h => hac a.1 h⟩
  have hwf : WellFounded r := Finite.wellFounded_of_trans_of_irrefl r
  have hacc : ∀ s : { x // x ∈ nodes }, Acc (fun d t => DependsOn dg t d) s.1 := by
    intro s
    induction s using hwf.induction with
    | h s ih =>
      refine Acc.intro _ (fun y hy => ?_)
      have hym : y ∈ nodes := hnodes y (mentioned_of_mem_depsOf dg s.1 y hy).2
      exact ih ⟨y, hym⟩ (Relation.TransGen.single hy)
  refine ⟨fun x => Acc.intro _ (fun y hy => ?_)⟩
  exact hacc ⟨y, hnodes y (mentioned_of_mem_depsOf dg x y hy).2⟩

/-- A leveling of an acyclic graph contains every name mentioned in the graph. -/
theorem Leveling.complete (dg : GoMap (List String)) (levels : List (List String))
    (hlev : Leveling dg [] levels) (nodes : List String)
    (hnodes : ∀ x, Mentioned dg x → x ∈ nodes) (hac : Acyclic dg) :
    ∀ x, Mentioned dg x → x ∈ levels.flatten := by
  intro x
  induction x using (Acyclic.wellFounded dg nodes hnodes hac).induction with
  | h x ih =>
    intro hm
    by_contra hx
    have hne := Leveling.final dg levels [] hlev x hm (by simpa using hx)
    apply hne
    rw [unmet_eq_zero_iff]
    intro d hd
    have := ih d hd (mentioned_of_mem_depsOf dg x d hd).2
    simpa using this

theorem acyclic_of_rank (dg : GoMap (List String)) (rank : String → Nat)
    (hrank : ∀ t d, d ∈ depsOf dg t → rank d < rank t) : Acyclic dg := by
  have hgen : ∀ a b, Relation.TransGen (DependsOn dg) a b → rank b < rank a := by
    intro a b h
    induction h with
    | single h => exact hrank _ _ h
    | tail _ h ih => exact lt_trans (hrank _ _ h) ih
  intro x hx
  exact lt_irrefl _ (hgen x x hx)

/-! ## Lemmas on sequential execution -/

theorem Execute_sequential {Ctx T E : Type} (parallel : Pipeline Ctx T E → Ctx → T → Run T E)
    (p : Pipeline Ctx T E) (ctx : Ctx) (payload : T) (hs : p.strategy = StrategySequential) :
    p.Execute parallel ctx payload = p.sequential ctx payload := by
  unfold Pipeline.Execute
  rw [hs]
  simp [StrategySequential, StrategyParallel]

theorem sequentialGroup_append {Ctx T E : Type} (p : Pipeline Ctx T E) (ctx : Ctx)
    (next : T → List (Event E) → Run T E) (a b : List String) :
    ∀ (payload : T) (trace : List (Event E)),
      p.sequentialGroup ctx next (a ++ b) payload trace =
        p.sequentialGroup ctx (p.sequentialGroup ctx next b) a payload trace := by
  induction a with
  | nil => intro payload trace; rfl
  | cons n a ih =>
    intro payload trace
    simp only [List.cons_append, Pipeline.sequentialGroup]
    cases p.executors n with
    | none => rfl
    | some exec =>
      simp only
      rcases exec ctx payload with ⟨payload1, _ | err⟩
      · exact ih _ _
      · simp only
        cases p.onError with
        | none => rfl
        | some onError =>
          simp only
          rcases onError ctx payload1 err with ⟨payload2, onErr, _ | _⟩
          · rfl
          · exact ih _ _

/-- The nested loops of `sequential` visit the names of the concatenated groups. -/
theorem sequentialFrom_join {Ctx T E : Type} (p : Pipeline Ctx T E) (ctx : Ctx)
    (groups : List (List String)) :
    ∀ (payload : T) (trace : List (Event E)),
      p.sequentialFrom ctx groups payload trace =
        p.sequentialGroup ctx (fun s tr => ⟨Status.returned none, s, tr⟩) groups.flatten
          payload trace := by
  induction groups with
  | nil => intro payload trace; rfl
  | cons g groups ih =>
    intro payload trace
    simp only [Pipeline.sequentialFrom, List.flatten_cons, sequentialGroup_append]
    congr 1
    funext s tr
    exact ih s tr

theorem sequentialGroup_allSucceed {Ctx T E : Type} (p : Pipeline Ctx T E) (ctx : Ctx)
    (next : T → List (Event E) → Run T E) (pre : List String) :
    ∀ (payload : T) (trace : List (Event E)), allSucceed p ctx pre payload →
      p.sequentialGroup ctx next pre payload trace =
        next (applyInOrder p ctx pre payload)
          (trace ++ pre.map (fun n => ⟨n, none, none⟩)) := by
  induction pre with
  | nil => intro payload trace _; simp [Pipeline.sequentialGroup, applyInOrder]
  | cons n pre ih =>
    intro payload trace h
    obtain ⟨exec, hex, hnone, hrest⟩ := h
    simp only [Pipeline.sequentialGroup, applyInOrder, hex]
    have hpair : exec ctx payload = ((exec ctx payload).1, none) := by
      rw [← hnone]
    rw [hpair]
    simp only
    rw [ih _ _ hrest]
    simp

theorem applyInOrder_append {Ctx T E : Type} (p : Pipeline Ctx T E) (ctx : Ctx)
    (a b : List String) :
    ∀ payload : T, applyInOrder p ctx (a ++ b) payload =
      applyInOrder p ctx b (applyInOrder p ctx a payload) := by
  induction a with
  | nil => intro payload; rfl
  | cons n a ih =>
    intro payload
    simp only [List.cons_append, applyInOrder]
    cases p.executors n <;> simp [ih]

theorem sequentialGroup_registered {Ctx T E : Type} (p : Pipeline Ctx T E) (ctx : Ctx)
    (next : T → List (Event E) → Run T E) (h : ErrorHandler Ctx T E)
    (hpol : p.onError = some h) (hcont : ∀ c s e, (h c s e).2 = (none, true))
    (names : List String) :
    ∀ (payload : T) (trace : List (Event E)),
      (∀ n ∈ names, (p.executors n).isSome = true) →
      ∃ payload1 evs, evs.map Event.name = names ∧
        p.sequentialGroup ctx next names payload trace = next payload1 (trace ++ evs) := by
  induction names with
  | nil => intro payload trace _; exact ⟨payload, [], rfl, by simp [Pipeline.sequentialGroup]⟩
  | cons n names ih =>
    intro payload trace hreg
    have hn := hreg n (List.mem_cons_self _ _)
    obtain ⟨exec, hex⟩ := Option.isSome_iff_exists.mp hn
    have hrest : ∀ m ∈ names, (p.executors m).isSome = true :=
      fun m hm => hreg m (List.mem_cons_of_mem _ hm)
    simp only [Pipeline.sequentialGroup, hex, hpol]
    rcases hx : exec ctx payload with ⟨payload1, _ | err⟩
    · simp only
      obtain ⟨s, evs, hev, hrun⟩ := ih payload1 (trace ++ [⟨n, none, none⟩]) hrest
      exact ⟨s, ⟨n, none, none⟩ :: evs, by simp [hev], by rw [hrun]; simp⟩
    · simp only
      have hc := hcont ctx payload1 err
      rcases hh : h ctx payload1 err with ⟨payload2, onErr, c⟩
      rw [hh] at hc
      simp only [Prod.mk.injEq] at hc
      obtain ⟨rfl, rfl⟩ := hc
      simp only
      obtain ⟨s, evs, hev, hrun⟩ :=
        ih payload2 (trace ++ [⟨n, some err, some (none, true)⟩]) hrest
      exact ⟨s, ⟨n, some err, some (none, true)⟩ :: evs, by simp [hev], by rw [hrun]; simp⟩

/-- What an observer of a run sees when the answers of the callback are not logged. -/
theorem sequentialGroup_policy_irrelevant {Ctx T E : Type} (p : Pipeline Ctx T E) (ctx : Ctx)
    (h : ErrorHandler Ctx T E) (hh : ∀ c s e, h c s e = (s, some e, false))
    (next0 next1 : T → List (Event E) → Run T E)
    (hnext : ∀ s tr0 tr1, tr0.map Event.name = tr1.map Event.name →
      (next0 s tr0).status = (next1 s tr1).status ∧
      (next0 s tr0).invoked = (next1 s tr1).invoked ∧
      (next0 s tr0).payload = (next1 s tr1).payload)
    (names : List String) :
    ∀ (payload : T) (tr0 tr1 : List (Event E)), tr0.map Event.name = tr1.map Event.name →
      (Pipeline.sequentialGroup { p with onError := none } ctx next0 names payload tr0).status =
        (Pipeline.sequentialGroup { p with onError := some h } ctx next1 names payload tr1).status ∧
      (Pipeline.sequentialGroup { p with onError := none } ctx next0 names payload tr0).invoked =
        (Pipeline.sequentialGroup { p with onError := some h } ctx next1 names payload tr1).invoked ∧
      (Pipeline.sequentialGroup { p with onError := none } ctx next0 names payload tr0).payload =
        (Pipeline.sequentialGroup { p with onError := some h } ctx next1 names payload tr1).payload := by
  induction names with
  | nil => intro payload tr0 tr1 htr; exact hnext payload tr0 tr1 htr
  | cons n names ih =>
    intro payload tr0 tr1 htr
    simp only [Pipeline.sequentialGroup]
    cases p.executors n with
    | none => exact ⟨rfl, by simp [Run.invoked, htr], rfl⟩
    | some exec =>
      simp only
      rcases exec ctx payload with ⟨payload1, _ | err⟩
      · exact ih payload1 _ _ (by simp [htr])
      · simp [hh, Run.invoked, htr]

theorem sequentialFrom_policy_irrelevant {Ctx T E : Type} (p : Pipeline Ctx T E) (ctx : Ctx)
    (h : ErrorHandler Ctx T E) (hh : ∀ c s e, h c s e = (s, some e, false))
    (groups : List (List String)) :
    ∀ (payload : T) (tr0 tr1 : List (Event E)), tr0.map Event.name = tr1.map Event.name →
      (Pipeline.sequentialFrom { p with onError := none } ctx groups payload tr0).status =
        (Pipeline.sequentialFrom { p with onError := some h } ctx groups payload tr1).status ∧
      (Pipeline.sequentialFrom { p with onError := none } ctx groups payload tr0).invoked =
        (Pipeline.sequentialFrom { p with onError := some h } ctx groups payload tr1).invoked ∧
      (Pipeline.sequentialFrom { p with onError := none } ctx groups payload tr0).payload =
        (Pipeline.sequentialFrom { p with onError := some h } ctx groups payload tr1).payload := by
  induction groups with
  | nil =>
    intro payload tr0 tr1 htr
    exact ⟨rfl, by simp [Pipeline.sequentialFrom, Run.invoked, htr], rfl⟩
  | cons g groups ih =>
    intro payload tr0 tr1 htr
    simp only [Pipeline.sequentialFrom]
    exact sequentialGroup_policy_irrelevant p ctx h hh _ _ ih g payload tr0 tr1 htr

theorem GoodLog.append {E : Type} {a b : List (Event E)} (ha : GoodLog a) (hb : GoodLog b) :
    GoodLog (a ++ b) := by
  intro ev hev
  rcases List.mem_append.mp hev with h | h
  · exact ha ev h
  · exact hb ev h

/-- The three ways in which the loop over the scheduled names can end. -/
theorem sequentialGroup_cases {Ctx T E : Type} (p : Pipeline Ctx T E) (ctx : Ctx)
    (names : List String) :
    ∀ (payload : T) (trace : List (Event E)),
      (∃ evs, (p.sequentialGroup ctx (fun s tr => ⟨Status.returned none, s, tr⟩) names
            payload trace).status = Status.returned none ∧
          (p.sequentialGroup ctx (fun s tr => ⟨Status.returned none, s, tr⟩) names
            payload trace).trace = trace ++ evs ∧ GoodLog evs ∧ evs.map Event.name = names) ∨
      (∃ evs ev, (p.sequentialGroup ctx (fun s tr => ⟨Status.returned none, s, tr⟩) names
            payload trace).trace = trace ++ (evs ++ [ev]) ∧ GoodLog evs ∧ ev.err ≠ none ∧
          ((ev.answer = none ∧
              (p.sequentialGroup ctx (fun s tr => ⟨Status.returned none, s, tr⟩) names
                payload trace).status = Status.returned ev.err) ∨
            ∃ onErr, ev.answer = some (onErr, false) ∧
              (p.sequentialGroup ctx (fun s tr => ⟨Status.returned none, s, tr⟩) names
                payload trace).status = Status.returned onErr)) ∨
      (∃ f evs, (p.sequentialGroup ctx (fun s tr => ⟨Status.returned none, s, tr⟩) names
            payload trace).status = Status.panicked f ∧
          (p.sequentialGroup ctx (fun s tr => ⟨Status.returned none, s, tr⟩) names
            payload trace).trace = trace ++ evs ∧ GoodLog evs ∧
          evs.length < names.length) := by
  induction names with
  | nil =>
    intro payload trace
    exact Or.inl ⟨[], rfl, by simp [Pipeline.sequentialGroup], by intro ev hev; simp at hev, rfl⟩
  | cons n names ih =>
    intro payload trace
    have step : ∀ (e0 : Event E) (s : T), GoodLog [e0] → e0.name = n →
        (∃ evs, (p.sequentialGroup ctx (fun s tr => ⟨Status.returned none, s, tr⟩) names
            s (trace ++ [e0])).status = Status.returned none ∧
          (p.sequentialGroup ctx (fun s tr => ⟨Status.returned none, s, tr⟩) names
            s (trace ++ [e0])).trace = trace ++ evs ∧ GoodLog evs ∧
          evs.map Event.name = n :: names) ∨
        (∃ evs ev, (p.sequentialGroup ctx (fun s tr => ⟨Status.returned none, s, tr⟩) names
            s (trace ++ [e0])).trace = trace ++ (evs ++ [ev]) ∧ GoodLog evs ∧ ev.err ≠ none ∧
          ((ev.answer = none ∧
              (p.sequentialGroup ctx (fun s tr => ⟨Status.returned none, s, tr⟩) names
                s (trace ++ [e0])).status = Status.returned ev.err) ∨
            ∃ onErr, ev.answer = some (onErr, false) ∧
              (p.sequentialGroup ctx (fun s tr => ⟨Status.returned none, s, tr⟩) names
                s (trace ++ [e0])).status = Status.returned onErr)) ∨
        (∃ f evs, (p.sequentialGroup ctx (fun s tr => ⟨Status.returned none, s, tr⟩) names
            s (trace ++ [e0])).status = Status.panicked f ∧
          (p.sequentialGroup ctx (fun s tr => ⟨Status.returned none, s, tr⟩) names
            s (trace ++ [e0])).trace = trace ++ evs ∧ GoodLog evs ∧
          evs.length < (n :: names).length) := by
      intro e0 s hg hname
      rcases ih s (trace ++ [e0]) with ⟨evs, h1, h2, h3, h4⟩ | ⟨evs, ev, h1, h2, h3, h4⟩ |
        ⟨f, evs, h1, h2, h3, h4⟩
      · exact Or.inl ⟨e0 :: evs, h1, by rw [h2]; simp, GoodLog.append hg h3, by simp [hname, h4]⟩
      · exact Or.inr (Or.inl ⟨e0 :: evs, ev, by rw [h1]; simp, GoodLog.append hg h2, h3, h4⟩)
      · exact Or.inr (Or.inr ⟨f, e0 :: evs, h1, by rw [h2]; simp, GoodLog.append hg h3,
          by simp; omega⟩)
    simp only [Pipeline.sequentialGroup]
    cases p.executors n with
    | none =>
      exact Or.inr (Or.inr ⟨Fault.nilDereference, [], rfl, by simp,
        by intro ev hev; simp at hev, by simp⟩)
    | some exec =>
      simp only
      rcases exec ctx payload with ⟨payload1, _ | err⟩
      · exact step ⟨n, none, none⟩ payload1
          (by intro ev hev; simp at hev; subst hev; exact Or.inl ⟨rfl, rfl⟩) rfl
      · simp only
        cases p.onError with
        | none =>
          exact Or.inr (Or.inl ⟨[], ⟨n, some err, none⟩, by simp,
            by intro ev hev; simp at hev, by simp, Or.inl ⟨rfl, rfl⟩⟩)
        | some onError =>
          simp only
          rcases onError ctx payload1 err with ⟨payload2, onErr, _ | _⟩
          · exact Or.inr (Or.inl ⟨[], ⟨n, some err, some (onErr, false)⟩, by simp,
              by intro ev hev; simp at hev, by simp, Or.inr ⟨onErr, rfl, rfl⟩⟩)
          · exact step ⟨n, some err, some (onErr, true)⟩ payload2
              (by intro ev hev; simp at hev; subst hev; exact Or.inr ⟨by simp, onErr, rfl⟩) rfl

/-! ## Properties of the registry and of sequential execution -/

theorem foldl_opts_without_graph {Ctx T E : Type} (opts : List (Opt Ctx T E))
    (hopts : ∀ o ∈ opts, (∃ f, o = WithErrorCallback f) ∨ (∃ s, o = WithExecutionStrategy s)) :
    ∀ p0 : Pipeline Ctx T E, p0.dependencyGraph = none ∧ p0.groups = [[]] →
      (opts.foldl (fun p opt => opt p) p0).dependencyGraph = none ∧
      (opts.foldl (fun p opt => opt p) p0).groups = [[]] := by
  induction opts with
  | nil => intro p0 h0; exact h0
  | cons o opts ih =>
    intro p0 h0
    simp only [List.foldl_cons]
    apply ih (fun o1 ho1 => hopts o1 (List.mem_cons_of_mem _ ho1))
    rcases hopts o (List.mem_cons_self _ _) with ⟨f, rfl⟩ | ⟨s, rfl⟩
    · exact h0
    · exact h0

theorem New_without_graph {Ctx T E : Type} (id : String) (opts : List (Opt Ctx T E))
    (hopts : ∀ o ∈ opts, (∃ f, o = WithErrorCallback f) ∨ (∃ s, o = WithExecutionStrategy s)) :
    (New id opts).dependencyGraph = none ∧ (New id opts).groups = [[]] :=
  foldl_opts_without_graph opts hopts _ ⟨rfl, rfl⟩

theorem addExecutors_without_graph {Ctx T E : Type}
    (regs : List (String × Executor Ctx T E × Orders)) :
    ∀ (p : Pipeline Ctx T E) (g : List String), p.dependencyGraph = none → p.groups = [g] →
      ∃ p1, p.addExecutors regs = Except.ok p1 ∧ p1.dependencyGraph = none ∧
        p1.groups = [g ++ regs.map (fun r => r.1)] := by
  induction regs with
  | nil => intro p g hd hg; exact ⟨p, rfl, hd, by simp [hg]⟩
  | cons r regs ih =>
    intro p g hd hg
    obtain ⟨id, exec, ord⟩ := r
    have hadd : p.AddExecutor ord id exec =
        Except.ok { p with executors := p.executors.set id exec, groups := [g ++ [id]] } := by
      simp [Pipeline.AddExecutor, hg, Pipeline.sort, hd]
    obtain ⟨p1, h1, h2, h3⟩ :=
      ih { p with executors := p.executors.set id exec, groups := [g ++ [id]] } (g ++ [id]) hd rfl
    refine ⟨p1, ?_, h2, by simp [h3]⟩
    simp only [Pipeline.addExecutors, hadd]
    exact h1

/-- C3: a pipeline created by `New` without a dependency graph option has, after
any sequence of `AddExecutor` calls, exactly one level, which lists the registered
names in registration order. -/
theorem groups_without_graph {Ctx T E : Type} (id : String) (opts : List (Opt Ctx T E))
    (regs : List (String × Executor Ctx T E × Orders))
    (hopts : ∀ o ∈ opts, (∃ f, o = WithErrorCallback f) ∨ (∃ s, o = WithExecutionStrategy s)) :
    ∃ p, (New id opts).addExecutors regs = Except.ok p ∧
      p.groups = [regs.map (fun r => r.1)] := by
  obtain ⟨hd, hg⟩ := New_without_graph id opts hopts
  obtain ⟨p, h1, _, h3⟩ := addExecutors_without_graph regs (New id opts) [] hd hg
  exact ⟨p, h1, by simpa using h3⟩

theorem groups_without_graph_witness :
    ∃ p, (New "prices" [WithErrorCallback (some ignoreErrors)]).addExecutors
        [("scramble", scrambleChecked, noOrders), ("milk", milkExec, noOrders),
          ("eggs", eggsExec, noOrders)] = Except.ok p ∧
      p.groups = [["scramble", "milk", "eggs"]] :=
  groups_without_graph "prices" [WithErrorCallback (some ignoreErrors)]
    [("scramble", scrambleChecked, noOrders), ("milk", milkExec, noOrders),
      ("eggs", eggsExec, noOrders)]
    (by intro o ho; simp at ho; exact Or.inl ⟨_, ho⟩)

/-- C4: with the sequential strategy and no error callback, when the executors of
`pre` succeed and the next scheduled executor `n` fails with `e`, `Execute` returns
exactly `e`, the executors invoked are those of `pre` followed by `n` (none of `post`,
whether in the same level or in a later one), and the payload is the one obtained by
applying the executors of `pre` and then `n`. -/
theorem Execute_sequential_first_failure {Ctx T E : Type}
    (parallel : Pipeline Ctx T E → Ctx → T → Run T E) (p : Pipeline Ctx T E) (ctx : Ctx)
    (payload : T) (pre post : List String) (n : String) (exec : Executor Ctx T E) (e : E)
    (hs : p.strategy = StrategySequential) (hpol : p.onError = none)
    (hgroups : p.groups.flatten = pre ++ n :: post)
    (hpre : allSucceed p ctx pre payload)
    (hexec : p.executors n = some exec)
    (hfail : (exec ctx (applyInOrder p ctx pre payload)).2 = some e) :
    (p.Execute parallel ctx payload).status = Status.returned (some e) ∧
    (p.Execute parallel ctx payload).invoked = pre ++ [n] ∧
    (p.Execute parallel ctx payload).payload = applyInOrder p ctx (pre ++ [n]) payload := by
  rw [Execute_sequential parallel p ctx payload hs]
  unfold Pipeline.sequential
  rw [sequentialFrom_join, hgroups, sequentialGroup_append,
    sequentialGroup_allSucceed p ctx _ pre payload [] hpre]
  have hpair : exec ctx (applyInOrder p ctx pre payload) =
      ((exec ctx (applyInOrder p ctx pre payload)).1, some e) := by rw [← hfail]
  have happ : applyInOrder p ctx (pre ++ [n]) payload =
      (exec ctx (applyInOrder p ctx pre payload)).1 := by
    rw [applyInOrder_append]; simp [applyInOrder, hexec]
  simp only [Pipeline.sequentialGroup, hexec]
  rw [hpair]
  simp only [hpol, happ]
  refine ⟨trivial, ?_, trivial⟩
  simp [Run.invoked, Function.comp_def]

theorem Execute_sequential_first_failure_witness :
    (abortPipeline.Execute noParallel () GoMap.empty).status =
        Status.returned (some "eggs not found") ∧
      (abortPipeline.Execute noParallel () GoMap.empty).invoked = ["milk"] ++ ["scramble"] ∧
      (abortPipeline.Execute noParallel () GoMap.empty).payload =
        applyInOrder abortPipeline () (["milk"] ++ ["scramble"]) GoMap.empty :=
  Execute_sequential_first_failure noParallel abortPipeline () GoMap.empty ["milk"] ["eggs"]
    "scramble" scrambleChecked "eggs not found" rfl rfl rfl ⟨milkExec, rfl, rfl, trivial⟩ rfl rfl

/-- C5: with the sequential strategy and an error callback that always answers
`(nil, true)`, `Execute` invokes every scheduled executor, level after level, and
returns `nil`, whatever the executors do. -/
theorem Execute_sequential_always_continue {Ctx T E : Type}
    (parallel : Pipeline Ctx T E → Ctx → T → Run T E) (p : Pipeline Ctx T E) (ctx : Ctx)
    (payload : T) (h : ErrorHandler Ctx T E)
    (hs : p.strategy = StrategySequential) (hpol : p.onError = some h)
    (hcont : ∀ c s e, (h c s e).2 = (none, true))
    (hreg : ∀ n ∈ p.groups.flatten, (p.executors n).isSome = true) :
    (p.Execute parallel ctx payload).status = Status.returned none ∧
    (p.Execute parallel ctx payload).invoked = p.groups.flatten := by
  rw [Execute_sequential parallel p ctx payload hs]
  unfold Pipeline.sequential
  rw [sequentialFrom_join]
  obtain ⟨s, evs, hev, hrun⟩ := sequentialGroup_registered p ctx
    (fun s tr => ⟨Status.returned none, s, tr⟩) h hpol hcont p.groups.flatten payload [] hreg
  rw [hrun]
  exact ⟨rfl, by simp [Run.invoked, hev]⟩

theorem Execute_sequential_always_continue_witness :
    ((errorsPipeline.Execute noParallel () GoMap.empty).status = Status.returned none ∧
      (errorsPipeline.Execute noParallel () GoMap.empty).invoked =
        errorsPipeline.groups.flatten) ∧
    (errorsPipeline.Execute noParallel () GoMap.empty).payload "milk" = some 1 ∧
    (errorsPipeline.Execute noParallel () GoMap.empty).payload "eggs" = some 1 ∧
    (errorsPipeline.Execute noParallel () GoMap.empty).payload "scramble" = none :=
  ⟨Execute_sequential_always_continue noParallel errorsPipeline () GoMap.empty ignoreErrors
      rfl rfl (fun _ _ _ => rfl) (by decide), rfl, rfl, rfl⟩

/-- C6: with the sequential strategy, when the executors of `pre` succeed, the next
scheduled executor fails and the error callback answers that failure with
`(onErr, false)`, `Execute` returns exactly `onErr` (`nil` when `onErr` is `nil`) and
invokes none of the remaining executors. -/
theorem Execute_sequential_policy_abort {Ctx T E : Type}
    (parallel : Pipeline Ctx T E → Ctx → T → Run T E) (p : Pipeline Ctx T E) (ctx : Ctx)
    (payload payload1 : T) (pre post : List String) (n : String) (exec : Executor Ctx T E)
    (e : E) (h : ErrorHandler Ctx T E) (onErr : Option E)
    (hs : p.strategy = StrategySequential) (hpol : p.onError = some h)
    (hgroups : p.groups.flatten = pre ++ n :: post)
    (hpre : allSucceed p ctx pre payload)
    (hexec : p.executors n = some exec)
    (hfail : (exec ctx (applyInOrder p ctx pre payload)).2 = some e)
    (hans : h ctx (exec ctx (applyInOrder p ctx pre payload)).1 e = (payload1, onErr, false)) :
    (p.Execute parallel ctx payload).status = Status.returned onErr ∧
    (p.Execute parallel ctx payload).invoked = pre ++ [n] ∧
    (p.Execute parallel ctx payload).payload = payload1 := by
  rw [Execute_sequential parallel p ctx payload hs]
  unfold Pipeline.sequential
  rw [sequentialFrom_join, hgroups, sequentialGroup_append,
    sequentialGroup_allSucceed p ctx _ pre payload [] hpre]
  have hpair : exec ctx (applyInOrder p ctx pre payload) =
      ((exec ctx (applyInOrder p ctx pre payload)).1, some e) := by rw [← hfail]
  simp only [Pipeline.sequentialGroup, hexec]
  rw [hpair]
  simp only [hpol, hans]
  refine ⟨trivial, ?_, trivial⟩
  simp [Run.invoked, Function.comp_def]

/-- C7: sequential `Execute` without an error callback and sequential `Execute` with
a callback that always answers `(err, false)` return the same error, invoke the same
executors and leave the same payload, for every level sequence, executor set and
payload. -/
theorem Execute_sequential_no_policy_eq_fail_fast {Ctx T E : Type}
    (parallel0 parallel1 : Pipeline Ctx T E → Ctx → T → Run T E) (p : Pipeline Ctx T E)
    (ctx : Ctx) (payload : T) (h : ErrorHandler Ctx T E)
    (hs : p.strategy = StrategySequential)
    (hh : ∀ c s e, h c s e = (s, some e, false)) :
    (Pipeline.Execute parallel0 (WithErrorCallback none p) ctx payload).status =
      (Pipeline.Execute parallel1 (WithErrorCallback (some h) p) ctx payload).status ∧
    (Pipeline.Execute parallel0 (WithErrorCallback none p) ctx payload).invoked =
      (Pipeline.Execute parallel1 (WithErrorCallback (some h) p) ctx payload).invoked ∧
    (Pipeline.Execute parallel0 (WithErrorCallback none p) ctx payload).payload =
      (Pipeline.Execute parallel1 (WithErrorCallback (some h) p) ctx payload).payload := by
  rw [Execute_sequential parallel0 (WithErrorCallback none p) ctx payload hs,
    Execute_sequential parallel1 (WithErrorCallback (some h) p) ctx payload hs]
  exact sequentialFrom_policy_irrelevant p ctx h hh p.groups payload [] [] rfl

theorem Execute_sequential_no_policy_eq_fail_fast_witness :
    (Pipeline.Execute noParallel (WithErrorCallback none abortPipeline) () GoMap.empty).status =
      (Pipeline.Execute noParallel (WithErrorCallback (some failFast) abortPipeline) ()
        GoMap.empty).status ∧
    (Pipeline.Execute noParallel (WithErrorCallback none abortPipeline) () GoMap.empty).invoked =
      (Pipeline.Execute noParallel (WithErrorCallback (some failFast) abortPipeline) ()
        GoMap.empty).invoked ∧
    (Pipeline.Execute noParallel (WithErrorCallback none abortPipeline) () GoMap.empty).payload =
      (Pipeline.Execute noParallel (WithErrorCallback (some failFast) abortPipeline) ()
        GoMap.empty).payload :=
  Execute_sequential_no_policy_eq_fail_fast noParallel noParallel abortPipeline () GoMap.empty
    failFast rfl (fun _ _ _ => rfl)

theorem Execute_sequential_policy_abort_witness :
    (quietPipeline.Execute noParallel () GoMap.empty).status = Status.returned none ∧
      (quietPipeline.Execute noParallel () GoMap.empty).invoked = [] ++ ["scramble"] ∧
      (quietPipeline.Execute noParallel () GoMap.empty).payload = GoMap.empty :=
  Execute_sequential_policy_abort noParallel quietPipeline () GoMap.empty GoMap.empty []
    ["milk", "eggs"] "scramble" scrambleChecked "eggs not found" stopQuietly none
    rfl rfl rfl trivial rfl rfl rfl

/-- C8 as stated fails: with a callback answering `(nil, false)` the run of
`quietPipeline` returns `nil` although only `scramble` was invoked and its failure
was not answered with "continue". -/
theorem Execute_sequential_nil_not_iff_completed :
    ¬ ((quietPipeline.Execute noParallel () GoMap.empty).status = Status.returned none ↔
        ((quietPipeline.Execute noParallel () GoMap.empty).invoked =
            quietPipeline.groups.flatten ∧
          ∀ ev ∈ (quietPipeline.Execute noParallel () GoMap.empty).trace, ev.recovered)) := by
  intro h
  have h1 : (quietPipeline.Execute noParallel () GoMap.empty).status = Status.returned none :=
    rfl
  have h2 := (h.mp h1).1
  have h3 : (quietPipeline.Execute noParallel () GoMap.empty).invoked = ["scramble"] := rfl
  rw [h3] at h2
  exact absurd h2 (by decide)

/-- C8, amended: sequential `Execute` returns `nil` exactly when either every
scheduled task was run and every failure was answered by the callback with
"continue", or the run was stopped by a callback answer `(nil, false)`. -/
theorem Execute_sequential_nil_iff {Ctx T E : Type}
    (parallel : Pipeline Ctx T E → Ctx → T → Run T E) (p : Pipeline Ctx T E) (ctx : Ctx)
    (payload : T) (hs : p.strategy = StrategySequential) :
    (p.Execute parallel ctx payload).status = Status.returned none ↔
      (((p.Execute parallel ctx payload).invoked = p.groups.flatten ∧
          ∀ ev ∈ (p.Execute parallel ctx payload).trace, ev.recovered) ∨
        (p.Execute parallel ctx payload).cleanStop) := by
  rw [Execute_sequential parallel p ctx payload hs]
  unfold Pipeline.sequential
  rw [sequentialFrom_join]
  rcases sequentialGroup_cases p ctx p.groups.flatten payload [] with
    ⟨evs, h1, h2, h3, h4⟩ | ⟨evs, ev, h1, h2, h3, h4⟩ | ⟨f, evs, h1, h2, h3, h4⟩
  · simp only [List.nil_append] at h2
    refine ⟨fun _ => Or.inl ⟨by simp [Run.invoked, h2, h4], ?_⟩, fun _ => h1⟩
    intro ev0 hev0
    rw [h2] at hev0
    rcases h3 ev0 hev0 with ⟨h5, _⟩ | ⟨_, h5⟩
    · exact Or.inl h5
    · exact Or.inr h5
  · simp only [List.nil_append] at h1
    have hnot : ¬ ev.recovered → ¬ (∀ ev0 ∈ (p.sequentialGroup ctx
        (fun s tr => ⟨Status.returned none, s, tr⟩) p.groups.flatten payload []).trace,
        ev0.recovered) := by
      intro hn hall
      exact hn (hall ev (by rw [h1]; simp))
    have hlast : (p.sequentialGroup ctx (fun s tr => ⟨Status.returned none, s, tr⟩)
        p.groups.flatten payload []).trace.getLast? = some ev := by
      rw [h1]; simp
    rcases h4 with ⟨h5, h6⟩ | ⟨onErr, h5, h6⟩
    · have hrec : ¬ ev.recovered := by
        rintro (h7 | ⟨o, h7⟩)
        · exact h3 h7
        · rw [h5] at h7; cases h7
      constructor
      · intro h7
        rw [h6] at h7
        injection h7 with h8
        exact absurd h8 h3
      · rintro (⟨_, h7⟩ | ⟨ev1, h7, _, h9⟩)
        · exact absurd h7 (hnot hrec)
        · rw [hlast] at h7
          injection h7 with h10
          subst h10
          rw [h5] at h9
          cases h9
    · have hrec : ¬ ev.recovered := by
        rintro (h7 | ⟨o, h7⟩)
        · exact h3 h7
        · rw [h5] at h7; cases h7
      constructor
      · intro h7
        rw [h6] at h7
        injection h7 with h8
        subst h8
        exact Or.inr ⟨ev, hlast, h3, h5⟩
      · rintro (⟨_, h7⟩ | ⟨ev1, h7, _, h9⟩)
        · exact absurd h7 (hnot hrec)
        · rw [hlast] at h7
          injection h7 with h10
          subst h10
          rw [h5] at h9
          injection h9 with h11
          injection h11 with h12 _
          rw [h6, h12]
  · simp only [List.nil_append] at h2
    constructor
    · intro h7
      rw [h1] at h7
      cases h7
    · rintro (⟨h7, _⟩ | ⟨ev1, h7, h8, h9⟩)
      · have hlen := congrArg List.length h7
        rw [Run.invoked, h2, List.length_map] at hlen
        omega
      · rw [h2] at h7
        have hmem : ev1 ∈ evs := List.mem_of_getLast?_eq_some h7
        rcases h3 ev1 hmem with ⟨h10, _⟩ | ⟨_, o, h10⟩
        · exact absurd h10 h8
        · rw [h9] at h10; cases h10

theorem Execute_sequential_nil_iff_witness :
    (errorsPipeline.Execute noParallel () GoMap.empty).status = Status.returned none ↔
      (((errorsPipeline.Execute noParallel () GoMap.empty).invoked =
            errorsPipeline.groups.flatten ∧
          ∀ ev ∈ (errorsPipeline.Execute noParallel () GoMap.empty).trace, ev.recovered) ∨
        (errorsPipeline.Execute noParallel () GoMap.empty).cleanStop) :=
  Execute_sequential_nil_iff noParallel errorsPipeline () GoMap.empty rfl

/-- C10: with the sequential strategy, when every scheduled executor succeeds,
`Execute` returns `nil`, has invoked the executors in the order of the concatenated
levels, and leaves the payload obtained by applying them one after another in that
order. -/
theorem Execute_sequential_all_succeed {Ctx T E : Type}
    (parallel : Pipeline Ctx T E → Ctx → T → Run T E) (p : Pipeline Ctx T E) (ctx : Ctx)
    (payload : T) (hs : p.strategy = StrategySequential)
    (hall : allSucceed p ctx p.groups.flatten payload) :
    (p.Execute parallel ctx payload).status = Status.returned none ∧
    (p.Execute parallel ctx payload).invoked = p.groups.flatten ∧
    (p.Execute parallel ctx payload).payload = applyInOrder p ctx p.groups.flatten payload := by
  rw [Execute_sequential parallel p ctx payload hs]
  unfold Pipeline.sequential
  rw [sequentialFrom_join, sequentialGroup_allSucceed p ctx _ _ payload [] hall]
  exact ⟨rfl, by simp [Run.invoked, Function.comp_def], rfl⟩

theorem Execute_sequential_all_succeed_witness :
    ((simplePipeline.Execute noParallel () GoMap.empty).status = Status.returned none ∧
      (simplePipeline.Execute noParallel () GoMap.empty).invoked =
        simplePipeline.groups.flatten ∧
      (simplePipeline.Execute noParallel () GoMap.empty).payload =
        applyInOrder simplePipeline () simplePipeline.groups.flatten GoMap.empty) ∧
    (simplePipeline.Execute noParallel () GoMap.empty).payload "milk" = some 1 ∧
    (simplePipeline.Execute noParallel () GoMap.empty).payload "eggs" = some 1 ∧
    (simplePipeline.Execute noParallel () GoMap.empty).payload "scramble" = some 2 :=
  ⟨Execute_sequential_all_succeed noParallel simplePipeline () GoMap.empty rfl
      ⟨milkExec, rfl, rfl, eggsExec, rfl, rfl, scrambleExec, rfl, rfl, trivial⟩, rfl, rfl, rfl⟩

/-! ## Properties of the leveling -/

theorem GoMap.ofList_isSome {V : Type} (l : List (String × V)) (k : String) :
    (GoMap.ofList l k).isSome = true ↔ k ∈ l.map Prod.fst := by
  unfold GoMap.ofList
  induction l with
  | nil => simp
  | cons e l ih =>
    obtain ⟨a, v⟩ := e
    by_cases h : k = a
    · subst h; simp [List.lookup]
    · have h1 : (k == a) = false := by simpa using h
      simp [List.lookup, h1, ih, h]

theorem depsOf_ofList_mem (l : List (String × List String)) (t d : String)
    (h : d ∈ depsOf (GoMap.ofList l) t) : ∃ e ∈ l, e.1 = t ∧ d ∈ e.2 := by
  unfold depsOf GoMap.ofList at h
  induction l with
  | nil => simp at h
  | cons e l ih =>
    obtain ⟨a, v⟩ := e
    by_cases h1 : t = a
    · subst h1
      simp [List.lookup] at h
      exact ⟨(t, v), List.mem_cons_self _ _, rfl, h⟩
    · have h2 : (t == a) = false := by simpa using h1
      simp only [List.lookup, h2] at h
      obtain ⟨e, he, h3⟩ := ih h
      exact ⟨e, List.mem_cons_of_mem _ he, h3⟩

theorem depsOf_ofList_of_mem (l : List (String × List String))
    (hkeys : (l.map Prod.fst).Nodup) (e : String × List String) (he : e ∈ l) :
    depsOf (GoMap.ofList l) e.1 = e.2 := by
  unfold depsOf GoMap.ofList
  induction l with
  | nil => simp at he
  | cons e0 l ih =>
    obtain ⟨a, v⟩ := e0
    rw [List.map_cons, List.nodup_cons] at hkeys
    rcases List.mem_cons.mp he with rfl | he
    · simp [List.lookup]
    · have hne : e.1 ≠ a := by
        intro h
        have hm : e.1 ∈ l.map Prod.fst := List.mem_map_of_mem _ he
        rw [h] at hm
        exact hkeys.1 hm
      have h2 : (e.1 == a) = false := by simpa using hne
      simp only [List.lookup, h2]
      exact ih hkeys.2 he

theorem mentioned_ofList (l : List (String × List String)) (hkeys : (l.map Prod.fst).Nodup)
    (x : String) :
    Mentioned (GoMap.ofList l) x ↔ x ∈ (l.map Prod.fst ++ l.flatMap Prod.snd).dedup := by
  rw [List.mem_dedup, List.mem_append, List.mem_flatMap]
  unfold Mentioned
  rw [GoMap.ofList_isSome]
  constructor
  · rintro (h | ⟨t, h⟩)
    · exact Or.inl h
    · obtain ⟨e, he, _, hd⟩ := depsOf_ofList_mem l t x h
      exact Or.inr ⟨e, he, hd⟩
  · rintro (h | ⟨e, he, hd⟩)
    · exact Or.inl h
    · exact Or.inr ⟨e.1, by rw [depsOf_ofList_of_mem l hkeys e he]; exact hd⟩

/-- Visiting orders for a graph given by a literal: permutations of its keys and of
its names. -/
theorem validOrders_ofList (l : List (String × List String)) (ord : Orders)
    (hkeys : (l.map Prod.fst).Nodup)
    (h1 : ord.keys1.Perm (l.map Prod.fst)) (h2 : ord.keys2.Perm (l.map Prod.fst))
    (h3 : ord.nodes.Perm (l.map Prod.fst ++ l.flatMap Prod.snd).dedup)
    (h4 : ord.degrees.Perm (l.map Prod.fst ++ l.flatMap Prod.snd).dedup) :
    ValidOrders (GoMap.ofList l) ord := by
  have r1 : (GoMap.ofList l).IsRange ord.keys1 :=
    ⟨h1.nodup_iff.mpr hkeys, fun k => by rw [h1.mem_iff, GoMap.ofList_isSome]⟩
  have r2 : (GoMap.ofList l).IsRange ord.keys2 :=
    ⟨h2.nodup_iff.mpr hkeys, fun k => by rw [h2.mem_iff, GoMap.ofList_isSome]⟩
  have r3 : (invertGraph (GoMap.ofList l) ord.keys1 ord.keys2).IsRange ord.nodes :=
    ⟨h3.nodup_iff.mpr (List.nodup_dedup _), fun k => by
      rw [h3.mem_iff, invertGraph_isSome _ _ _ r1 r2, mentioned_ofList l hkeys]⟩
  refine ⟨r1, r2, r3, h4.nodup_iff.mpr (List.nodup_dedup _), fun k => ?_⟩
  rw [h4.mem_iff, countIndegree_isSome _ _ r1 r2 r3, mentioned_ofList l hkeys]

theorem breakfastOrders_valid : ValidOrders breakfastGraph breakfastOrders :=
  validOrders_ofList _ breakfastOrders (by decide) (by decide) (by decide) (by decide)
    (by decide)

theorem breakfastGraph_acyclic : Acyclic breakfastGraph := by
  apply acyclic_of_rank breakfastGraph breakfastRank
  intro t d h
  obtain ⟨e, he, rfl, hd⟩ := depsOf_ofList_mem _ t d h
  revert d
  revert e
  decide

theorem sort_eq_of_levels {Ctx T E : Type} (p : Pipeline Ctx T E) (dg : GoMap (List String))
    (ord : Orders) (levels : List (List String)) (hdg : p.dependencyGraph = some dg)
    (hsort : sortLevels dg ord = Except.ok levels) :
    p.sort ord = Except.ok { p with groups := levels } := by
  unfold Pipeline.sort
  rw [hdg]
  simp only [hsort]

/-- C1: for an acyclic dependency graph and every possible visiting order of the
maps, `sort` produces levels in which every key of the graph appears and in which,
for every task `t` and every dependency `d` listed for `t`, both `t` and `d` appear,
with every level holding `d` strictly before every level holding `t`. -/
theorem sort_levels_respect_dependencies {Ctx T E : Type} (p : Pipeline Ctx T E)
    (dg : GoMap (List String)) (ord : Orders) (hdg : p.dependencyGraph = some dg)
    (hac : Acyclic dg) (hord : ValidOrders dg ord) :
    ∃ p1, p.sort ord = Except.ok p1 ∧
      (∀ t, (dg t).isSome = true → t ∈ p1.groups.flatten) ∧
      ∀ t d, d ∈ depsOf dg t →
        (∃ (i j : Nat) (li lj : List String), p1.groups[i]? = some li ∧
          p1.groups[j]? = some lj ∧ d ∈ li ∧ t ∈ lj ∧ i < j) ∧
        (∀ (i j : Nat) (li lj : List String), p1.groups[i]? = some li →
          p1.groups[j]? = some lj → d ∈ li → t ∈ lj → i < j) := by
  obtain ⟨levels, hsort, hlev⟩ := sortLevels_spec dg ord hord
  have hall := Leveling.complete dg levels hlev ord.degrees
    (fun x hx => (hord.2.2.2.2 x).mpr
      ((countIndegree_isSome dg ord hord.1 hord.2.1 hord.2.2.1 x).mpr hx)) hac
  refine ⟨{ p with groups := levels }, sort_eq_of_levels p dg ord levels hdg hsort,
    fun t ht => hall t (Or.inl ht), fun t d hd => ⟨?_, ?_⟩⟩
  · obtain ⟨hmt, hmd⟩ := mentioned_of_mem_depsOf dg t d hd
    obtain ⟨i, li, hi, hdi⟩ := exists_level_of_mem_flatten levels d (hall d hmd)
    obtain ⟨j, lj, hj, htj⟩ := exists_level_of_mem_flatten levels t (hall t hmt)
    exact ⟨i, j, li, lj, hi, hj, hdi, htj,
      Leveling.lt_of_dep dg levels hlev t d hd i j li lj hi hj hdi htj⟩
  · intro i j li lj hi hj hdi htj
    exact Leveling.lt_of_dep dg levels hlev t d hd i j li lj hi hj hdi htj

theorem sort_levels_respect_dependencies_witness :
    (∃ p1, breakfastPipeline.sort breakfastOrders = Except.ok p1 ∧
      (∀ t, (breakfastGraph t).isSome = true → t ∈ p1.groups.flatten) ∧
      ∀ t d, d ∈ depsOf breakfastGraph t →
        (∃ (i j : Nat) (li lj : List String), p1.groups[i]? = some li ∧
          p1.groups[j]? = some lj ∧ d ∈ li ∧ t ∈ lj ∧ i < j) ∧
        (∀ (i j : Nat) (li lj : List String), p1.groups[i]? = some li →
          p1.groups[j]? = some lj → d ∈ li → t ∈ lj → i < j)) ∧
    sortLevels breakfastGraph breakfastOrders =
      Except.ok [["db"], ["milk", "eggs"], ["scramble"]] :=
  ⟨sort_levels_respect_dependencies breakfastPipeline breakfastGraph breakfastOrders rfl
    breakfastGraph_acyclic breakfastOrders_valid, rfl⟩

/-- C2: for an acyclic dependency graph, every name mentioned in the graph, as a key
or only as a dependency, occurs exactly once in the concatenation of the levels
produced by `sort`, and a name mentioned only as a dependency lies in level 0. -/
theorem sort_schedules_each_name_once {Ctx T E : Type} (p : Pipeline Ctx T E)
    (dg : GoMap (List String)) (ord : Orders) (hdg : p.dependencyGraph = some dg)
    (hac : Acyclic dg) (hord : ValidOrders dg ord) :
    ∃ p1, p.sort ord = Except.ok p1 ∧
      (∀ x, Mentioned dg x → p1.groups.flatten.count x = 1) ∧
      (∀ x, Mentioned dg x → dg x = none →
        ∃ l0 : List String, p1.groups[0]? = some l0 ∧ x ∈ l0) := by
  obtain ⟨levels, hsort, hlev⟩ := sortLevels_spec dg ord hord
  have hall := Leveling.complete dg levels hlev ord.degrees
    (fun x hx => (hord.2.2.2.2 x).mpr
      ((countIndegree_isSome dg ord hord.1 hord.2.1 hord.2.2.1 x).mpr hx)) hac
  have hnodup : levels.flatten.Nodup := by
    simpa using Leveling.nodup dg levels [] List.nodup_nil hlev
  refine ⟨{ p with groups := levels }, sort_eq_of_levels p dg ord levels hdg hsort,
    fun x hx => List.count_eq_one_of_mem hnodup (hall x hx), fun x hx hnone => ?_⟩
  have hz : unmet dg [] x = 0 := by simp [unmet, depsOf, hnone]
  cases levels with
  | nil => exact absurd hz (hlev x hx (by simp))
  | cons l0 levels => exact ⟨l0, by simp, (hlev.2.2.1 x).mpr ⟨hx, by simp, hz⟩⟩

theorem sort_schedules_each_name_once_witness :
    ∃ p1, breakfastPipeline.sort breakfastOrders = Except.ok p1 ∧
      (∀ x, Mentioned breakfastGraph x → p1.groups.flatten.count x = 1) ∧
      (∀ x, Mentioned breakfastGraph x → breakfastGraph x = none →
        ∃ l0 : List String, p1.groups[0]? = some l0 ∧ x ∈ l0) :=
  sort_schedules_each_name_once breakfastPipeline breakfastGraph breakfastOrders rfl
    breakfastGraph_acyclic breakfastOrders_valid

theorem sequentialGroup_invoked_subset {Ctx T E : Type} (p : Pipeline Ctx T E) (ctx : Ctx)
    (names : List String) :
    ∀ (payload : T) (trace : List (Event E)) (x : String),
      x ∈ (p.sequentialGroup ctx (fun s tr => ⟨Status.returned none, s, tr⟩) names payload
        trace).invoked → x ∈ trace.map Event.name ∨ x ∈ names := by
  induction names with
  | nil => intro payload trace x hx; exact Or.inl hx
  | cons n names ih =>
    intro payload trace x
    simp only [Pipeline.sequentialGroup]
    have step : ∀ (e0 : Event E) (s : T), e0.name = n →
        x ∈ (p.sequentialGroup ctx (fun s tr => ⟨Status.returned none, s, tr⟩) names s
          (trace ++ [e0])).invoked → x ∈ trace.map Event.name ∨ x ∈ n :: names := by
      intro e0 s hname hx
      rcases ih s (trace ++ [e0]) x hx with h | h
      · simp only [List.map_append, List.map_cons, List.map_nil, List.mem_append,
          List.mem_singleton] at h
        rcases h with h | h
        · exact Or.inl h
        · exact Or.inr (by rw [h, hname]; exact List.mem_cons_self _ _)
      · exact Or.inr (List.mem_cons_of_mem _ h)
    have stop : ∀ e0 : Event E, e0.name = n → x ∈ (trace ++ [e0]).map Event.name →
        x ∈ trace.map Event.name ∨ x ∈ n :: names := by
      intro e0 hname hx
      simp only [List.map_append, List.map_cons, List.map_nil, List.mem_append,
        List.mem_singleton] at hx
      rcases hx with h | h
      · exact Or.inl h
      · exact Or.inr (by rw [h, hname]; exact List.mem_cons_self _ _)
    cases p.executors n with
    | none => intro hx; exact Or.inl hx
    | some exec =>
      simp only
      rcases exec ctx payload with ⟨payload1, _ | err⟩
      · exact step ⟨n, none, none⟩ payload1 rfl
      · simp only
        cases p.onError with
        | none => exact stop ⟨n, some err, none⟩ rfl
        | some onError =>
          simp only
          rcases onError ctx payload1 err with ⟨payload2, onErr, _ | _⟩
          · exact stop ⟨n, some err, some (onErr, false)⟩ rfl
          · exact step ⟨n, some err, some (onErr, true)⟩ payload2 rfl

/-- Sequential `Execute` invokes only executors whose names are in the levels. -/
theorem Execute_sequential_invoked_subset {Ctx T E : Type}
    (parallel : Pipeline Ctx T E → Ctx → T → Run T E) (p : Pipeline Ctx T E) (ctx : Ctx)
    (payload : T) (hs : p.strategy = StrategySequential) (x : String)
    (hx : x ∈ (p.Execute parallel ctx payload).invoked) : x ∈ p.groups.flatten := by
  rw [Execute_sequential parallel p ctx payload hs] at hx
  unfold Pipeline.sequential at hx
  rw [sequentialFrom_join] at hx
  rcases sequentialGroup_invoked_subset p ctx _ payload [] x hx with h | h
  · simp at h
  · exact h

/-! ## The example pipelines are the ones their programs build -/

theorem simplePipeline_built :
    (New "prices" []).addExecutors
        [("milk", milkExec, noOrders), ("eggs", eggsExec, noOrders),
          ("scramble", scrambleExec, noOrders)] = Except.ok simplePipeline := rfl

theorem errorsPipeline_built :
    (New "prices" [WithErrorCallback (some ignoreErrors)]).addExecutors
        [("scramble", scrambleChecked, noOrders), ("milk", milkExec, noOrders),
          ("eggs", eggsExec, noOrders)] = Except.ok errorsPipeline := rfl

theorem quietPipeline_built :
    (New "prices" [WithErrorCallback (some stopQuietly)]).addExecutors
        [("scramble", scrambleChecked, noOrders), ("milk", milkExec, noOrders),
          ("eggs", eggsExec, noOrders)] = Except.ok quietPipeline := rfl

theorem abortOrders_valid :
    ValidOrders (GoMap.ofList [("milk", []), ("scramble", []), ("eggs", ["milk"])])
      abortOrders :=
  validOrders_ofList _ abortOrders (by decide) (by decide) (by decide) (by decide) (by decide)

theorem abortPipeline_built :
    (New "prices" [WithDependencyGraph
        (some (GoMap.ofList [("milk", []), ("scramble", []), ("eggs", ["milk"])]))]).addExecutors
        [("milk", milkExec, abortOrders), ("scramble", scrambleChecked, abortOrders),
          ("eggs", eggsExec, abortOrders)] = Except.ok abortPipeline := rfl

/-! ## Registration order and repeated registration -/

/-- C11 as stated fails: with `milk`, `eggs`, `scramble` registered in that order,
`scramble` runs last, finds both keys and succeeds; `Execute` returns `nil`, all three
executors were invoked and the payload holds `milk = 1`, `eggs = 1`, `scramble = 2`. -/
theorem Execute_sequential_dependency_order_succeeds :
    ∃ p, (New "prices" []).addExecutors
        [("milk", milkExec, noOrders), ("eggs", eggsExec, noOrders),
          ("scramble", scrambleChecked, noOrders)] = Except.ok p ∧
      (p.Execute noParallel () GoMap.empty).status = Status.returned none ∧
      (p.Execute noParallel () GoMap.empty).invoked = ["milk", "eggs", "scramble"] ∧
      (p.Execute noParallel () GoMap.empty).payload "milk" = some 1 ∧
      (p.Execute noParallel () GoMap.empty).payload "eggs" = some 1 ∧
      (p.Execute noParallel () GoMap.empty).payload "scramble" = some 2 :=
  ⟨_, rfl, rfl, rfl, rfl, rfl, rfl⟩

/-- C11, amended: with the sequential strategy, no dependency graph and no error
callback, when `scramble` is registered first, before `milk` and `eggs`, and fails on
the payload it is given, `Execute` returns the error of `scramble`, invokes neither
`milk` nor `eggs`, and leaves the payload as `scramble` left it. -/
theorem Execute_sequential_scramble_registered_first {Ctx T E : Type}
    (parallel : Pipeline Ctx T E → Ctx → T → Run T E) (scramble milk eggs : Executor Ctx T E)
    (ctx : Ctx) (payload : T) (e : E) (hfail : (scramble ctx payload).2 = some e) :
    ∃ p, (New "prices" []).addExecutors
        [("scramble", scramble, noOrders), ("milk", milk, noOrders),
          ("eggs", eggs, noOrders)] = Except.ok p ∧
      p.groups = [["scramble", "milk", "eggs"]] ∧
      (p.Execute parallel ctx payload).status = Status.returned (some e) ∧
      (p.Execute parallel ctx payload).invoked = ["scramble"] ∧
      (p.Execute parallel ctx payload).payload = (scramble ctx payload).1 := by
  refine ⟨_, rfl, rfl, ?_⟩
  have hpair : scramble ctx payload = ((scramble ctx payload).1, some e) := by rw [← hfail]
  rw [Execute_sequential parallel _ ctx payload rfl]
  simp only [Pipeline.sequential, Pipeline.sequentialFrom, Pipeline.sequentialGroup,
    GoMap.set, GoMap.empty]
  simp only [show ("scramble" = "eggs") = False from by decide,
    show ("scramble" = "milk") = False from by decide, if_false, if_true]
  rw [hpair]
  exact ⟨rfl, rfl, rfl⟩

theorem Execute_sequential_scramble_registered_first_witness :
    (∃ p, (New "prices" []).addExecutors
        [("scramble", scrambleChecked, noOrders), ("milk", milkExec, noOrders),
          ("eggs", eggsExec, noOrders)] = Except.ok p ∧
      p.groups = [["scramble", "milk", "eggs"]] ∧
      (p.Execute noParallel () GoMap.empty).status = Status.returned (some "eggs not found") ∧
      (p.Execute noParallel () GoMap.empty).invoked = ["scramble"] ∧
      (p.Execute noParallel () GoMap.empty).payload = (scrambleChecked () GoMap.empty).1) ∧
    (scrambleChecked () GoMap.empty).1 = GoMap.empty :=
  ⟨Execute_sequential_scramble_registered_first noParallel scrambleChecked milkExec eggsExec ()
    GoMap.empty "eggs not found" rfl, rfl⟩

theorem unmet_congr (dg : GoMap (List String)) (d1 d2 : List String)
    (h : ∀ x, x ∈ d1 ↔ x ∈ d2) (t : String) : unmet dg d1 t = unmet dg d2 t := by
  unfold unmet
  apply List.countP_congr
  intro x _
  simp [h x]

/-- Two levelings of one graph have the same levels, up to the order within a level. -/
theorem Leveling.perm (dg : GoMap (List String)) (ls1 : List (List String)) :
    ∀ (ls2 : List (List String)) (d1 d2 : List String), (∀ x, x ∈ d1 ↔ x ∈ d2) →
      Leveling dg d1 ls1 → Leveling dg d2 ls2 → List.Forall₂ List.Perm ls1 ls2 := by
  induction ls1 with
  | nil =>
    intro ls2 d1 d2 hd h1 h2
    cases ls2 with
    | nil => exact List.Forall₂.nil
    | cons l ls2 =>
      exfalso
      obtain ⟨hne, _, hmem, _⟩ := h2
      obtain ⟨x, hx⟩ := List.exists_mem_of_ne_nil l hne
      obtain ⟨hm, hnd, hz⟩ := (hmem x).mp hx
      exact h1 x hm (fun h => hnd ((hd x).mp h)) (by rw [unmet_congr dg d1 d2 hd]; exact hz)
  | cons l1 ls1 ih =>
    intro ls2 d1 d2 hd h1 h2
    obtain ⟨hne1, hn1, hmem1, hrest1⟩ := h1
    cases ls2 with
    | nil =>
      exfalso
      obtain ⟨x, hx⟩ := List.exists_mem_of_ne_nil l1 hne1
      obtain ⟨hm, hnd, hz⟩ := (hmem1 x).mp hx
      exact h2 x hm (fun h => hnd ((hd x).mpr h)) (by rw [← unmet_congr dg d1 d2 hd]; exact hz)
    | cons l2 ls2 =>
      obtain ⟨_, hn2, hmem2, hrest2⟩ := h2
      have hsame : ∀ x, x ∈ l1 ↔ x ∈ l2 := by
        intro x
        rw [hmem1 x, hmem2 x, unmet_congr dg d1 d2 hd, hd x]
      refine List.Forall₂.cons ((List.perm_ext_iff_of_nodup hn1 hn2).mpr hsame) ?_
      apply ih ls2 (d1 ++ l1) (d2 ++ l2) _ hrest1 hrest2
      intro x
      simp only [List.mem_append, hd x, hsame x]

/-- C13 as stated fails: without a dependency graph a second registration of `milk`
appends the name to the level again, and `Execute` then invokes `milk` twice, both
times with the executor registered last. -/
theorem AddExecutor_twice_duplicates :
    ∃ p1 p2, (New "prices" []).AddExecutor noOrders "milk" milkExec = Except.ok p1 ∧
      p1.AddExecutor noOrders "milk" eggsExec = Except.ok p2 ∧
      p1.groups = [["milk"]] ∧ p2.groups = [["milk", "milk"]] ∧
      p2.executors "milk" = some eggsExec ∧
      (p2.Execute noParallel () GoMap.empty).invoked = ["milk", "milk"] :=
  ⟨_, _, rfl, rfl, rfl, rfl, rfl, rfl⟩

/-- C13, amended: `AddExecutor` binds the name to the executor given last.  Without a
dependency graph it appends the name to the first level on every call, so a name
registered again is scheduled once more.  With a dependency graph the levels are
computed from the graph alone: they are the levels of the first registration up to
the order within each level, and exactly those when the maps are visited in the same
orders. -/
theorem AddExecutor_registered_again {Ctx T E : Type} (p : Pipeline Ctx T E) (ord : Orders)
    (id : String) (exec : Executor Ctx T E) :
    (p.dependencyGraph = none → ∀ g gs, p.groups = g :: gs →
      ∃ p1, p.AddExecutor ord id exec = Except.ok p1 ∧ p1.executors id = some exec ∧
        p1.groups = (g ++ [id]) :: gs) ∧
    (∀ dg ord0, p.dependencyGraph = some dg → ValidOrders dg ord0 → ValidOrders dg ord →
      sortLevels dg ord0 = Except.ok p.groups → p.groups ≠ [] →
      ∃ p1, p.AddExecutor ord id exec = Except.ok p1 ∧ p1.executors id = some exec ∧
        List.Forall₂ List.Perm p.groups p1.groups ∧ (ord = ord0 → p1.groups = p.groups)) := by
  constructor
  · intro hdg g gs hg
    refine ⟨{ p with executors := p.executors.set id exec, groups := (g ++ [id]) :: gs }, ?_,
      GoMap.set_self _ _ _, rfl⟩
    simp [Pipeline.AddExecutor, hg, Pipeline.sort, hdg]
  · intro dg ord0 hdg hord0 hord hfirst hne
    obtain ⟨levels0, hsort0, hlev0⟩ := sortLevels_spec dg ord0 hord0
    obtain ⟨levels, hsort, hlev⟩ := sortLevels_spec dg ord hord
    have hgroups : p.groups = levels0 := by
      rw [hsort0] at hfirst
      injection hfirst with h
      exact h.symm
    cases hg : p.groups with
    | nil => exact absurd hg hne
    | cons g gs =>
      have hadd : p.AddExecutor ord id exec =
          Except.ok { p with executors := p.executors.set id exec, groups := levels } := by
        unfold Pipeline.AddExecutor
        rw [hg]
        simp only
        exact sort_eq_of_levels _ dg ord levels hdg hsort
      refine ⟨_, hadd, GoMap.set_self _ _ _, ?_, ?_⟩
      · rw [← hg, hgroups]
        exact Leveling.perm dg levels0 levels [] [] (fun _ => Iff.rfl) hlev0 hlev
      · intro hsame
        rw [hsame, hsort0] at hsort
        injection hsort with h
        rw [← hg, hgroups]
        exact h.symm

theorem breakfastOrdersAlt_valid : ValidOrders breakfastGraph breakfastOrdersAlt :=
  validOrders_ofList _ breakfastOrdersAlt (by decide) (by decide) (by decide) (by decide)
    (by decide)

theorem breakfastRegistered_built :
    breakfastPipeline.AddExecutor breakfastOrders "milk" milkExec =
      Except.ok breakfastRegistered := rfl

theorem AddExecutor_registered_again_witness :
    (∃ p1, Pipeline.AddExecutor (New "prices" [] : Pipeline Unit Prices String) noOrders "milk"
        eggsExec = Except.ok p1 ∧
      p1.executors "milk" = some eggsExec ∧ p1.groups = ([] ++ ["milk"]) :: []) ∧
    (∃ p1, breakfastRegistered.AddExecutor breakfastOrdersAlt "milk" eggsExec = Except.ok p1 ∧
      p1.executors "milk" = some eggsExec ∧
      List.Forall₂ List.Perm breakfastRegistered.groups p1.groups ∧
      (breakfastOrdersAlt = breakfastOrders → p1.groups = breakfastRegistered.groups)) ∧
    sortLevels breakfastGraph breakfastOrdersAlt =
      Except.ok [["db"], ["eggs", "milk"], ["scramble"]] :=
  ⟨(AddExecutor_registered_again (New "prices" []) noOrders "milk" eggsExec).1 rfl [] [] rfl,
    (AddExecutor_registered_again breakfastRegistered breakfastOrdersAlt "milk" eggsExec).2
      breakfastGraph breakfastOrders rfl breakfastOrders_valid breakfastOrdersAlt_valid rfl
      (by decide),
    rfl⟩

/-! ## Unregistered names and empty level sequences -/

theorem scrambleOrders_valid : ValidOrders scrambleGraph scrambleOrders :=
  validOrders_ofList _ scrambleOrders (by decide) (by decide) (by decide) (by decide)
    (by decide)

theorem scrambleGraph_acyclic : Acyclic scrambleGraph := by
  apply acyclic_of_rank scrambleGraph (fun x => if x = "scramble" then 1 else 0)
  intro t d h
  obtain ⟨e, he, rfl, hd⟩ := depsOf_ofList_mem _ t d h
  revert d
  revert e
  decide

/-- C17 as stated fails: with the graph `{scramble: [eggs]}` and only `scramble`
registered, the task `scramble` is scheduled, in the level after the one of the
unregistered name `eggs`. -/
theorem sort_schedules_task_with_unregistered_dependency :
    ∃ p, Pipeline.AddExecutor
        (New "prices" [WithDependencyGraph (some scrambleGraph)] : Pipeline Unit Prices String)
        scrambleOrders "scramble" scrambleExec = Except.ok p ∧
      p.executors "eggs" = none ∧ "eggs" ∈ depsOf scrambleGraph "scramble" ∧
      p.groups = [["eggs"], ["scramble"]] :=
  ⟨_, rfl, rfl, by decide, rfl⟩

/-- C17, amended: `sort` levels the graph without consulting the registry.  For an
acyclic graph, a task that lists a name never registered with `AddExecutor` is
scheduled all the same, in a level after the level in which that name is placed. -/
theorem AddExecutor_schedules_unregistered_dependency {Ctx T E : Type}
    (p : Pipeline Ctx T E) (dg : GoMap (List String)) (ord : Orders) (id : String)
    (exec : Executor Ctx T E) (t d : String)
    (hdg : p.dependencyGraph = some dg) (hgroups : p.groups ≠ []) (hac : Acyclic dg)
    (hord : ValidOrders dg ord) (hdep : d ∈ depsOf dg t)
    (hnone : p.executors d = none) (hid : id ≠ d) :
    ∃ p1, p.AddExecutor ord id exec = Except.ok p1 ∧ p1.executors d = none ∧
      ∃ (i j : Nat) (li lj : List String), p1.groups[i]? = some li ∧
        p1.groups[j]? = some lj ∧ d ∈ li ∧ t ∈ lj ∧ i < j := by
  obtain ⟨levels, hsort, hlev⟩ := sortLevels_spec dg ord hord
  have hall := Leveling.complete dg levels hlev ord.degrees
    (fun x hx => (hord.2.2.2.2 x).mpr
      ((countIndegree_isSome dg ord hord.1 hord.2.1 hord.2.2.1 x).mpr hx)) hac
  cases hg : p.groups with
  | nil => exact absurd hg hgroups
  | cons g gs =>
    have hadd : p.AddExecutor ord id exec =
        Except.ok { p with executors := p.executors.set id exec, groups := levels } := by
      unfold Pipeline.AddExecutor
      rw [hg]
      simp only
      exact sort_eq_of_levels _ dg ord levels hdg hsort
    obtain ⟨hmt, hmd⟩ := mentioned_of_mem_depsOf dg t d hdep
    obtain ⟨i, li, hi, hdi⟩ := exists_level_of_mem_flatten levels d (hall d hmd)
    obtain ⟨j, lj, hj, htj⟩ := exists_level_of_mem_flatten levels t (hall t hmt)
    refine ⟨_, hadd, ?_, i, j, li, lj, hi, hj, hdi, htj,
      Leveling.lt_of_dep dg levels hlev t d hdep i j li lj hi hj hdi htj⟩
    show (p.executors.set id exec) d = none
    rw [GoMap.set_of_ne _ _ _ _ (fun h => hid h.symm)]
    exact hnone

theorem AddExecutor_schedules_unregistered_dependency_witness :
    ∃ p1, Pipeline.AddExecutor
        (New "prices" [WithDependencyGraph (some scrambleGraph)] : Pipeline Unit Prices String)
        scrambleOrders "scramble" scrambleExec = Except.ok p1 ∧
      p1.executors "eggs" = none ∧
      ∃ (i j : Nat) (li lj : List String), p1.groups[i]? = some li ∧
        p1.groups[j]? = some lj ∧ "eggs" ∈ li ∧ "scramble" ∈ lj ∧ i < j :=
  AddExecutor_schedules_unregistered_dependency
    (New "prices" [WithDependencyGraph (some scrambleGraph)]) scrambleGraph scrambleOrders
    "scramble" scrambleExec "scramble" "eggs" rfl (by decide) scrambleGraph_acyclic
    scrambleOrders_valid (by decide) rfl (by decide)

theorem selfLoopOrders_valid : ValidOrders selfLoopGraph selfLoopOrders :=
  validOrders_ofList _ selfLoopOrders (by decide) (by decide) (by decide) (by decide)
    (by decide)

theorem noOrders_valid : ValidOrders (GoMap.ofList []) noOrders :=
  validOrders_ofList [] noOrders (by decide) (by decide) (by decide) (by decide) (by decide)

/-- C18 fails on the code: with the empty dependency graph, and likewise with the
graph `{milk: [milk]}`, the first `AddExecutor` leaves `groups` empty, and the second
`AddExecutor` indexes `p.groups[0]` out of range. -/
theorem AddExecutor_index_out_of_range :
    (∃ p1, Pipeline.AddExecutor
        (New "prices" [WithDependencyGraph (some (GoMap.ofList []))] :
          Pipeline Unit Prices String) noOrders "milk" milkExec = Except.ok p1 ∧
      p1.groups = [] ∧
      p1.AddExecutor noOrders "eggs" eggsExec = Except.error Fault.indexOutOfRange) ∧
    (∃ p1, Pipeline.AddExecutor
        (New "prices" [WithDependencyGraph (some selfLoopGraph)] :
          Pipeline Unit Prices String) selfLoopOrders "milk" milkExec = Except.ok p1 ∧
      p1.groups = [] ∧
      p1.AddExecutor selfLoopOrders "eggs" eggsExec = Except.error Fault.indexOutOfRange) :=
  ⟨⟨_, rfl, rfl, rfl⟩, ⟨_, rfl, rfl, rfl⟩⟩

/-! ## Graphs with cycles -/

/-- In a leveling every dependency of a leveled task lies in an earlier level. -/
theorem Leveling.dep_earlier (dg : GoMap (List String)) (levels : List (List String))
    (hlev : Leveling dg [] levels) (t d : String) (hd : d ∈ depsOf dg t)
    (j : Nat) (lj : List String) (hj : levels[j]? = some lj) (htj : t ∈ lj) :
    ∃ (i : Nat) (li : List String), i < j ∧ levels[i]? = some li ∧ d ∈ li := by
  have h1 := (Leveling.mem_level dg levels [] j lj hlev hj t).mp htj
  have h3 : d ∈ (levels.take j).flatten := by
    have := (unmet_eq_zero_iff dg _ t).mp h1.2.2 d hd
    simpa using this
  obtain ⟨i, li, hi, hdi⟩ := exists_level_of_mem_flatten (levels.take j) d h3
  rw [List.getElem?_take] at hi
  by_cases hij : i < j
  · rw [if_pos hij] at hi
    exact ⟨i, li, hij, hi, hdi⟩
  · rw [if_neg hij] at hi
    cases hi

theorem Leveling.transGen_earlier (dg : GoMap (List String)) (levels : List (List String))
    (hlev : Leveling dg [] levels) (t y : String)
    (h : Relation.TransGen (DependsOn dg) t y) :
    ∀ (j : Nat) (lj : List String), levels[j]? = some lj → t ∈ lj →
      ∃ (i : Nat) (li : List String), i < j ∧ levels[i]? = some li ∧ y ∈ li := by
  induction h with
  | single h => intro j lj hj htj; exact Leveling.dep_earlier dg levels hlev t _ h j lj hj htj
  | tail _ h ih =>
    intro j lj hj htj
    obtain ⟨i, li, hij, hi, hyi⟩ := ih j lj hj htj
    obtain ⟨k, lk, hki, hk, hzk⟩ := Leveling.dep_earlier dg levels hlev _ _ h i li hi hyi
    exact ⟨k, lk, by omega, hk, hzk⟩

/-- No name on a dependency cycle is in a level. -/
theorem Leveling.not_onCycle (dg : GoMap (List String)) (levels : List (List String))
    (hlev : Leveling dg [] levels) :
    ∀ (j : Nat) (lj : List String) (y : String), levels[j]? = some lj → y ∈ lj →
      ¬ OnCycle dg y := by
  intro j
  induction j using Nat.strong_induction_on with
  | _ j ih =>
    intro lj y hj hyj hcyc
    obtain ⟨i, li, hij, hi, hyi⟩ :=
      Leveling.transGen_earlier dg levels hlev y y hcyc j lj hj hyj
    exact ih i hij li y hi hyi hcyc

theorem Leveling.not_reachesCycle (dg : GoMap (List String)) (levels : List (List String))
    (hlev : Leveling dg [] levels) (x : String) (hx : x ∈ levels.flatten) :
    ¬ ReachesCycle dg x := by
  rintro ⟨y, hxy, hcyc⟩
  obtain ⟨j, lj, hj, hxj⟩ := exists_level_of_mem_flatten levels x hx
  rcases Relation.reflTransGen_iff_eq_or_transGen.mp hxy with h | h
  · subst h
    exact Leveling.not_onCycle dg levels hlev j lj y hj hxj hcyc
  · obtain ⟨i, li, _, hi, hyi⟩ := Leveling.transGen_earlier dg levels hlev x y h j lj hj hxj
    exact Leveling.not_onCycle dg levels hlev i li y hi hyi hcyc

/-- A leveling contains every mentioned name that neither lies on a cycle nor depends
on one. -/
theorem Leveling.complete_of_no_cycle (dg : GoMap (List String))
    (levels : List (List String)) (hlev : Leveling dg [] levels) (nodes : List String)
    (hnodes : ∀ x, Mentioned dg x → x ∈ nodes) :
    ∀ x, Mentioned dg x → ¬ ReachesCycle dg x → x ∈ levels.flatten := by
  let r : { x // Mentioned dg x ∧ ¬ ReachesCycle dg x } →
      { x // Mentioned dg x ∧ ¬ ReachesCycle dg x } → Prop :=
    fun a b => Relation.TransGen (DependsOn dg) b.1 a.1
  have hfin : Finite { x // Mentioned dg x ∧ ¬ ReachesCycle dg x } :=
    Finite.of_injective
      (fun a => (⟨a.1, hnodes a.1 a.2.1⟩ : { x // x ∈ nodes }))
      (fun a b h => Subtype.ext
        (congrArg (fun z : { x // x ∈ nodes } => z.1) h))
  have htrans : IsTrans { x // Mentioned dg x ∧ ¬ ReachesCycle dg x } r :=
    ⟨fun a b c hab hbc => hbc.trans hab⟩
  have hirrefl : IsIrrefl { x // Mentioned dg x ∧ ¬ ReachesCycle dg x } r :=
    ⟨fun a h => a.2.2 ⟨a.1, Relation.ReflTransGen.refl, h⟩⟩
  have hwf : WellFounded r := Finite.wellFounded_of_trans_of_irrefl r
  have key : ∀ s : { x // Mentioned dg x ∧ ¬ ReachesCycle dg x }, s.1 ∈ levels.flatten := by
    intro s
    induction s using hwf.induction with
    | h s ih =>
      by_contra hx
      apply Leveling.final dg levels [] hlev s.1 s.2.1 (by simpa using hx)
      rw [unmet_eq_zero_iff]
      intro d hd
      have hgood : ¬ ReachesCycle dg d := by
        rintro ⟨y, hdy, hcyc⟩
        exact s.2.2 ⟨y, Relation.ReflTransGen.head hd hdy, hcyc⟩
      have := ih ⟨d, (mentioned_of_mem_depsOf dg s.1 d hd).2, hgood⟩
        (Relation.TransGen.single hd)
      simpa using this
  intro x hm hgood
  exact key ⟨x, hm, hgood⟩

/-- C16: for every dependency graph, acyclic or not, and every possible visiting order
of the maps, `sort` terminates; a name that lies on a dependency cycle, or depends
directly or through other tasks on such a name, is in no level; every other name of
the graph is in a level, and each dependency of a leveled task lies in a strictly
earlier level. -/
theorem sort_drops_cyclic_nodes {Ctx T E : Type} (p : Pipeline Ctx T E)
    (dg : GoMap (List String)) (ord : Orders) (hdg : p.dependencyGraph = some dg)
    (hord : ValidOrders dg ord) :
    ∃ p1, p.sort ord = Except.ok p1 ∧
      (∀ x, ReachesCycle dg x → x ∉ p1.groups.flatten) ∧
      (∀ x, Mentioned dg x → ¬ ReachesCycle dg x → x ∈ p1.groups.flatten) ∧
      (∀ (t : String) (j : Nat) (lj : List String), p1.groups[j]? = some lj → t ∈ lj →
        ∀ d ∈ depsOf dg t,
          ∃ (i : Nat) (li : List String), i < j ∧ p1.groups[i]? = some li ∧ d ∈ li) := by
  obtain ⟨levels, hsort, hlev⟩ := sortLevels_spec dg ord hord
  refine ⟨{ p with groups := levels }, sort_eq_of_levels p dg ord levels hdg hsort,
    fun x hx hmem => Leveling.not_reachesCycle dg levels hlev x hmem hx,
    Leveling.complete_of_no_cycle dg levels hlev ord.degrees
      (fun x hx => (hord.2.2.2.2 x).mpr
        ((countIndegree_isSome dg ord hord.1 hord.2.1 hord.2.2.1 x).mpr hx)),
    fun t j lj hj htj d hd => Leveling.dep_earlier dg levels hlev t d hd j lj hj htj⟩

theorem tangledOrders_valid : ValidOrders tangledGraph tangledOrders :=
  validOrders_ofList _ tangledOrders (by decide) (by decide) (by decide) (by decide)
    (by decide)

theorem sort_drops_cyclic_nodes_witness :
    (∃ p1, tangledPipeline.sort tangledOrders = Except.ok p1 ∧
      (∀ x, ReachesCycle tangledGraph x → x ∉ p1.groups.flatten) ∧
      (∀ x, Mentioned tangledGraph x → ¬ ReachesCycle tangledGraph x →
        x ∈ p1.groups.flatten) ∧
      (∀ (t : String) (j : Nat) (lj : List String), p1.groups[j]? = some lj → t ∈ lj →
        ∀ d ∈ depsOf tangledGraph t,
          ∃ (i : Nat) (li : List String), i < j ∧ p1.groups[i]? = some li ∧ d ∈ li)) ∧
    sortLevels tangledGraph tangledOrders = Except.ok [["db"], ["eggs"]] :=
  ⟨sort_drops_cyclic_nodes tangledPipeline tangledGraph tangledOrders rfl tangledOrders_valid,
    rfl⟩

/-! ## Scheduled names and the registry -/

theorem foldl_opts_fields {Ctx T E : Type} (opts : List (Opt Ctx T E))
    (hopts : ∀ o ∈ opts, IsOption o) :
    ∀ p0 : Pipeline Ctx T E,
      (opts.foldl (fun p opt => opt p) p0).groups = p0.groups ∧
      (opts.foldl (fun p opt => opt p) p0).executors = p0.executors := by
  induction opts with
  | nil => intro p0; exact ⟨rfl, rfl⟩
  | cons o opts ih =>
    intro p0
    simp only [List.foldl_cons]
    have h := ih (fun o1 ho1 => hopts o1 (List.mem_cons_of_mem _ ho1)) (o p0)
    rcases hopts o (List.mem_cons_self _ _) with ⟨g, rfl⟩ | ⟨f, rfl⟩ | ⟨s, rfl⟩
    · exact h
    · exact h
    · exact h

theorem AddExecutor_scheduledFrom {Ctx T E : Type} (p p1 : Pipeline Ctx T E) (ord : Orders)
    (id : String) (exec : Executor Ctx T E) (names : List String)
    (hord : ∀ dg, p.dependencyGraph = some dg → ValidOrders dg ord)
    (hsched : ScheduledFrom p names) (hreg : ∀ n ∈ names, (p.executors n).isSome = true)
    (hadd : p.AddExecutor ord id exec = Except.ok p1) :
    p1.dependencyGraph = p.dependencyGraph ∧ ScheduledFrom p1 (names ++ [id]) ∧
      ∀ n ∈ names ++ [id], (p1.executors n).isSome = true := by
  unfold Pipeline.AddExecutor at hadd
  cases hg : p.groups with
  | nil => rw [hg] at hadd; cases hadd
  | cons g gs =>
    rw [hg] at hadd
    simp only [Pipeline.sort] at hadd
    have hexec : ∀ n ∈ names ++ [id], ((p.executors.set id exec) n).isSome = true := by
      intro n hn
      by_cases hnid : n = id
      · subst hnid; simp [GoMap.set]
      · rw [GoMap.set_of_ne _ _ _ _ hnid]
        rcases List.mem_append.mp hn with h | h
        · exact hreg n h
        · exact absurd (List.mem_singleton.mp h) hnid
    cases hdg : p.dependencyGraph with
    | none =>
      rw [hdg] at hadd
      simp only [Except.ok.injEq] at hadd
      subst hadd
      refine ⟨rfl, ?_, hexec⟩
      intro n hn
      simp only [List.flatten_cons, List.mem_append, List.mem_singleton] at hn
      have hflat : p.groups.flatten = g ++ gs.flatten := by rw [hg]; rfl
      rcases hn with (h | h) | h
      · rcases hsched n (by rw [hflat]; exact List.mem_append_left _ h) with h1 | ⟨dg, h1, _⟩
        · exact Or.inl (List.mem_append_left _ h1)
        · rw [hdg] at h1; cases h1
      · exact Or.inl (List.mem_append_right _ (List.mem_singleton.mpr h))
      · rcases hsched n (by rw [hflat]; exact List.mem_append_right _ h) with h1 | ⟨dg, h1, _⟩
        · exact Or.inl (List.mem_append_left _ h1)
        · rw [hdg] at h1; cases h1
    | some dg =>
      rw [hdg] at hadd
      obtain ⟨levels, hsort, hlev⟩ := sortLevels_spec dg ord (hord dg hdg)
      simp only [hsort, Except.ok.injEq] at hadd
      subst hadd
      refine ⟨rfl, ?_, hexec⟩
      intro n hn
      exact Or.inr ⟨dg, rfl, Leveling.mentioned dg levels [] hlev n hn⟩

theorem addExecutors_graph {Ctx T E : Type}
    (regs : List (String × Executor Ctx T E × Orders)) :
    ∀ p p1 : Pipeline Ctx T E, p.addExecutors regs = Except.ok p1 →
      p1.dependencyGraph = p.dependencyGraph := by
  induction regs with
  | nil =>
    intro p p1 h
    simp only [Pipeline.addExecutors, Except.ok.injEq] at h
    rw [h]
  | cons r regs ih =>
    intro p p1 h
    obtain ⟨id, exec, ord⟩ := r
    simp only [Pipeline.addExecutors] at h
    cases hadd : p.AddExecutor ord id exec with
    | error f => rw [hadd] at h; cases h
    | ok p2 =>
      rw [hadd] at h
      rw [ih p2 p1 h]
      unfold Pipeline.AddExecutor at hadd
      cases hg : p.groups with
      | nil => rw [hg] at hadd; cases hadd
      | cons g gs =>
        rw [hg] at hadd
        simp only [Pipeline.sort] at hadd
        cases hdg : p.dependencyGraph with
        | none =>
          rw [hdg] at hadd
          simp only [Except.ok.injEq] at hadd
          subst hadd
          rfl
        | some dg =>
          rw [hdg] at hadd
          cases hs : sortLevels dg ord with
          | error f => simp only [hs] at hadd; cases hadd
          | ok levels =>
            simp only [hs, Except.ok.injEq] at hadd
            subst hadd
            rfl

theorem addExecutors_scheduledFrom {Ctx T E : Type}
    (regs : List (String × Executor Ctx T E × Orders)) :
    ∀ (p p1 : Pipeline Ctx T E) (names : List String),
      (∀ dg, p.dependencyGraph = some dg → ∀ r ∈ regs, ValidOrders dg r.2.2) →
      ScheduledFrom p names → (∀ n ∈ names, (p.executors n).isSome = true) →
      p.addExecutors regs = Except.ok p1 →
      ScheduledFrom p1 (names ++ regs.map (fun r => r.1)) ∧
        ∀ n ∈ names ++ regs.map (fun r => r.1), (p1.executors n).isSome = true := by
  induction regs with
  | nil =>
    intro p p1 names _ hsched hreg h
    simp only [Pipeline.addExecutors, Except.ok.injEq] at h
    subst h
    simp only [List.map_nil, List.append_nil]
    exact ⟨hsched, hreg⟩
  | cons r regs ih =>
    intro p p1 names hord hsched hreg h
    obtain ⟨id, exec, ord⟩ := r
    simp only [Pipeline.addExecutors] at h
    cases hadd : p.AddExecutor ord id exec with
    | error f => rw [hadd] at h; cases h
    | ok p2 =>
      rw [hadd] at h
      obtain ⟨hdg2, hsched2, hreg2⟩ := AddExecutor_scheduledFrom p p2 ord id exec names
        (fun dg hdg => hord dg hdg (id, exec, ord) (List.mem_cons_self _ _)) hsched hreg hadd
      have := ih p2 p1 (names ++ [id])
        (fun dg hdg r hr => hord dg (by rw [← hdg2]; exact hdg) r (List.mem_cons_of_mem _ hr))
        hsched2 hreg2 h
      simp only [List.map_cons, List.append_assoc, List.singleton_append] at this ⊢
      exact this

theorem sequentialGroup_no_panic {Ctx T E : Type} (p : Pipeline Ctx T E) (ctx : Ctx)
    (next : T → List (Event E) → Run T E)
    (hnext : ∀ s tr f, (next s tr).status ≠ Status.panicked f) (names : List String) :
    (∀ n ∈ names, (p.executors n).isSome = true) →
    ∀ (payload : T) (trace : List (Event E)) (f : Fault),
      (p.sequentialGroup ctx next names payload trace).status ≠ Status.panicked f := by
  induction names with
  | nil => intro _ payload trace f; exact hnext payload trace f
  | cons n names ih =>
    intro hreg payload trace f
    obtain ⟨exec, hex⟩ := Option.isSome_iff_exists.mp (hreg n (List.mem_cons_self _ _))
    have hrest : ∀ m ∈ names, (p.executors m).isSome = true :=
      fun m hm => hreg m (List.mem_cons_of_mem _ hm)
    simp only [Pipeline.sequentialGroup, hex]
    rcases exec ctx payload with ⟨payload1, _ | err⟩
    · exact ih hrest _ _ f
    · simp only
      cases p.onError with
      | none => intro h; cases h
      | some onError =>
        simp only
        rcases onError ctx payload1 err with ⟨payload2, onErr, _ | _⟩
        · intro h; cases h
        · exact ih hrest _ _ f

/-- C19: for a pipeline built by `New` with options of the package and a sequence of
`AddExecutor` calls, if no dependency graph is configured, or every name mentioned in
the configured graph has been registered, then every name in every level has a
registered executor, and sequential `Execute` never calls a missing executor. -/
theorem scheduled_names_registered {Ctx T E : Type} (id : String) (opts : List (Opt Ctx T E))
    (regs : List (String × Executor Ctx T E × Orders)) (p : Pipeline Ctx T E)
    (hopts : ∀ o ∈ opts, IsOption o)
    (hbuilt : (New id opts).addExecutors regs = Except.ok p)
    (hgraph : ∀ dg, p.dependencyGraph = some dg →
      (∀ r ∈ regs, ValidOrders dg r.2.2) ∧ ∀ x, Mentioned dg x → x ∈ regs.map (fun r => r.1)) :
    (∀ n ∈ p.groups.flatten, (p.executors n).isSome = true) ∧
    ∀ (parallel : Pipeline Ctx T E → Ctx → T → Run T E) (ctx : Ctx) (payload : T) (f : Fault),
      p.strategy = StrategySequential →
      (p.Execute parallel ctx payload).status ≠ Status.panicked f := by
  have hsame := addExecutors_graph regs (New id opts) p hbuilt
  have hnew := foldl_opts_fields opts hopts
    ({ ID := id, executors := GoMap.empty, strategy := StrategySequential, q := [],
       groups := [[]], dependencyGraph := none, onError := none } : Pipeline Ctx T E)
  have hgroups : (New id opts).groups = [[]] := hnew.1
  obtain ⟨hsched, hreg⟩ := addExecutors_scheduledFrom regs (New id opts) p []
    (fun dg hdg => (hgraph dg (by rw [hsame]; exact hdg)).1)
    (by intro n hn; rw [hgroups] at hn; simp at hn)
    (by intro n hn; simp at hn) hbuilt
  have hall : ∀ n ∈ p.groups.flatten, (p.executors n).isSome = true := by
    intro n hn
    rcases hsched n hn with h | ⟨dg, hdg, hm⟩
    · exact hreg n h
    · exact hreg n (by rw [List.nil_append]; exact (hgraph dg hdg).2 n hm)
  refine ⟨hall, fun parallel ctx payload f hs => ?_⟩
  rw [Execute_sequential parallel p ctx payload hs]
  unfold Pipeline.sequential
  rw [sequentialFrom_join]
  exact sequentialGroup_no_panic p ctx _ (fun s tr f h => by cases h) _ hall payload [] f

theorem abortPipeline_mentioned_registered :
    ∀ dg, abortPipeline.dependencyGraph = some dg →
      (∀ r ∈ [("milk", milkExec, abortOrders), ("scramble", scrambleChecked, abortOrders),
          ("eggs", eggsExec, abortOrders)], ValidOrders dg r.2.2) ∧
        ∀ x, Mentioned dg x →
          x ∈ [("milk", milkExec, abortOrders), ("scramble", scrambleChecked, abortOrders),
            ("eggs", eggsExec, abortOrders)].map (fun r => r.1) := by
  intro dg hdg
  have hdg1 : dg = GoMap.ofList [("milk", []), ("scramble", []), ("eggs", ["milk"])] := by
    have h : abortPipeline.dependencyGraph =
        some (GoMap.ofList [("milk", []), ("scramble", []), ("eggs", ["milk"])]) := rfl
    rw [h] at hdg
    injection hdg with h1
    exact h1.symm
  subst hdg1
  constructor
  · intro r hr
    simp only [List.mem_cons, List.mem_singleton, List.not_mem_nil, or_false] at hr
    rcases hr with rfl | rfl | rfl <;> exact abortOrders_valid
  · intro x hx
    have h1 := (mentioned_ofList _ (by decide) x).mp hx
    have h2 : ∀ y ∈ (([("milk", []), ("scramble", []), ("eggs", ["milk"])] :
        List (String × List String)).map Prod.fst ++
        ([("milk", []), ("scramble", []), ("eggs", ["milk"])] :
          List (String × List String)).flatMap Prod.snd).dedup,
        y ∈ ["milk", "scramble", "eggs"] := by decide
    exact h2 x h1

theorem scheduled_names_registered_witness :
    (∀ n ∈ abortPipeline.groups.flatten, (abortPipeline.executors n).isSome = true) ∧
    ∀ (parallel : Pipeline Unit Prices String → Unit → Prices → Run Prices String)
      (ctx : Unit) (payload : Prices) (f : Fault),
      abortPipeline.strategy = StrategySequential →
      (abortPipeline.Execute parallel ctx payload).status ≠ Status.panicked f :=
  scheduled_names_registered "prices"
    [WithDependencyGraph
      (some (GoMap.ofList [("milk", []), ("scramble", []), ("eggs", ["milk"])]))]
    [("milk", milkExec, abortOrders), ("scramble", scrambleChecked, abortOrders),
      ("eggs", eggsExec, abortOrders)]
    abortPipeline
    (by intro o ho; simp only [List.mem_singleton] at ho; exact Or.inl ⟨_, ho⟩)
    rfl abortPipeline_mentioned_registered

/-! ## The level of a name is as small as its dependencies allow -/

theorem parallelOrders_valid : ValidOrders parallelGraph parallelOrders :=
  validOrders_ofList _ parallelOrders (by decide) (by decide) (by decide) (by decide)
    (by decide)

theorem parallelGraph_acyclic : Acyclic parallelGraph := by
  apply acyclic_of_rank parallelGraph parallelRank
  intro t d h
  obtain ⟨e, he, rfl, hd⟩ := depsOf_ofList_mem _ t d h
  revert d
  revert e
  decide

theorem Leveling.not_mem_earlier (dg : GoMap (List String)) (levels : List (List String))
    (hlev : Leveling dg [] levels) (x : String) (i j : Nat) (li lj : List String)
    (hi : levels[i]? = some li) (hj : levels[j]? = some lj) (hij : i < j) (hxj : x ∈ lj) :
    x ∉ li := by
  intro hxi
  have h1 := (Leveling.mem_level dg levels [] j lj hlev hj x).mp hxj
  apply h1.2.1
  simp only [List.nil_append]
  refine List.mem_flatten.mpr ⟨li, ?_, hxi⟩
  have htake : (levels.take j)[i]? = some li := by
    rw [List.getElem?_take, if_pos hij]; exact hi
  exact List.getElem?_mem htake

/-- The level that holds a name is the first one that contains it. -/
theorem Leveling.levelIndex_eq (dg : GoMap (List String)) (levels : List (List String))
    (hlev : Leveling dg [] levels) (x : String) (j : Nat) (lj : List String)
    (hj : levels[j]? = some lj) (hxj : x ∈ lj) : levelIndex levels x = j := by
  obtain ⟨hlt, hget⟩ := List.getElem?_eq_some_iff.mp hj
  unfold levelIndex
  rw [List.findIdx_eq hlt]
  refine ⟨by simpa [hget] using hxj, fun i hi => ?_⟩
  have hi1 : levels[i]? = some levels[i] := List.getElem?_eq_getElem (by omega)
  simpa using Leveling.not_mem_earlier dg levels hlev x i j _ lj hi1 hj hi hxj

/-- A name in a level other than the first has a dependency in the level before. -/
theorem Leveling.dep_in_previous (dg : GoMap (List String)) (levels : List (List String))
    (hlev : Leveling dg [] levels) (x : String) (k : Nat) (l : List String)
    (hk : levels[k + 1]? = some l) (hx : x ∈ l) :
    ∃ (l0 : List String) (d : String), levels[k]? = some l0 ∧ d ∈ depsOf dg x ∧ d ∈ l0 := by
  have hlt : k + 1 < levels.length := (List.getElem?_eq_some_iff.mp hk).1
  have hk0 : levels[k]? = some levels[k] := List.getElem?_eq_getElem (by omega)
  have h1 := (Leveling.mem_level dg levels [] (k + 1) l hlev hk x).mp hx
  have hnot : x ∉ levels[k] :=
    Leveling.not_mem_earlier dg levels hlev x k (k + 1) _ l hk0 hk (by omega) hx
  have hx0 : x ∉ [] ++ (levels.take k).flatten := by
    intro h
    apply h1.2.1
    simp only [List.nil_append] at h ⊢
    exact mem_take_flatten_of_le levels k (k + 1) (by omega) x h
  have hunmet : unmet dg ([] ++ (levels.take k).flatten) x ≠ 0 := by
    intro hz
    exact hnot ((Leveling.mem_level dg levels [] k _ hlev hk0 x).mpr ⟨h1.1, hx0, hz⟩)
  rw [Ne, unmet_eq_zero_iff] at hunmet
  push_neg at hunmet
  obtain ⟨d, hd, hdn⟩ := hunmet
  obtain ⟨i, li, hik, hi, hdi⟩ := Leveling.dep_earlier dg levels hlev x d hd (k + 1) l hk hx
  have hik2 : i = k := by
    by_contra hne
    apply hdn
    simp only [List.nil_append]
    refine List.mem_flatten.mpr ⟨li, ?_, hdi⟩
    have htake : (levels.take k)[i]? = some li := by
      rw [List.getElem?_take, if_pos (by omega)]; exact hi
    exact List.getElem?_mem htake
  subst hik2
  exact ⟨li, d, hi, hd, hdi⟩

theorem foldr_max_le (f : String → Nat) (l : List String) (b : Nat)
    (h : ∀ d ∈ l, f d ≤ b) : (l.map f).foldr max 0 ≤ b := by
  induction l with
  | nil => simp
  | cons a l ih =>
    simp only [List.map_cons, List.foldr_cons]
    exact max_le (h a (List.mem_cons_self _ _)) (ih (fun d hd => h d (List.mem_cons_of_mem _ hd)))

theorem le_foldr_max (f : String → Nat) (l : List String) (d : String) (hd : d ∈ l) :
    f d ≤ (l.map f).foldr max 0 := by
  induction l with
  | nil => simp at hd
  | cons a l ih =>
    simp only [List.map_cons, List.foldr_cons]
    rcases List.mem_cons.mp hd with rfl | h
    · exact le_max_left _ _
    · exact le_trans (ih h) (le_max_right _ _)

/-- The level of a leveled name: 0 without dependencies, otherwise one more than the
largest level of a dependency. -/
theorem Leveling.levelIndex_formula (dg : GoMap (List String)) (levels : List (List String))
    (hlev : Leveling dg [] levels) (x : String) (j : Nat) (lj : List String)
    (hj : levels[j]? = some lj) (hxj : x ∈ lj) :
    levelIndex levels x =
      if depsOf dg x = [] then 0
      else 1 + ((depsOf dg x).map (levelIndex levels)).foldr max 0 := by
  rw [Leveling.levelIndex_eq dg levels hlev x j lj hj hxj]
  cases j with
  | zero =>
    have h1 := (Leveling.mem_level dg levels [] 0 lj hlev hj x).mp hxj
    have h2 : unmet dg [] x = 0 := by simpa using h1.2.2
    rw [unmet_nil] at h2
    rw [if_pos (List.length_eq_zero.mp h2)]
  | succ k =>
    obtain ⟨l0, d, hk, hd, hdk⟩ := Leveling.dep_in_previous dg levels hlev x k lj hj hxj
    have hne : depsOf dg x ≠ [] := List.ne_nil_of_mem hd
    rw [if_neg hne]
    have hle : ((depsOf dg x).map (levelIndex levels)).foldr max 0 ≤ k := by
      apply foldr_max_le
      intro d1 hd1
      obtain ⟨i, li, hik, hi, hdi⟩ :=
        Leveling.dep_earlier dg levels hlev x d1 hd1 (k + 1) lj hj hxj
      rw [Leveling.levelIndex_eq dg levels hlev d1 i li hi hdi]
      omega
    have hge : k ≤ ((depsOf dg x).map (levelIndex levels)).foldr max 0 := by
      have := le_foldr_max (levelIndex levels) (depsOf dg x) d hd
      rw [Leveling.levelIndex_eq dg levels hlev d k l0 hk hdk] at this
      exact this
    omega

/-- A chain of as many dependency steps as the index of its level starts at every
leveled name. -/
theorem Leveling.depChain_exists (dg : GoMap (List String)) (levels : List (List String))
    (hlev : Leveling dg [] levels) :
    ∀ (j : Nat) (x : String) (lj : List String), levels[j]? = some lj → x ∈ lj →
      DepChain dg x j := by
  intro j
  induction j with
  | zero => intro x _ _ _; exact DepChain.zero x
  | succ k ih =>
    intro x lj hj hxj
    obtain ⟨l0, d, hk, hd, hdk⟩ := Leveling.dep_in_previous dg levels hlev x k lj hj hxj
    exact DepChain.succ hd (ih d l0 hk hdk)

/-- No chain of dependency steps that starts at a leveled name is longer than the
index of its level. -/
theorem Leveling.depChain_le (dg : GoMap (List String)) (levels : List (List String))
    (hlev : Leveling dg [] levels) (x : String) (n : Nat) (h : DepChain dg x n) :
    ∀ (j : Nat) (lj : List String), levels[j]? = some lj → x ∈ lj → n ≤ j := by
  induction h with
  | zero x => intro j _ _ _; exact Nat.zero_le j
  | succ hdep _ ih =>
    intro j lj hj hxj
    obtain ⟨i, li, hij, hi, hdi⟩ := Leveling.dep_earlier dg levels hlev _ _ hdep j lj hj hxj
    have := ih i li hi hdi
    omega

/-- C20: for an acyclic dependency graph and every possible visiting order of the
maps, the level that `sort` assigns to a name of the graph is 0 when the name has no
dependencies and otherwise one more than the largest level of its dependencies; it is
the length of the longest chain of dependency steps that starts at the name.  No
level is empty, and every name in a level `k + 1` has a dependency in level `k`. -/
theorem sort_levels_minimal {Ctx T E : Type} (p : Pipeline Ctx T E)
    (dg : GoMap (List String)) (ord : Orders) (hdg : p.dependencyGraph = some dg)
    (hac : Acyclic dg) (hord : ValidOrders dg ord) :
    ∃ p1, p.sort ord = Except.ok p1 ∧
      (∀ x, Mentioned dg x →
        (∃ l : List String, p1.groups[levelIndex p1.groups x]? = some l ∧ x ∈ l) ∧
        levelIndex p1.groups x =
          (if depsOf dg x = [] then 0
            else 1 + ((depsOf dg x).map (levelIndex p1.groups)).foldr max 0) ∧
        DepChain dg x (levelIndex p1.groups x) ∧
        ∀ n, DepChain dg x n → n ≤ levelIndex p1.groups x) ∧
      (∀ l ∈ p1.groups, l ≠ []) ∧
      (∀ (k : Nat) (l : List String) (x : String), p1.groups[k + 1]? = some l → x ∈ l →
        ∃ (l0 : List String) (d : String),
          p1.groups[k]? = some l0 ∧ d ∈ depsOf dg x ∧ d ∈ l0) := by
  obtain ⟨levels, hsort, hlev⟩ := sortLevels_spec dg ord hord
  have hall := Leveling.complete dg levels hlev ord.degrees
    (fun x hx => (hord.2.2.2.2 x).mpr
      ((countIndegree_isSome dg ord hord.1 hord.2.1 hord.2.2.1 x).mpr hx)) hac
  refine ⟨{ p with groups := levels }, sort_eq_of_levels p dg ord levels hdg hsort, ?_, ?_,
    fun k l x hk hx => Leveling.dep_in_previous dg levels hlev x k l hk hx⟩
  · intro x hx
    obtain ⟨j, lj, hj, hxj⟩ := exists_level_of_mem_flatten levels x (hall x hx)
    have hidx := Leveling.levelIndex_eq dg levels hlev x j lj hj hxj
    refine ⟨⟨lj, ?_, hxj⟩, Leveling.levelIndex_formula dg levels hlev x j lj hj hxj, ?_, ?_⟩
    · show levels[levelIndex levels x]? = some lj
      rw [hidx]; exact hj
    · show DepChain dg x (levelIndex levels x)
      rw [hidx]; exact Leveling.depChain_exists dg levels hlev j x lj hj hxj
    · intro n hn
      show n ≤ levelIndex levels x
      rw [hidx]; exact Leveling.depChain_le dg levels hlev x n hn j lj hj hxj
  · intro l hl
    show l ≠ []
    obtain ⟨i, hi⟩ := List.mem_iff_getElem?.mp hl
    have hgen : ∀ (ls : List (List String)) (done : List String) (i : Nat),
        Leveling dg done ls → ls[i]? = some l → l ≠ [] := by
      intro ls
      induction ls with
      | nil => intro done i _ h; simp at h
      | cons a ls ih =>
        intro done i hlv h
        cases i with
        | zero =>
          simp only [List.getElem?_cons_zero, Option.some.injEq] at h
          rw [← h]; exact hlv.1
        | succ i =>
          simp only [List.getElem?_cons_succ] at h
          exact ih (done ++ a) i hlv.2.2.2 h
    exact hgen levels [] i hlev hi

theorem sort_levels_minimal_witness :
    (∃ p1, parallelPipeline.sort parallelOrders = Except.ok p1 ∧
      (∀ x, Mentioned parallelGraph x →
        (∃ l : List String, p1.groups[levelIndex p1.groups x]? = some l ∧ x ∈ l) ∧
        levelIndex p1.groups x =
          (if depsOf parallelGraph x = [] then 0
            else 1 + ((depsOf parallelGraph x).map (levelIndex p1.groups)).foldr max 0) ∧
        DepChain parallelGraph x (levelIndex p1.groups x) ∧
        ∀ n, DepChain parallelGraph x n → n ≤ levelIndex p1.groups x) ∧
      (∀ l ∈ p1.groups, l ≠ []) ∧
      (∀ (k : Nat) (l : List String) (x : String), p1.groups[k + 1]? = some l → x ∈ l →
        ∃ (l0 : List String) (d : String),
          p1.groups[k]? = some l0 ∧ d ∈ depsOf parallelGraph x ∧ d ∈ l0)) ∧
    sortLevels parallelGraph parallelOrders =
      Except.ok [["db"], ["eggs", "milk", "carrots", "cabbages"], ["scramble", "cereal"],
        ["breakfast"]] :=
  ⟨sort_levels_minimal parallelPipeline parallelGraph parallelOrders rfl
    parallelGraph_acyclic parallelOrders_valid, rfl⟩

/-! ## The runs of the parallel strategy -/

theorem mem_eraseIdx_or_eq {α : Type} (l : List α) (i : Nat) (g x : α)
    (h : l[i]? = some g) (hx : x ∈ l) : x = g ∨ x ∈ l.eraseIdx i := by
  obtain ⟨j, hj⟩ := List.mem_iff_getElem?.mp hx
  by_cases hij : j = i
  · subst hij
    rw [h] at hj
    injection hj with h1
    exact Or.inl h1.symm
  · exact Or.inr (List.mem_eraseIdx_iff_getElem?.mpr ⟨j, hij, hj⟩)

theorem length_eraseIdx_of_getElem? {α : Type} (l : List α) (i : Nat) (g : α)
    (h : l[i]? = some g) : ((l.eraseIdx i).length : Int) = (l.length : Int) - 1 := by
  obtain ⟨hlt, _⟩ := List.getElem?_eq_some_iff.mp h
  rw [List.length_eraseIdx_of_lt hlt]
  omega

theorem drop_eq_cons {α : Type} (l : List α) (k : Nat) (a : α) (rest : List α)
    (h : l.drop k = a :: rest) : l[k]? = some a ∧ l.drop (k + 1) = rest := by
  constructor
  · have := List.getElem?_drop l k 0
    rw [h] at this
    simpa using this.symm
  · rw [← List.tail_drop, h]
    rfl

theorem Finished.extend {E : Type} {trace : List (ParEvent E)} {i : Nat} {n : String}
    (h : Finished trace i n) (more : List (ParEvent E)) : Finished (trace ++ more) i n := by
  obtain ⟨err, herr⟩ := h
  exact ⟨err, List.mem_append_left _ herr⟩

/-- The barrier survives an event that is no start. -/
theorem Barrier.append_finished {E : Type} {groups : List (List String)}
    {trace : List (ParEvent E)} (h : Barrier groups trace) (i : Nat) (n : String)
    (err : Option E) : Barrier groups (trace ++ [ParEvent.finished i n err]) := by
  intro pre post j m heq k lk hk hget x hx
  rcases List.eq_nil_or_concat post with hp | ⟨L, b, hp⟩
  · subst hp
    have := List.append_inj_right' heq rfl
    simp at this
  · subst hp
    rw [List.concat_eq_append, ← List.cons_append, ← List.append_assoc] at heq
    have h1 := List.append_inj_left' heq rfl
    exact h pre L j m h1 k lk hk hget x hx

/-- The barrier survives the start of an executor of a level when the executors of
the earlier levels have all returned. -/
theorem Barrier.append_started {E : Type} {groups : List (List String)}
    {trace : List (ParEvent E)} (h : Barrier groups trace) (level : Nat) (name : String)
    (hearlier : ∀ (i : Nat) (li : List String), i < level → groups[i]? = some li →
      ∀ n ∈ li, Finished trace i n) :
    Barrier groups (trace ++ [ParEvent.started level name]) := by
  intro pre post j m heq k lk hk hget x hx
  rcases List.eq_nil_or_concat post with hp | ⟨L, b, hp⟩
  · subst hp
    have h1 := List.append_inj_left' heq rfl
    have h2 := List.append_inj_right' heq rfl
    simp only [List.cons.injEq, ParEvent.started.injEq, and_true] at h2
    obtain ⟨rfl, rfl⟩ := h2
    rw [← h1]
    exact hearlier k lk hk hget x hx
  · subst hp
    rw [List.concat_eq_append, ← List.cons_append, ← List.append_assoc] at heq
    have h1 := List.append_inj_left' heq rfl
    exact h pre L j m h1 k lk hk hget x hx

theorem failures_append_started {E : Type} (trace : List (ParEvent E)) (i : Nat)
    (n : String) : failures (trace ++ [ParEvent.started i n]) = failures trace := by
  simp [failures, ParEvent.isFailure]

theorem failures_append_success {E : Type} (trace : List (ParEvent E)) (i : Nat)
    (n : String) : failures (trace ++ [ParEvent.finished i n none]) = failures trace := by
  simp [failures, ParEvent.isFailure]

theorem failures_append_failure {E : Type} (trace : List (ParEvent E)) (i : Nat)
    (n : String) (err : E) :
    failures (trace ++ [ParEvent.finished i n (some err)]) = failures trace + 1 := by
  simp [failures, ParEvent.isFailure]

theorem ParInv.init {Ctx T E : Type} (p : Pipeline Ctx T E) (payload : T) :
    ParInv p (parInit p payload) where
  position := by simp [Position, parInit]
  counter := by simp [parInit]
  current := by intro g hg; simp [parInit] at hg
  earlier := by intro i li hi; simp [parInit] at hi
  launched := by intro n hn; simp [parInit, MainPc.launchedNames] at hn
  barrier := by
    intro pre post j m heq
    simp [parInit] at heq
  buffer := by simp [parInit, failures, errsCapacity]
  startedIn := by intro j m h; simp [parInit] at h

theorem ParInv.main_step {Ctx T E : Type} (p : Pipeline Ctx T E) (ctx : Ctx)
    (s s1 : ParState Ctx T E) (hinv : ParInv p s) (hstep : mainStep p ctx s = some s1) :
    ParInv p s1 := by
  obtain ⟨hpos, hcount, hcur, hearl, hlaunch, hbar, hbuf, hstart⟩ := hinv
  unfold mainStep at hstep
  unfold Position at hpos
  cases hpc : s.pc with
  | outer rest =>
    rw [hpc] at hstep hpos
    obtain ⟨hdrop, hs1, hs2, hs3⟩ := hpos
    cases rest with
    | nil =>
      simp only [Option.some.injEq] at hstep
      subst hstep
      exact ⟨by simpa [Position] using ⟨List.drop_eq_nil_iff.mp hdrop, hs1, hs2, hs3⟩,
        hcount, hcur, hearl, by intro n hn; simp [MainPc.launchedNames] at hn, hbar, hbuf,
        hstart⟩
    | cons group rest =>
      simp only [Option.some.injEq] at hstep
      subst hstep
      exact ⟨by simpa [Position] using hdrop, hcount, hcur, hearl,
        by intro n hn; simp [MainPc.launchedNames] at hn, hbar, hbuf, hstart⟩
  | inner launched todo rest =>
    rw [hpc] at hstep hpos hlaunch
    cases todo with
    | nil =>
      simp only [Option.some.injEq] at hstep
      subst hstep
      exact ⟨by simpa [Position] using hpos, hcount, hcur, hearl, hlaunch, hbar, hbuf, hstart⟩
    | cons execName todo =>
      simp only [Option.some.injEq] at hstep
      subst hstep
      have hget := (drop_eq_cons _ _ _ _ hpos).1
      refine ⟨by simpa [Position] using hpos, ?_, ?_, hearl, ?_, hbar, hbuf, hstart⟩
      · simp only [List.length_append, List.length_singleton, Nat.cast_add, Nat.cast_one]
        omega
      · intro g hg
        simp only [List.mem_append, List.mem_singleton] at hg
        rcases hg with (hg | hg) | hg
        · exact hcur g (List.mem_append_left _ hg)
        · subst hg
          exact ⟨rfl, _, hget, by simp⟩
        · exact hcur g (List.mem_append_right _ hg)
      · intro n hn
        simp only [MainPc.launchedNames, List.mem_append, List.mem_singleton] at hn
        rcases hn with hn | hn
        · rcases hlaunch n hn with ⟨g, hg, hgn⟩ | h
          · refine Or.inl ⟨g, ?_, hgn⟩
            simp only [List.mem_append, List.mem_singleton] at hg ⊢
            tauto
          · exact Or.inr h
        · exact Or.inl ⟨⟨s.level, execName, p.executors execName⟩, by simp, hn.symm⟩
  | waiting launched rest =>
    rw [hpc] at hstep hpos hlaunch
    by_cases hwg : s.wg = 0
    · simp only [hwg, if_true, Option.some.injEq] at hstep
      subst hstep
      obtain ⟨hget, hdrop⟩ := drop_eq_cons _ _ _ _ hpos
      have hempty : s.spawned = [] ∧ s.running = [] ∧ s.sending = [] := by
        rw [hwg] at hcount
        refine ⟨List.length_eq_zero.mp ?_, List.length_eq_zero.mp ?_,
          List.length_eq_zero.mp ?_⟩ <;> omega
      refine ⟨by simpa [Position] using ⟨hdrop, hempty⟩, hwg ▸ hcount, ?_, ?_,
        by intro n hn; simp [MainPc.launchedNames] at hn, hbar, hbuf, hstart⟩
      · intro g hg
        simp only [hempty.1, hempty.2.1, List.append_nil, List.not_mem_nil] at hg
      · intro i li hi hgi n hn
        by_cases hlt : i < s.level
        · exact hearl i li hlt hgi n hn
        · have hieq : i = s.level := by
            have : i < s.level + 1 := hi
            omega
          subst hieq
          rw [hget] at hgi
          injection hgi with hgi
          subst hgi
          rcases hlaunch n (by simpa [MainPc.launchedNames] using hn) with ⟨g, hg, _⟩ | h
          · simp only [hempty.1, hempty.2.1, List.append_nil, List.not_mem_nil] at hg
          · exact h
    · simp only [hwg, if_false] at hstep
      cases hstep
  | returned err => rw [hpc] at hstep; cases hstep
  | crashed => rw [hpc] at hstep; cases hstep

theorem Position.of_goroutine_step {Ctx T E : Type} (p : Pipeline Ctx T E)
    (s s1 : ParState Ctx T E) (hpos : Position p s) (hpc : s1.pc = s.pc)
    (hlevel : s1.level = s.level)
    (hlive : s.spawned ≠ [] ∨ s.running ≠ [] ∨ s.sending ≠ []) : Position p s1 := by
  unfold Position at hpos ⊢
  rw [hpc, hlevel]
  cases h : s.pc with
  | outer rest =>
    rw [h] at hpos
    obtain ⟨_, h1, h2, h3⟩ := hpos
    rcases hlive with h4 | h4 | h4
    · exact absurd h1 h4
    · exact absurd h2 h4
    · exact absurd h3 h4
  | inner launched todo rest => rw [h] at hpos; exact hpos
  | waiting launched rest => rw [h] at hpos; exact hpos
  | returned err =>
    rw [h] at hpos
    obtain ⟨_, h1, h2, h3⟩ := hpos
    rcases hlive with h4 | h4 | h4
    · exact absurd h1 h4
    · exact absurd h2 h4
    · exact absurd h3 h4
  | crashed => trivial

theorem ParInv.start_step {Ctx T E : Type} (p : Pipeline Ctx T E)
    (s s1 : ParState Ctx T E) (i : Nat) (hinv : ParInv p s)
    (hstep : startStep s i = some s1) : ParInv p s1 := by
  obtain ⟨hpos, hcount, hcur, hearl, hlaunch, hbar, hbuf, hstart⟩ := hinv
  unfold startStep at hstep
  by_cases halive : s.alive = true
  · simp only [halive, if_true] at hstep
    cases hget : s.spawned[i]? with
    | none => rw [hget] at hstep; cases hstep
    | some g =>
      rw [hget] at hstep
      have hgmem : g ∈ s.spawned := List.getElem?_mem hget
      have hne : s.spawned ≠ [] := List.ne_nil_of_mem hgmem
      cases hexec : g.exec with
      | none =>
        simp only [hexec, Option.some.injEq] at hstep
        subst hstep
        exact ⟨by simp [Position], hcount, hcur, hearl,
          by intro n hn; simp [MainPc.launchedNames] at hn, hbar, hbuf, hstart⟩
      | some exec =>
        simp only [hexec, Option.some.injEq] at hstep
        subst hstep
        have hg := hcur g (List.mem_append_left _ hgmem)
        refine ⟨Position.of_goroutine_step p s _ hpos rfl rfl (Or.inl hne), ?_, ?_, ?_, ?_, ?_,
          ?_, ?_⟩
        · simp only [List.length_append, List.length_singleton, Nat.cast_add, Nat.cast_one,
            length_eraseIdx_of_getElem? s.spawned i g hget]
          omega
        · intro g1 hg1
          simp only [List.mem_append, List.mem_singleton] at hg1
          rcases hg1 with hg1 | hg1 | hg1
          · exact hcur g1 (List.mem_append_left _ (List.mem_of_mem_eraseIdx hg1))
          · exact hcur g1 (List.mem_append_right _ hg1)
          · subst hg1; exact hg
        · intro k lk hk hgk n hn
          exact (hearl k lk hk hgk n hn).extend _
        · intro n hn
          rcases hlaunch n hn with ⟨g1, hg1, hgn⟩ | h
          · left
            rcases List.mem_append.mp hg1 with h1 | h1
            · rcases mem_eraseIdx_or_eq s.spawned i g g1 hget h1 with h2 | h2
              · exact ⟨g, by simp, by rw [← h2]; exact hgn⟩
              · exact ⟨g1, by simp [h2], hgn⟩
            · exact ⟨g1, by simp [h1], hgn⟩
          · exact Or.inr (h.extend _)
        · exact hbar.append_started g.level g.name (by rw [hg.1]; exact hearl)
        · exact ⟨hbuf.1, by rw [failures_append_started]; exact hbuf.2⟩
        · intro j m hjm
          simp only [List.mem_append, List.mem_singleton] at hjm
          rcases hjm with h | h
          · exact hstart j m h
          · injection h with h1 h2
            subst h1
            subst h2
            obtain ⟨l, hl, hml⟩ := hg.2
            exact ⟨l, by rw [hg.1]; exact hl, hml⟩
  · simp only [halive] at hstep
    cases hstep

theorem ParInv.complete_step {Ctx T E : Type} (p : Pipeline Ctx T E) (ctx : Ctx)
    (s s1 : ParState Ctx T E) (i : Nat) (hinv : ParInv p s)
    (hstep : completeStep ctx s i = some s1) : ParInv p s1 := by
  obtain ⟨hpos, hcount, hcur, hearl, hlaunch, hbar, hbuf, hstart⟩ := hinv
  unfold completeStep at hstep
  by_cases halive : s.alive = true
  · simp only [halive, if_true] at hstep
    cases hget : s.running[i]? with
    | none => rw [hget] at hstep; cases hstep
    | some g =>
      rw [hget] at hstep
      have hgmem : g ∈ s.running := List.getElem?_mem hget
      have hne : s.running ≠ [] := List.ne_nil_of_mem hgmem
      have hg := hcur g (List.mem_append_right _ hgmem)
      have hcur1 : ∀ g1 ∈ s.spawned ++ s.running.eraseIdx i,
          g1.level = s.level ∧ ∃ l : List String, p.groups[s.level]? = some l ∧ g1.name ∈ l := by
        intro g1 hg1
        rcases List.mem_append.mp hg1 with h1 | h1
        · exact hcur g1 (List.mem_append_left _ h1)
        · exact hcur g1 (List.mem_append_right _ (List.mem_of_mem_eraseIdx h1))
      have hlaunch1 : ∀ (err : Option E), ∀ n ∈ s.pc.launchedNames,
          (∃ g1 ∈ s.spawned ++ s.running.eraseIdx i, g1.name = n) ∨
            Finished (s.trace ++ [ParEvent.finished g.level g.name err]) s.level n := by
        intro err n hn
        rcases hlaunch n hn with ⟨g1, hg1, hgn⟩ | h
        · rcases List.mem_append.mp hg1 with h1 | h1
          · exact Or.inl ⟨g1, List.mem_append_left _ h1, hgn⟩
          · rcases mem_eraseIdx_or_eq s.running i g g1 hget h1 with h2 | h2
            · right
              refine ⟨err, ?_⟩
              rw [← hg.1, ← hgn, h2]
              simp
            · exact Or.inl ⟨g1, List.mem_append_right _ h2, hgn⟩
        · exact Or.inr (h.extend _)
      have hstart1 : ∀ (err : Option E) (j : Nat) (m : String),
          ParEvent.started j m ∈ s.trace ++ [ParEvent.finished g.level g.name err] →
          ∃ l : List String, p.groups[j]? = some l ∧ m ∈ l := by
        intro err j m hjm
        simp only [List.mem_append, List.mem_singleton] at hjm
        rcases hjm with h | h
        · exact hstart j m h
        · cases h
      cases hexec : g.exec with
      | none => simp only [hexec] at hstep; cases hstep
      | some exec =>
        simp only [hexec] at hstep
        rcases hres : exec ctx s.payload with ⟨payload1, _ | err⟩
        · simp only [hres, Option.some.injEq] at hstep
          subst hstep
          refine ⟨Position.of_goroutine_step p s _ hpos rfl rfl (Or.inr (Or.inl hne)), ?_,
            hcur1, fun k lk hk hgk n hn => (hearl k lk hk hgk n hn).extend _, hlaunch1 none,
            hbar.append_finished _ _ _,
            ⟨hbuf.1, by rw [failures_append_success]; exact hbuf.2⟩, hstart1 none⟩
          simp only [length_eraseIdx_of_getElem? s.running i g hget]
          omega
        · simp only [hres, Option.some.injEq] at hstep
          subst hstep
          refine ⟨Position.of_goroutine_step p s _ hpos rfl rfl (Or.inr (Or.inl hne)), ?_,
            hcur1, fun k lk hk hgk n hn => (hearl k lk hk hgk n hn).extend _,
            hlaunch1 (some err), hbar.append_finished _ _ _,
            ⟨hbuf.1, ?_⟩, hstart1 (some err)⟩
          · simp only [length_eraseIdx_of_getElem? s.running i g hget, List.length_append,
              List.length_singleton, Nat.cast_add, Nat.cast_one]
            omega
          · rw [failures_append_failure]
            simp only [List.length_append, List.length_singleton]
            omega
  · simp only [halive] at hstep
    cases hstep

theorem ParInv.send_step {Ctx T E : Type} (p : Pipeline Ctx T E)
    (s s1 : ParState Ctx T E) (i : Nat) (hinv : ParInv p s)
    (hstep : sendStep s i = some s1) : ParInv p s1 := by
  obtain ⟨hpos, hcount, hcur, hearl, hlaunch, hbar, hbuf, hstart⟩ := hinv
  unfold sendStep at hstep
  by_cases halive : s.alive = true
  · simp only [halive, if_true] at hstep
    cases hget : s.sending[i]? with
    | none => rw [hget] at hstep; cases hstep
    | some err =>
      rw [hget] at hstep
      have hne : s.sending ≠ [] := List.ne_nil_of_mem (List.getElem?_mem hget)
      by_cases hroom : s.errs.length < errsCapacity
      · simp only [hroom, if_true, Option.some.injEq] at hstep
        subst hstep
        have hlen := length_eraseIdx_of_getElem? s.sending i err hget
        refine ⟨Position.of_goroutine_step p s _ hpos rfl rfl (Or.inr (Or.inr hne)), ?_,
          hcur, hearl, hlaunch, hbar, ⟨?_, ?_⟩, hstart⟩
        · simp only [hlen]
          omega
        · simp only [List.length_append, List.length_singleton]
          omega
        · simp only [List.length_append, List.length_singleton]
          have := hbuf.2
          omega
      · simp only [hroom, if_false] at hstep
        cases hstep
  · simp only [halive] at hstep
    cases hstep

/-- Every state of every run of `parallel` satisfies the invariant. -/
theorem ParReachable.inv {Ctx T E : Type} (p : Pipeline Ctx T E) (ctx : Ctx) (payload : T)
    (s : ParState Ctx T E) (h : ParReachable p ctx payload s) : ParInv p s := by
  induction h with
  | init => exact ParInv.init p payload
  | step a _ hstep ih =>
    cases a with
    | main => exact ParInv.main_step p ctx _ _ ih hstep
    | start i => exact ParInv.start_step p _ _ i ih hstep
    | complete i => exact ParInv.complete_step p ctx _ _ i ih hstep
    | send i => exact ParInv.send_step p _ _ i ih hstep

/-- The state reached by a schedule is a state of a run. -/
theorem ParReachable.of_run {Ctx T E : Type} (p : Pipeline Ctx T E) (ctx : Ctx) (payload : T)
    (schedule : List ParAction) :
    ∀ s s1 : ParState Ctx T E, ParReachable p ctx payload s →
      parRun p ctx schedule s = some s1 → ParReachable p ctx payload s1 := by
  induction schedule with
  | nil =>
    intro s s1 hs hrun
    simp only [parRun, Option.some.injEq] at hrun
    rw [← hrun]; exact hs
  | cons a schedule ih =>
    intro s s1 hs hrun
    simp only [parRun] at hrun
    cases hstep : parStep p ctx s a with
    | none => rw [hstep] at hrun; cases hrun
    | some s2 =>
      rw [hstep] at hrun
      exact ih s2 s1 (ParReachable.step a hs hstep) hrun

/-! ## The order of the returns in a run of the parallel strategy -/

theorem finishedNames_append {E : Type} (a b : List (ParEvent E)) :
    finishedNames (a ++ b) = finishedNames a ++ finishedNames b := by
  induction a with
  | nil => rfl
  | cons e a ih =>
    cases e with
    | started i n => simpa [finishedNames] using ih
    | finished i n err => simpa [finishedNames] using ih

theorem errorsInOrder_append {Ctx T E : Type} (p : Pipeline Ctx T E) (ctx : Ctx)
    (a b : List String) :
    ∀ payload : T, errorsInOrder p ctx (a ++ b) payload =
      errorsInOrder p ctx a payload ++ errorsInOrder p ctx b (applyInOrder p ctx a payload) := by
  induction a with
  | nil => intro payload; rfl
  | cons n a ih =>
    intro payload
    simp only [List.cons_append, errorsInOrder, applyInOrder]
    cases p.executors n with
    | none => simp [ih]
    | some exec =>
      simp only
      cases (exec ctx payload).2 with
      | none => simp [ih]
      | some err => simp [ih]

theorem perm_cons_eraseIdx {α : Type} (l : List α) :
    ∀ (i : Nat) (g : α), l[i]? = some g → (g :: l.eraseIdx i).Perm l := by
  induction l with
  | nil => intro i g h; simp at h
  | cons a l ih =>
    intro i g h
    cases i with
    | zero =>
      simp only [List.getElem?_cons_zero, Option.some.injEq] at h
      subst h
      exact List.Perm.refl _
    | succ i =>
      simp only [List.getElem?_cons_succ] at h
      simp only [List.eraseIdx_cons_succ]
      exact (List.Perm.swap a g _).trans ((ih i g h).cons a)

theorem forall₂_perm_trans {α : Type} {a b : List (List α)} (hab : List.Forall₂ List.Perm a b) :
    ∀ {c : List (List α)}, List.Forall₂ List.Perm b c → List.Forall₂ List.Perm a c := by
  induction hab with
  | nil => intro c hbc; cases hbc; exact List.Forall₂.nil
  | cons h _ ih =>
    intro c hbc
    cases hbc with
    | cons h1 hbc => exact List.Forall₂.cons (h.trans h1) (ih hbc)

theorem perm_pair {α : Type} (a b : α) (l : List α) (h : l.Perm [a, b]) :
    l = [a, b] ∨ l = [b, a] := by
  have hlen := h.length_eq
  match l, hlen, h with
  | [x, y], _, h =>
    have hx : x ∈ [a, b] := h.subset (by simp)
    simp only [List.mem_cons, List.mem_singleton, List.not_mem_nil, or_false] at hx
    rcases hx with hx | hx
    · subst hx
      have h1 := (List.perm_cons x).mp h
      rw [List.perm_singleton] at h1
      exact Or.inl (by rw [h1])
    · subst hx
      have h1 := (List.perm_cons x).mp (h.trans (List.Perm.swap x a []))
      rw [List.perm_singleton] at h1
      exact Or.inr (by rw [h1])

theorem Position.not_returned {Ctx T E : Type} (p : Pipeline Ctx T E)
    (s : ParState Ctx T E) (hpos : Position p s)
    (hlive : s.spawned ≠ [] ∨ s.running ≠ [] ∨ s.sending ≠ []) :
    ∀ err, s.pc ≠ MainPc.returned err := by
  intro err h
  unfold Position at hpos
  rw [h] at hpos
  obtain ⟨_, h1, h2, h3⟩ := hpos
  rcases hlive with h4 | h4 | h4
  · exact h4 h1
  · exact h4 h2
  · exact h4 h3

theorem ParOrder.at_init {Ctx T E : Type} (p : Pipeline Ctx T E) (ctx : Ctx) (payload : T) :
    ParOrder p ctx payload (parInit p payload) where
  execs := by intro g hg; simp [parInit] at hg
  order := by
    intro _
    exact ⟨[], [], by simp [parInit, finishedNames], by simp [parInit],
      by simp [parInit, MainPc.launchedNames]⟩
  payload := by intro _; rfl
  errors := by simp [parInit, finishedNames, errorsInOrder]
  result := by intro err h; simp [parInit] at h

theorem ParOrder.after_main {Ctx T E : Type} (p : Pipeline Ctx T E) (ctx : Ctx) (payload0 : T)
    (s s1 : ParState Ctx T E) (hinv : ParInv p s) (hord : ParOrder p ctx payload0 s)
    (hstep : mainStep p ctx s = some s1) : ParOrder p ctx payload0 s1 := by
  obtain ⟨hexecs, horder, hpayload, herrors, hresult⟩ := hord
  have hpos := hinv.position
  have hcount := hinv.counter
  unfold mainStep at hstep
  unfold Position at hpos
  unfold ParState.alive at horder
  cases hpc : s.pc with
  | outer rest =>
    rw [hpc] at hstep hpos horder hpayload
    have hpay := hpayload (fun err h => by cases h)
    cases rest with
    | nil =>
      simp only [Option.some.injEq] at hstep
      subst hstep
      refine ⟨hexecs, fun _ => ?_, fun h => absurd rfl (h _), herrors, ?_⟩
      · obtain ⟨completed, cur, h1, h2, h3⟩ := horder rfl
        exact ⟨completed, cur, h1, h2, h3⟩
      · intro err h
        injection h with h
        subst h
        show _ = drain p ctx s.errs (applyInOrder p ctx (finishedNames s.trace) payload0)
        rw [← hpay]
    | cons group rest =>
      simp only [Option.some.injEq] at hstep
      subst hstep
      refine ⟨hexecs, fun _ => ?_, fun _ => hpay, herrors, fun err h => by cases h⟩
      obtain ⟨completed, cur, h1, h2, h3⟩ := horder rfl
      exact ⟨completed, cur, h1, h2, h3⟩
  | inner launched todo rest =>
    rw [hpc] at hstep hpos horder hpayload
    have hpay := hpayload (fun err h => by cases h)
    cases todo with
    | nil =>
      simp only [Option.some.injEq] at hstep
      subst hstep
      refine ⟨hexecs, fun _ => ?_, fun _ => hpay, herrors, fun err h => by cases h⟩
      obtain ⟨completed, cur, h1, h2, h3⟩ := horder rfl
      exact ⟨completed, cur, h1, h2, h3⟩
    | cons execName todo =>
      simp only [Option.some.injEq] at hstep
      subst hstep
      refine ⟨?_, fun _ => ?_, fun _ => hpay, herrors, fun err h => by cases h⟩
      · intro g hg
        simp only [List.mem_append, List.mem_singleton] at hg
        rcases hg with (hg | hg) | hg
        · exact hexecs g (List.mem_append_left _ hg)
        · subst hg; rfl
        · exact hexecs g (List.mem_append_right _ hg)
      · obtain ⟨completed, cur, h1, h2, h3⟩ := horder rfl
        refine ⟨completed, cur, h1, h2, ?_⟩
        simp only [MainPc.launchedNames, List.map_append, List.map_cons, List.map_nil] at h3 ⊢
        have e1 : cur ++ (List.map Task.name s.spawned ++ [execName] ++
            List.map Task.name s.running) =
            (cur ++ List.map Task.name s.spawned) ++ execName :: List.map Task.name s.running := by
          simp
        rw [e1]
        refine List.perm_middle.trans ?_
        refine (List.Perm.cons execName ?_).trans
          (List.perm_append_singleton execName launched).symm
        simpa using h3
  | waiting launched rest =>
    rw [hpc] at hstep hpos horder hpayload
    have hpay := hpayload (fun err h => by cases h)
    by_cases hwg : s.wg = 0
    · simp only [hwg, if_true, Option.some.injEq] at hstep
      subst hstep
      obtain ⟨hget, hdrop⟩ := drop_eq_cons _ _ _ _ hpos
      have hempty : s.spawned = [] ∧ s.running = [] ∧ s.sending = [] := by
        rw [hwg] at hcount
        refine ⟨List.length_eq_zero.mp ?_, List.length_eq_zero.mp ?_,
          List.length_eq_zero.mp ?_⟩ <;> omega
      refine ⟨hexecs, fun _ => ?_, fun _ => hpay, herrors, fun err h => by cases h⟩
      obtain ⟨completed, cur, h1, h2, h3⟩ := horder rfl
      simp only [hempty.1, hempty.2.1, List.append_nil, List.map_nil,
        MainPc.launchedNames] at h3
      refine ⟨completed ++ [cur], [], ?_, ?_, ?_⟩
      · simp only [h1, List.flatten_append, List.flatten_cons, List.flatten_nil, List.append_nil]
      · show List.Forall₂ List.Perm (completed ++ [cur]) (p.groups.take (s.level + 1))
        rw [List.take_succ, hget]
        exact List.rel_append h2 (List.Forall₂.cons h3 List.Forall₂.nil)
      · simp [hempty.1, hempty.2.1, MainPc.launchedNames]
    · simp only [hwg, if_false] at hstep
      cases hstep
  | returned err => rw [hpc] at hstep; cases hstep
  | crashed => rw [hpc] at hstep; cases hstep

theorem ParOrder.after_start {Ctx T E : Type} (p : Pipeline Ctx T E) (ctx : Ctx) (payload0 : T)
    (s s1 : ParState Ctx T E) (i : Nat) (hinv : ParInv p s) (hord : ParOrder p ctx payload0 s)
    (hstep : startStep s i = some s1) : ParOrder p ctx payload0 s1 := by
  obtain ⟨hexecs, horder, hpayload, herrors, hresult⟩ := hord
  unfold startStep at hstep
  by_cases halive : s.alive = true
  · simp only [halive, if_true] at hstep
    cases hget : s.spawned[i]? with
    | none => rw [hget] at hstep; cases hstep
    | some g =>
      rw [hget] at hstep
      have hgmem : g ∈ s.spawned := List.getElem?_mem hget
      have hne : s.spawned ≠ [] := List.ne_nil_of_mem hgmem
      have hnot := Position.not_returned p s hinv.position (Or.inl hne)
      have hpay := hpayload hnot
      cases hexec : g.exec with
      | none =>
        simp only [hexec, Option.some.injEq] at hstep
        subst hstep
        exact ⟨hexecs, fun h => by simp [ParState.alive] at h, fun _ => hpay, herrors,
          fun err h => by cases h⟩
      | some exec =>
        simp only [hexec, Option.some.injEq] at hstep
        subst hstep
        have hnames : finishedNames (s.trace ++ [ParEvent.started g.level g.name]) =
            finishedNames s.trace := by
          rw [finishedNames_append]
          simp [finishedNames]
        refine ⟨?_, fun _ => ?_, fun _ => ?_, ?_, fun err h => absurd h (hnot err)⟩
        · intro g1 hg1
          simp only [List.mem_append, List.mem_singleton] at hg1
          rcases hg1 with hg1 | hg1 | hg1
          · exact hexecs g1 (List.mem_append_left _ (List.mem_of_mem_eraseIdx hg1))
          · exact hexecs g1 (List.mem_append_right _ hg1)
          · subst hg1; exact hexecs g1 (List.mem_append_left _ hgmem)
        · obtain ⟨completed, cur, h1, h2, h3⟩ := horder halive
          refine ⟨completed, cur, by rw [hnames]; exact h1, h2, ?_⟩
          refine List.Perm.trans (List.Perm.append_left cur (List.Perm.map Task.name ?_)) h3
          have e1 : s.spawned.eraseIdx i ++ (s.running ++ [g]) =
              (s.spawned.eraseIdx i ++ s.running) ++ [g] := by simp
          rw [e1]
          refine (List.perm_append_singleton g _).trans ?_
          exact List.Perm.append_right s.running (perm_cons_eraseIdx s.spawned i g hget)
        · show s.payload = _
          rw [hnames]
          exact hpay
        · show (s.errs ++ s.sending).Perm _
          rw [hnames]
          exact herrors
  · simp only [halive] at hstep
    cases hstep

theorem ParOrder.after_complete {Ctx T E : Type} (p : Pipeline Ctx T E) (ctx : Ctx)
    (payload0 : T) (s s1 : ParState Ctx T E) (i : Nat) (hinv : ParInv p s)
    (hord : ParOrder p ctx payload0 s) (hstep : completeStep ctx s i = some s1) :
    ParOrder p ctx payload0 s1 := by
  obtain ⟨hexecs, horder, hpayload, herrors, hresult⟩ := hord
  unfold completeStep at hstep
  by_cases halive : s.alive = true
  · simp only [halive, if_true] at hstep
    cases hget : s.running[i]? with
    | none => rw [hget] at hstep; cases hstep
    | some g =>
      rw [hget] at hstep
      have hgmem : g ∈ s.running := List.getElem?_mem hget
      have hne : s.running ≠ [] := List.ne_nil_of_mem hgmem
      have hnot := Position.not_returned p s hinv.position (Or.inr (Or.inl hne))
      have hpay := hpayload hnot
      have hgexec := hexecs g (List.mem_append_right _ hgmem)
      have hexecs1 : ∀ g1 ∈ s.spawned ++ s.running.eraseIdx i, g1.exec = p.executors g1.name := by
        intro g1 hg1
        rcases List.mem_append.mp hg1 with h1 | h1
        · exact hexecs g1 (List.mem_append_left _ h1)
        · exact hexecs g1 (List.mem_append_right _ (List.mem_of_mem_eraseIdx h1))
      have hnames : ∀ err : Option E,
          finishedNames (s.trace ++ [ParEvent.finished g.level g.name err]) =
            finishedNames s.trace ++ [g.name] := by
        intro err
        rw [finishedNames_append]
        simp [finishedNames]
      have horder1 : ∃ (completed : List (List String)) (cur : List String),
          finishedNames s.trace ++ [g.name] = completed.flatten ++ cur ∧
          List.Forall₂ List.Perm completed (p.groups.take s.level) ∧
          (cur ++ (s.spawned ++ s.running.eraseIdx i).map Task.name).Perm s.pc.launchedNames := by
        obtain ⟨completed, cur, h1, h2, h3⟩ := horder halive
        refine ⟨completed, cur ++ [g.name], by rw [h1, List.append_assoc], h2, ?_⟩
        refine List.Perm.trans ?_ h3
        rw [List.append_assoc]
        refine List.Perm.append_left cur ?_
        have h4 : (g :: (s.spawned ++ s.running.eraseIdx i)).Perm (s.spawned ++ s.running) :=
          List.perm_middle.symm.trans
            (List.Perm.append_left s.spawned (perm_cons_eraseIdx s.running i g hget))
        simpa using List.Perm.map Task.name h4
      cases hexec : g.exec with
      | none => simp only [hexec] at hstep; cases hstep
      | some exec =>
        simp only [hexec] at hstep
        have hreg : p.executors g.name = some exec := by rw [← hgexec, hexec]
        rcases hres : exec ctx s.payload with ⟨payload1, _ | err⟩
        · simp only [hres, Option.some.injEq] at hstep
          subst hstep
          refine ⟨hexecs1, fun _ => ?_, fun _ => ?_, ?_, fun err h => absurd h (hnot err)⟩
          · show ∃ (completed : List (List String)) (cur : List String),
              finishedNames (s.trace ++ [ParEvent.finished g.level g.name none]) = _ ∧ _
            rw [hnames]
            exact horder1
          · show payload1 = applyInOrder p ctx
              (finishedNames (s.trace ++ [ParEvent.finished g.level g.name none])) payload0
            rw [hnames, applyInOrder_append, ← hpay]
            simp only [applyInOrder, hreg, hres]
          · show (s.errs ++ s.sending).Perm (errorsInOrder p ctx
              (finishedNames (s.trace ++ [ParEvent.finished g.level g.name none])) payload0)
            rw [hnames, errorsInOrder_append, ← hpay]
            simp only [errorsInOrder, hreg, hres, List.append_nil]
            exact herrors
        · simp only [hres, Option.some.injEq] at hstep
          subst hstep
          refine ⟨hexecs1, fun _ => ?_, fun _ => ?_, ?_, fun err h => absurd h (hnot err)⟩
          · show ∃ (completed : List (List String)) (cur : List String),
              finishedNames (s.trace ++ [ParEvent.finished g.level g.name (some err)]) = _ ∧ _
            rw [hnames]
            exact horder1
          · show payload1 = applyInOrder p ctx
              (finishedNames (s.trace ++ [ParEvent.finished g.level g.name (some err)])) payload0
            rw [hnames, applyInOrder_append, ← hpay]
            simp only [applyInOrder, hreg, hres]
          · show (s.errs ++ (s.sending ++ [err])).Perm (errorsInOrder p ctx
              (finishedNames (s.trace ++ [ParEvent.finished g.level g.name (some err)])) payload0)
            rw [hnames, errorsInOrder_append, ← hpay, ← List.append_assoc]
            simp only [errorsInOrder, hreg, hres]
            exact List.Perm.append_right [err] herrors
  · simp only [halive] at hstep
    cases hstep

theorem ParOrder.after_send {Ctx T E : Type} (p : Pipeline Ctx T E) (ctx : Ctx) (payload0 : T)
    (s s1 : ParState Ctx T E) (i : Nat) (hinv : ParInv p s) (hord : ParOrder p ctx payload0 s)
    (hstep : sendStep s i = some s1) : ParOrder p ctx payload0 s1 := by
  obtain ⟨hexecs, horder, hpayload, herrors, hresult⟩ := hord
  unfold sendStep at hstep
  by_cases halive : s.alive = true
  · simp only [halive, if_true] at hstep
    cases hget : s.sending[i]? with
    | none => rw [hget] at hstep; cases hstep
    | some err =>
      rw [hget] at hstep
      have hne : s.sending ≠ [] := List.ne_nil_of_mem (List.getElem?_mem hget)
      have hnot := Position.not_returned p s hinv.position (Or.inr (Or.inr hne))
      by_cases hroom : s.errs.length < errsCapacity
      · simp only [hroom, if_true, Option.some.injEq] at hstep
        subst hstep
        refine ⟨hexecs, fun _ => horder halive, fun _ => hpayload hnot, ?_,
          fun err1 h => absurd h (hnot err1)⟩
        show ((s.errs ++ [err]) ++ s.sending.eraseIdx i).Perm _
        refine List.Perm.trans ?_ herrors
        rw [List.append_assoc]
        exact List.Perm.append_left s.errs (perm_cons_eraseIdx s.sending i err hget)
      · simp only [hroom, if_false] at hstep
        cases hstep
  · simp only [halive] at hstep
    cases hstep

/-- Every state of every run of `parallel` satisfies the second invariant. -/
theorem ParReachable.order {Ctx T E : Type} (p : Pipeline Ctx T E) (ctx : Ctx) (payload : T)
    (s : ParState Ctx T E) (h : ParReachable p ctx payload s) : ParOrder p ctx payload s := by
  induction h with
  | init => exact ParOrder.at_init p ctx payload
  | step a hs hstep ih =>
    have hinv := ParReachable.inv p ctx payload _ hs
    cases a with
    | main => exact ParOrder.after_main p ctx payload _ _ hinv ih hstep
    | start i => exact ParOrder.after_start p ctx payload _ _ i hinv ih hstep
    | complete i => exact ParOrder.after_complete p ctx payload _ _ i hinv ih hstep
    | send i => exact ParOrder.after_send p ctx payload _ _ i hinv ih hstep

/-- When `parallel` returns, the executors have returned level by level, each level in
some order of its names; `errs` holds the errors they returned, and the payload and the
result are those of the final reading of `errs` after the executors have been applied
one after another in that order. -/
theorem parallel_returns_levelwise {Ctx T E : Type} (p : Pipeline Ctx T E) (ctx : Ctx)
    (payload : T) (s : ParState Ctx T E) (hreach : ParReachable p ctx payload s)
    (err : Option E) (hret : s.pc = MainPc.returned err) :
    ∃ order : List (List String), List.Forall₂ List.Perm order p.groups ∧
      finishedNames s.trace = order.flatten ∧
      s.errs.Perm (errorsInOrder p ctx order.flatten payload) ∧
      (err, s.payload) = drain p ctx s.errs (applyInOrder p ctx order.flatten payload) := by
  have hinv := ParReachable.inv p ctx payload s hreach
  have hord := ParReachable.order p ctx payload s hreach
  have hpos := hinv.position
  unfold Position at hpos
  rw [hret] at hpos
  obtain ⟨hlen, hs1, hs2, hs3⟩ := hpos
  obtain ⟨completed, cur, h1, h2, h3⟩ := hord.order (by simp [ParState.alive, hret])
  simp only [hret, hs1, hs2, MainPc.launchedNames, List.append_nil, List.map_nil,
    List.perm_nil] at h3
  subst h3
  rw [List.append_nil] at h1
  rw [List.take_of_length_le hlen] at h2
  have herrs := hord.errors
  rw [hs3, List.append_nil, h1] at herrs
  have hres := hord.result err hret
  rw [h1] at hres
  exact ⟨completed, h2, h1, herrs, hres⟩

/-- In every run of `parallel` on the graph `breakfastGraph` with the executors of
`examples/parallel`, for every order in which `sort` visits its maps and every
interleaving of the goroutines: when `parallel` returns, it returns `nil`, and
`scramble` has read the prices written by `eggs` and `milk`. -/
theorem breakfast_scramble_reads_eggs_and_milk (ord : Orders)
    (hord : ValidOrders breakfastGraph ord) (levels : List (List String))
    (hsort : sortLevels breakfastGraph ord = Except.ok levels)
    (s : ParState Unit Prices String)
    (hreach : ParReachable { breakfastParallel with groups := levels } () GoMap.empty s)
    (err : Option String) (hret : s.pc = MainPc.returned err) :
    err = none ∧ s.payload "eggs" = some 1 ∧ s.payload "milk" = some 1 ∧
      s.payload "scramble" = some 2 := by
  obtain ⟨levels1, hsort1, hlev1⟩ := sortLevels_spec breakfastGraph ord hord
  rw [hsort] at hsort1
  injection hsort1 with hsort1
  subst hsort1
  obtain ⟨levels0, hsort0, hlev0⟩ := sortLevels_spec breakfastGraph breakfastOrders
    breakfastOrders_valid
  have h0 : levels0 = [["db"], ["milk", "eggs"], ["scramble"]] := by
    have : sortLevels breakfastGraph breakfastOrders =
        Except.ok [["db"], ["milk", "eggs"], ["scramble"]] := rfl
    rw [this] at hsort0
    injection hsort0 with hsort0
    exact hsort0.symm
  subst h0
  have hperm := Leveling.perm breakfastGraph levels _ [] [] (fun _ => Iff.rfl) hlev1 hlev0
  obtain ⟨order, ho, _, herrs, hres⟩ := parallel_returns_levelwise _ () GoMap.empty s hreach
    err hret
  have ho1 : List.Forall₂ List.Perm order [["db"], ["milk", "eggs"], ["scramble"]] :=
    forall₂_perm_trans ho hperm
  cases ho1 with
  | cons ha ho2 =>
    cases ho2 with
    | cons hb ho3 =>
      cases ho3 with
      | cons hc ho4 =>
        cases ho4
        rw [List.perm_singleton] at ha hc
        subst ha
        subst hc
        rcases perm_pair _ _ _ hb with hb1 | hb1
        · subst hb1
          have he : errorsInOrder ({ breakfastParallel with groups := levels } :
              Pipeline Unit Prices String) ()
              ([["db"], ["milk", "eggs"], ["scramble"]].flatten) GoMap.empty = [] := rfl
          rw [he, List.perm_nil] at herrs
          rw [herrs] at hres
          simp only [drain, Prod.mk.injEq] at hres
          obtain ⟨h1, h2⟩ := hres
          subst h1
          rw [h2]
          exact ⟨rfl, rfl, rfl, rfl⟩
        · subst hb1
          have he : errorsInOrder ({ breakfastParallel with groups := levels } :
              Pipeline Unit Prices String) ()
              ([["db"], ["eggs", "milk"], ["scramble"]].flatten) GoMap.empty = [] := rfl
          rw [he, List.perm_nil] at herrs
          rw [herrs] at hres
          simp only [drain, Prod.mk.injEq] at hres
          obtain ⟨h1, h2⟩ := hres
          subst h1
          rw [h2]
          exact ⟨rfl, rfl, rfl, rfl⟩

/-! ## The claims on the parallel strategy -/

/-- When `parallel` returns, every executor of every level has been run, whatever the
executors returned. -/
theorem parallel_returns_after_all_levels {Ctx T E : Type} (p : Pipeline Ctx T E) (ctx : Ctx)
    (payload : T) (s : ParState Ctx T E) (hreach : ParReachable p ctx payload s)
    (err : Option E) (hret : s.pc = MainPc.returned err) :
    ∀ (i : Nat) (li : List String), p.groups[i]? = some li → ∀ n ∈ li, Finished s.trace i n := by
  have hinv := ParReachable.inv p ctx payload s hreach
  have hpos := hinv.position
  unfold Position at hpos
  rw [hret] at hpos
  intro i li hi n hn
  have hlt : i < p.groups.length := (List.getElem?_eq_some_iff.mp hi).1
  exact hinv.earlier i li (by omega) hi n hn

/-- Once two executors have returned an error, `parallel` never returns. -/
theorem parallel_never_returns_after_two_failures {Ctx T E : Type} (p : Pipeline Ctx T E)
    (ctx : Ctx) (payload : T) (s : ParState Ctx T E) (hreach : ParReachable p ctx payload s)
    (hfail : 2 ≤ failures s.trace) : ∀ err, s.pc ≠ MainPc.returned err := by
  intro err hret
  have hinv := ParReachable.inv p ctx payload s hreach
  have hpos := hinv.position
  unfold Position at hpos
  rw [hret] at hpos
  have hbuf := hinv.buffer
  rw [hpos.2.2.2] at hbuf
  simp only [List.length_nil, errsCapacity] at hbuf
  omega

/-- C12 fails on the code: in the run `abortSchedule` of `abortParallel`, which has no
error callback, `scramble` of level 0 returns an error, and after that `eggs` of level 1
is started and run; only then does `parallel` return the error. -/
theorem parallel_runs_next_level_after_failure :
    ∃ s, parRun abortParallel () abortSchedule (parInit abortParallel GoMap.empty) = some s ∧
      abortParallel.groups = [["milk", "scramble"], ["eggs"]] ∧
      abortParallel.onError = none ∧
      s.trace = [ParEvent.started 0 "scramble", ParEvent.started 0 "milk",
        ParEvent.finished 0 "scramble" (some "eggs not found"),
        ParEvent.finished 0 "milk" none,
        ParEvent.started 1 "eggs", ParEvent.finished 1 "eggs" none] ∧
      s.pc = MainPc.returned (some "eggs not found") ∧
      s.payload "eggs" = some 1 :=
  ⟨_, rfl, rfl, rfl, rfl, rfl, rfl⟩

/-- C15 fails on the code: `errs` holds one error, whatever the size of a level.  In
the run `twoFailuresSchedule` both executors of the only level of `twoFailures` have
returned an error; the first error fills the buffer, the goroutine of the second is
blocked at `errs <- err`, the main goroutine is blocked at `wg.Wait()`, and no step is
left: `parallel` does not return. -/
theorem parallel_deadlocks_on_two_failures :
    ∃ s, parRun twoFailures () twoFailuresSchedule (parInit twoFailures GoMap.empty) = some s ∧
      twoFailures.groups = [["scramble", "omelette"]] ∧
      errsCapacity = 1 ∧
      s.trace = [ParEvent.started 0 "scramble", ParEvent.started 0 "omelette",
        ParEvent.finished 0 "scramble" (some "eggs not found"),
        ParEvent.finished 0 "omelette" (some "eggs not found")] ∧
      s.spawned = [] ∧ s.running = [] ∧
      s.errs = ["eggs not found"] ∧ s.sending = ["eggs not found"] ∧ s.wg = 1 ∧
      s.pc = MainPc.waiting ["scramble", "omelette"] [] ∧
      s.deadlocked twoFailures () := by
  refine ⟨_, rfl, rfl, rfl, rfl, rfl, rfl, rfl, rfl, rfl, rfl, ?_, ?_, ?_⟩
  · intro a
    cases a with
    | main => rfl
    | start i => rfl
    | complete i => rfl
    | send i =>
      cases i with
      | zero => rfl
      | succ i => rfl
  · intro err h
    cases h
  · intro h
    cases h

/-- C14: in every run of `parallel`, for every interleaving of the goroutines, when an
executor of a level is started every executor of every earlier level has returned,
with success or with an error; the executor started belongs to the level it is
started in. -/
theorem parallel_barrier {Ctx T E : Type} (p : Pipeline Ctx T E) (ctx : Ctx) (payload : T)
    (s : ParState Ctx T E) (hreach : ParReachable p ctx payload s)
    (pre post : List (ParEvent E)) (j : Nat) (m : String)
    (htrace : s.trace = pre ++ ParEvent.started j m :: post) :
    (∃ lj : List String, p.groups[j]? = some lj ∧ m ∈ lj) ∧
    ∀ (i : Nat) (li : List String), i < j → p.groups[i]? = some li →
      ∀ n ∈ li, ∃ err, ParEvent.finished i n err ∈ pre := by
  have hinv := ParReachable.inv p ctx payload s hreach
  refine ⟨hinv.startedIn j m (by rw [htrace]; simp), ?_⟩
  intro i li hij hi n hn
  exact hinv.barrier pre post j m htrace i li hij hi n hn

/-- The run `breakfastSchedule` of `breakfastParallel`, in which `eggs` and `milk`
overlap: `scramble` is started after both have returned; and in every run that returns,
`scramble` has added the prices written by `eggs` and `milk`. -/
theorem parallel_barrier_witness :
    ∃ s, parRun breakfastParallel () breakfastSchedule (parInit breakfastParallel GoMap.empty)
        = some s ∧
      s.pc = MainPc.returned none ∧
      s.payload "scramble" = some 2 ∧
      s.trace = breakfastLog ++
        ParEvent.started 2 "scramble" :: [ParEvent.finished 2 "scramble" none] ∧
      ((∃ lj : List String, breakfastParallel.groups[2]? = some lj ∧ "scramble" ∈ lj) ∧
        ∀ (i : Nat) (li : List String), i < 2 → breakfastParallel.groups[i]? = some li →
          ∀ n ∈ li, ∃ err, ParEvent.finished i n err ∈ breakfastLog) ∧
      ∀ s1 : ParState Unit Prices String, ParReachable breakfastParallel () GoMap.empty s1 →
        ∀ err, s1.pc = MainPc.returned err → err = none ∧ s1.payload "scramble" = some 2 :=
  ⟨_, rfl, rfl, rfl, rfl,
    parallel_barrier breakfastParallel () GoMap.empty _
      (ParReachable.of_run breakfastParallel () GoMap.empty breakfastSchedule _ _
        ParReachable.init rfl) breakfastLog _ 2 "scramble" rfl,
    fun s1 hreach err hret =>
      have h := breakfast_scramble_reads_eggs_and_milk breakfastOrders breakfastOrders_valid
        [["db"], ["milk", "eggs"], ["scramble"]] rfl s1 hreach err hret
      ⟨h.1, h.2.2.2⟩⟩

/-! ## Executors outside the dependency graph -/

/-- With a strategy other than the parallel one, `Execute` invokes only executors whose
names are in the levels. -/
theorem Execute_invoked_subset {Ctx T E : Type}
    (parallel : Pipeline Ctx T E → Ctx → T → Run T E) (p : Pipeline Ctx T E) (ctx : Ctx)
    (payload : T) (hpar : p.strategy ≠ StrategyParallel) (x : String)
    (hx : x ∈ (p.Execute parallel ctx payload).invoked) : x ∈ p.groups.flatten := by
  by_cases hseq : p.strategy = StrategySequential
  · exact Execute_sequential_invoked_subset parallel p ctx payload hseq x hx
  · unfold Pipeline.Execute at hx
    simp only [hpar, hseq, if_false, Run.invoked, List.map_nil, List.not_mem_nil] at hx

theorem breakfastParallel_built :
    (New "prices" [WithDependencyGraph (some breakfastGraph),
        WithExecutionStrategy StrategyParallel]).addExecutors
        [("scramble", scrambleExec, breakfastOrders), ("milk", milkExec, breakfastOrders),
          ("eggs", eggsExec, breakfastOrders), ("db", dbExec, breakfastOrders)] =
      Except.ok breakfastParallel := rfl

theorem carrotsParallel_built :
    breakfastParallel.AddExecutor breakfastOrders "carrots" carrotsExec =
      Except.ok carrotsParallel := rfl

theorem carrots_not_mentioned : ¬ Mentioned breakfastGraph "carrots" := fun h =>
  absurd ((mentioned_ofList _ (by decide) "carrots").mp h) (by decide)

/-- C9: when a dependency graph is configured, after an `AddExecutor` call has
returned no name that is mentioned nowhere in the graph is in any level, and `Execute`
invokes no executor of such a name, whatever the strategy: no run of `parallel`, under
any interleaving of the goroutines, starts it, and with every other strategy `Execute`,
which then runs `sequential` or returns at once, does not call it. -/
theorem AddExecutor_excludes_unmentioned {Ctx T E : Type} (p : Pipeline Ctx T E)
    (dg : GoMap (List String)) (ord : Orders) (id : String) (exec : Executor Ctx T E)
    (hdg : p.dependencyGraph = some dg) (hgroups : p.groups ≠ [])
    (hord : ValidOrders dg ord) :
    ∃ p1, p.AddExecutor ord id exec = Except.ok p1 ∧
      p1.executors id = some exec ∧
      ∀ x, ¬ Mentioned dg x →
        x ∉ p1.groups.flatten ∧
        (∀ (ctx : Ctx) (payload : T) (s : ParState Ctx T E),
          ParReachable p1 ctx payload s → ∀ j, ParEvent.started j x ∉ s.trace) ∧
        (p1.strategy ≠ StrategyParallel →
          ∀ (parallel : Pipeline Ctx T E → Ctx → T → Run T E) (ctx : Ctx) (payload : T),
            x ∉ (p1.Execute parallel ctx payload).invoked) := by
  obtain ⟨levels, hsort, hlev⟩ := sortLevels_spec dg ord hord
  cases hg : p.groups with
  | nil => exact absurd hg hgroups
  | cons g gs =>
    have hadd : p.AddExecutor ord id exec =
        Except.ok { p with executors := p.executors.set id exec, groups := levels } := by
      unfold Pipeline.AddExecutor
      rw [hg]
      simp only
      exact sort_eq_of_levels _ dg ord levels hdg hsort
    refine ⟨_, hadd, GoMap.set_self _ _ _, fun x hx => ?_⟩
    have hnot : x ∉ levels.flatten := fun h => hx (Leveling.mentioned dg levels [] hlev x h)
    refine ⟨hnot, ?_, ?_⟩
    · intro ctx payload s hreach j hmem
      obtain ⟨l, hl, hxl⟩ := (ParReachable.inv _ ctx payload s hreach).startedIn j x hmem
      exact hnot (List.mem_flatten.mpr ⟨l, List.getElem?_mem hl, hxl⟩)
    · intro hpar parallel ctx payload h
      exact hnot (Execute_invoked_subset parallel _ ctx payload hpar x h)

/-- The pipeline of the graph `breakfastGraph` with its four executors registered, to
which `carrots` is added: `carrots` is in no level, the run `breakfastSchedule` of the
parallel strategy and the sequential run both call the four executors of the graph and
return `nil`, and `carrots` has written no price. -/
theorem AddExecutor_excludes_unmentioned_witness :
    (∃ p1, breakfastParallel.AddExecutor breakfastOrders "carrots" carrotsExec = Except.ok p1 ∧
      p1.executors "carrots" = some carrotsExec ∧
      ∀ x, ¬ Mentioned breakfastGraph x →
        x ∉ p1.groups.flatten ∧
        (∀ (ctx : Unit) (payload : Prices) (s : ParState Unit Prices String),
          ParReachable p1 ctx payload s → ∀ j, ParEvent.started j x ∉ s.trace) ∧
        (p1.strategy ≠ StrategyParallel →
          ∀ (parallel : Pipeline Unit Prices String → Unit → Prices → Run Prices String)
            (ctx : Unit) (payload : Prices), x ∉ (p1.Execute parallel ctx payload).invoked)) ∧
    breakfastParallel.AddExecutor breakfastOrders "carrots" carrotsExec =
      Except.ok carrotsParallel ∧
    ¬ Mentioned breakfastGraph "carrots" ∧
    (∃ s, parRun carrotsParallel () breakfastSchedule (parInit carrotsParallel GoMap.empty)
        = some s ∧
      s.pc = MainPc.returned none ∧
      finishedNames s.trace = ["db", "milk", "eggs", "scramble"] ∧
      s.payload "scramble" = some 2 ∧ s.payload "carrots" = none) ∧
    (carrotsSequential.Execute noParallel () GoMap.empty).status = Status.returned none ∧
    (carrotsSequential.Execute noParallel () GoMap.empty).invoked =
      ["db", "milk", "eggs", "scramble"] ∧
    (carrotsSequential.Execute noParallel () GoMap.empty).payload "scramble" = some 2 ∧
    (carrotsSequential.Execute noParallel () GoMap.empty).payload "carrots" = none :=
  ⟨AddExecutor_excludes_unmentioned breakfastParallel breakfastGraph breakfastOrders
      "carrots" carrotsExec rfl (by decide) breakfastOrders_valid,
    rfl, carrots_not_mentioned, ⟨_, rfl, rfl, rfl, rfl, rfl⟩, rfl, rfl, rfl, rfl⟩

end pipeline
